import Mathlib

/-!
# Namespace model of the template package (template.go)

A shallow embedding of `template.go`: Go pointers become indices into an explicit
heap, every method becomes a function from heap to heap, and a Go run-time panic
(nil dereference, explicit `panic`) becomes an `Except.error`.
-/

namespace Nifi

/-! ## Data model -/

/-- A non-nil `*parse.Tree`: the address of a tree produced by the parser. -/
abbrev TreePtr := Nat
/-- A non-nil `*Template`: an index into `Heap.templates`. -/
abbrev TmplPtr := Nat
/-- A non-nil `*common`: an index into `Heap.commons`. -/
abbrev CommonPtr := Nat
/-- A function value stored in a `FuncMap`. -/
abbrev FuncVal := Nat
/-- The Go type `FuncMap`, a map from names to function values. -/
abbrev FuncMap := List (String × FuncVal)

/-- The Go struct `Template`; `Tree` and `common` are the embedded pointers, `none` is nil. -/
structure Template where
  name : String
  Tree : Option TreePtr
  common : Option CommonPtr
  leftDelim : String
  rightDelim : String
deriving DecidableEq, Repr

/-- The Go struct `common`; each Go map is an association list with distinct keys. -/
structure common where
  tmpl : List (String × TmplPtr)
  parseFuncs : FuncMap
  execFuncs : List (String × FuncVal)
deriving DecidableEq, Repr

/-- The heap: all allocated `Template` and `common` objects, addressed by position. -/
structure Heap where
  templates : List Template
  commons : List common
deriving DecidableEq, Repr

/-- A Go run-time panic. -/
inductive Fault where
  | nilDeref
  | associateNotCommon
  | badFunc
deriving DecidableEq, Repr

/-- A Go `error` value: one built by `fmt.Errorf(format, arg)`, or the parser's own error. -/
inductive Error where
  | errorf (format : String) (arg : String)
  | parser (e : String)
deriving DecidableEq, Repr

/-- The external collaborators: `parse.IsEmptyTree` applied to the root of a tree,
`parse.Parse` (with the fixed built-in function set), and the evaluator's test
for an acceptable function value. -/
structure Env where
  IsEmptyTree : TreePtr → Bool
  Parse : String → String → String → String → FuncMap → Except String (List (String × TreePtr))
  goodFunc : FuncVal → Bool

/-! ## Go maps as association lists -/

/-- Map read `m[k]`. -/
def mapGet {β : Type} : List (String × β) → String → Option β
  | [], _ => none
  | (k', v) :: rest, k => if k' = k then some v else mapGet rest k

/-- Map write `m[k] = v`. -/
def mapSet {β : Type} : List (String × β) → String → β → List (String × β)
  | [], k, v => [(k, v)]
  | (k', v') :: rest, k, v => if k' = k then (k, v) :: rest else (k', v') :: mapSet rest k v

/-! ## Heap access -/

/-- Dereference of a `*Template`. -/
def deref (h : Heap) (t : TmplPtr) : Except Fault Template :=
  match h.templates[t]? with
  | some tv => .ok tv
  | none => .error .nilDeref

/-- Access to the promoted fields of `t.common`: panics when `t.common` is nil. -/
def getCommon (h : Heap) (t : TmplPtr) : Except Fault (CommonPtr × common) :=
  match h.templates[t]? with
  | none => .error .nilDeref
  | some tv =>
    match tv.common with
    | none => .error .nilDeref
    | some c =>
      match h.commons[c]? with
      | none => .error .nilDeref
      | some cv => .ok (c, cv)

/-- Allocation of a new `Template` object. -/
def allocTmpl (h : Heap) (v : Template) : TmplPtr × Heap :=
  (h.templates.length, { h with templates := h.templates ++ [v] })

/-- Assignment to fields of the `Template` at `p`. -/
def updTmpl (h : Heap) (p : TmplPtr) (f : Template → Template) : Heap :=
  match h.templates[p]? with
  | some v => { h with templates := h.templates.set p (f v) }
  | none => h

/-- Assignment to fields (maps) of the `common` at `c`. -/
def updCommon (h : Heap) (c : CommonPtr) (f : common → common) : Heap :=
  match h.commons[c]? with
  | some v => { h with commons := h.commons.set c (f v) }
  | none => h

/-! ## The operations of template.go -/

/-- The package-level `New(name)`. -/
def New (h : Heap) (name : String) : TmplPtr × Heap :=
  allocTmpl h { name := name, Tree := none, common := none, leftDelim := "", rightDelim := "" }

/-- The method `Name`. -/
def Template.Name (h : Heap) (t : TmplPtr) : Except Fault String :=
  match deref h t with
  | .error f => .error f
  | .ok tv => .ok tv.name

/-- The method `init`: allocates the shared structure with three empty maps when absent. -/
def Template.init (h : Heap) (t : TmplPtr) : Except Fault Heap :=
  match deref h t with
  | .error f => .error f
  | .ok tv =>
    match tv.common with
    | some _ => .ok h
    | none =>
      let c := h.commons.length
      let h1 : Heap := { h with commons := h.commons ++ [{ tmpl := [], parseFuncs := [], execFuncs := [] }] }
      .ok (updTmpl h1 t (fun x => { x with common := some c }))

/-- The method `New` on a handle. -/
def Template.New (h : Heap) (t : TmplPtr) (name : String) : Except Fault (TmplPtr × Heap) :=
  match Template.init h t with
  | .error f => .error f
  | .ok h1 =>
    match deref h1 t with
    | .error f => .error f
    | .ok tv =>
      .ok (allocTmpl h1 { name := name, Tree := none, common := tv.common,
                          leftDelim := tv.leftDelim, rightDelim := tv.rightDelim })

/-- The method `copy`: a shallow copy of `t` with `common` set to the argument. -/
def Template.copy (h : Heap) (t : TmplPtr) (c : Option CommonPtr) : Except Fault (TmplPtr × Heap) :=
  match deref h t with
  | .error f => .error f
  | .ok tv =>
    .ok (allocTmpl h { name := tv.name, Tree := tv.Tree, common := c,
                       leftDelim := tv.leftDelim, rightDelim := tv.rightDelim })

/-- The first loop of `Clone`, over the entries of `t.tmpl`, writing into `nt.tmpl`. -/
def cloneTmpls (h : Heap) (tname : String) (nt : TmplPtr) :
    List (String × TmplPtr) → Except Fault Heap
  | [] => .ok h
  | (k, v) :: rest =>
    if k = tname then cloneTmpls h tname nt rest
    else
      match getCommon h nt with
      | .error f => .error f
      | .ok (ntc, _) =>
        match Template.copy h v (some ntc) with
        | .error f => .error f
        | .ok (tmpl, h1) =>
          cloneTmpls (updCommon h1 ntc (fun x => { x with tmpl := mapSet x.tmpl k tmpl })) tname nt rest

/-- The loops `for k, v := range src { dst[k] = v }` of `Clone`. -/
def copyFuncs (dst : List (String × FuncVal)) : List (String × FuncVal) → List (String × FuncVal)
  | [] => dst
  | (k, v) :: rest => copyFuncs (mapSet dst k v) rest

/-- The method `Clone`. -/
def Template.Clone (h : Heap) (t : TmplPtr) : Except Fault ((TmplPtr × Option Error) × Heap) :=
  match Template.copy h t none with
  | .error f => .error f
  | .ok (nt, h1) =>
    match Template.init h1 nt with
    | .error f => .error f
    | .ok h2 =>
      match getCommon h2 nt, deref h2 t with
      | .error f, _ => .error f
      | _, .error f => .error f
      | .ok (ntc, _), .ok tv =>
        let h3 := updCommon h2 ntc (fun x => { x with tmpl := mapSet x.tmpl tv.name nt })
        match getCommon h3 t with
        | .error f => .error f
        | .ok (_, tcv) =>
          match cloneTmpls h3 tv.name nt tcv.tmpl with
          | .error f => .error f
          | .ok h4 =>
            let h5 := updCommon h4 ntc (fun x => { x with parseFuncs := copyFuncs x.parseFuncs tcv.parseFuncs })
            let h6 := updCommon h5 ntc (fun x => { x with execFuncs := copyFuncs x.execFuncs tcv.execFuncs })
            .ok ((nt, none), h6)

/-- The method `AddParseTree`. -/
def Template.AddParseTree (h : Heap) (t : TmplPtr) (name : String) (tree : Option TreePtr) :
    Except Fault ((Option TmplPtr × Option Error) × Heap) :=
  match deref h t with
  | .error f => .error f
  | .ok tv =>
    let taken : Except Fault Bool :=
      match tv.common with
      | none => .ok false
      | some c =>
        match h.commons[c]? with
        | none => .error .nilDeref
        | some cv => .ok (mapGet cv.tmpl name).isSome
    match taken with
    | .error f => .error f
    | .ok true => .ok ((none, some (.errorf "nifi: redefinition of nifi %q" name)), h)
    | .ok false =>
      match Template.New h t name with
      | .error f => .error f
      | .ok (nt, h1) =>
        let h2 := updTmpl h1 nt (fun x => { x with Tree := tree })
        match getCommon h2 t with
        | .error f => .error f
        | .ok (c, _) => .ok ((some nt, none), updCommon h2 c (fun x => { x with tmpl := mapSet x.tmpl name nt }))

/-- The method `Templates`: the values of `t.tmpl`, or nil without a namespace. -/
def Template.Templates (h : Heap) (t : TmplPtr) : Except Fault (List TmplPtr) :=
  match deref h t with
  | .error f => .error f
  | .ok tv =>
    match tv.common with
    | none => .ok []
    | some c =>
      match h.commons[c]? with
      | none => .error .nilDeref
      | some cv => .ok (cv.tmpl.map Prod.snd)

/-- The method `Delims`. -/
def Template.Delims (h : Heap) (t : TmplPtr) (left right : String) : Except Fault (TmplPtr × Heap) :=
  match deref h t with
  | .error f => .error f
  | .ok _ =>
    let h1 := updTmpl h t (fun x => { x with leftDelim := left })
    let h2 := updTmpl h1 t (fun x => { x with rightDelim := right })
    .ok (t, h2)

/-- Modelled from the spec: `addValueFuncs` of funcs.go, which is not part of the given
sources. It merges every entry into the execution table and raises the fatal
configuration fault at the first value that is not an acceptable function. -/
def addValueFuncs (E : Env) (out : List (String × FuncVal)) :
    FuncMap → Except Fault (List (String × FuncVal))
  | [] => .ok out
  | (k, v) :: rest => if E.goodFunc v then addValueFuncs E (mapSet out k v) rest else .error .badFunc

/-- Modelled from the spec: `addFuncs` of funcs.go, which is not part of the given
sources. It merges every entry into the parse table, overwriting existing names. -/
def addFuncs (out : FuncMap) : FuncMap → FuncMap
  | [] => out
  | (k, v) :: rest => addFuncs (mapSet out k v) rest

/-- The method `Funcs`. -/
def Template.Funcs (E : Env) (h : Heap) (t : TmplPtr) (funcMap : FuncMap) : Except Fault (TmplPtr × Heap) :=
  match Template.init h t with
  | .error f => .error f
  | .ok h1 =>
    match getCommon h1 t with
    | .error f => .error f
    | .ok (c, cv) =>
      match addValueFuncs E cv.execFuncs funcMap with
      | .error f => .error f
      | .ok ef =>
        let h2 := updCommon h1 c (fun x => { x with execFuncs := ef })
        let h3 := updCommon h2 c (fun x => { x with parseFuncs := addFuncs x.parseFuncs funcMap })
        .ok (t, h3)

/-- The method `Lookup`. -/
def Template.Lookup (h : Heap) (t : TmplPtr) (name : String) : Except Fault (Option TmplPtr) :=
  match deref h t with
  | .error f => .error f
  | .ok tv =>
    match tv.common with
    | none => .ok none
    | some c =>
      match h.commons[c]? with
      | none => .error .nilDeref
      | some cv => .ok (mapGet cv.tmpl name)

/-- The expression `x.Root` through the embedded `*parse.Tree`: panics on a nil tree. -/
def treeRoot (tree : Option TreePtr) : Except Fault TreePtr :=
  match tree with
  | some r => .ok r
  | none => .error .nilDeref

/-- The method `associate`. -/
def Template.associate (E : Env) (h : Heap) (t new : TmplPtr) (tree : Option TreePtr) :
    Except Fault ((Bool × Option Error) × Heap) :=
  match deref h new, deref h t with
  | .error f, _ => .error f
  | _, .error f => .error f
  | .ok nv, .ok tv =>
    if nv.common ≠ tv.common then .error .associateNotCommon
    else
      let name := nv.name
      match getCommon h t with
      | .error f => .error f
      | .ok (c, cv) =>
        let install : Except Fault ((Bool × Option Error) × Heap) :=
          .ok ((true, none), updCommon h c (fun x => { x with tmpl := mapSet x.tmpl name new }))
        match mapGet cv.tmpl name with
        | none => install
        | some old =>
          match deref h old with
          | .error f => .error f
          | .ok ov =>
            match treeRoot ov.Tree with
            | .error f => .error f
            | .ok oroot =>
              let oldIsEmpty := E.IsEmptyTree oroot
              match treeRoot tree with
              | .error f => .error f
              | .ok nroot =>
                let newIsEmpty := E.IsEmptyTree nroot
                if newIsEmpty then .ok ((false, none), h)
                else if !oldIsEmpty then
                  .ok ((false, some (.errorf "nifi: redefinition of nifi %q" name)), h)
                else install

/-- One iteration of the loop of `Parse`, for the entry `name, tree` of the parser's map. -/
def parseStep (E : Env) (h : Heap) (t : TmplPtr) (name : String) (tree : TreePtr) :
    Except Fault (Option Error × Heap) :=
  match deref h t with
  | .error f => .error f
  | .ok tv =>
    let made : Except Fault (TmplPtr × Heap) :=
      if name ≠ tv.name then Template.New h t name else .ok (t, h)
    match made with
    | .error f => .error f
    | .ok (tmpl, h1) =>
      match Template.associate E h1 t tmpl (some tree) with
      | .error f => .error f
      | .ok ((_, some err), h2) => .ok (some err, h2)
      | .ok ((replace, none), h2) =>
        let h3 := if replace then updTmpl h2 tmpl (fun x => { x with Tree := some tree }) else h2
        match deref h3 tmpl, deref h3 t with
        | .error f, _ => .error f
        | _, .error f => .error f
        | .ok _, .ok tv3 =>
          let h4 := updTmpl h3 tmpl (fun x => { x with leftDelim := tv3.leftDelim })
          match deref h4 t with
          | .error f => .error f
          | .ok tv4 => .ok (none, updTmpl h4 tmpl (fun x => { x with rightDelim := tv4.rightDelim }))

/-- The loop of `Parse` over the parser's map, in the order the map is traversed. -/
def parseLoop (E : Env) (h : Heap) (t : TmplPtr) : List (String × TreePtr) → Except Fault (Option Error × Heap)
  | [] => .ok (none, h)
  | (name, tree) :: rest =>
    match parseStep E h t name tree with
    | .error f => .error f
    | .ok (some err, h1) => .ok (some err, h1)
    | .ok (none, h1) => parseLoop E h1 t rest

/-- The method `Parse`. -/
def Template.Parse (E : Env) (h : Heap) (t : TmplPtr) (text : String) :
    Except Fault ((Option TmplPtr × Option Error) × Heap) :=
  match Template.init h t with
  | .error f => .error f
  | .ok h1 =>
    match deref h1 t, getCommon h1 t with
    | .error f, _ => .error f
    | _, .error f => .error f
    | .ok tv, .ok (_, cv) =>
      match E.Parse tv.name text tv.leftDelim tv.rightDelim cv.parseFuncs with
      | .error e => .ok ((none, some (.parser e)), h1)
      | .ok trees =>
        match parseLoop E h1 t trees with
        | .error f => .error f
        | .ok (some err, h2) => .ok ((none, some err), h2)
        | .ok (none, h2) => .ok ((some t, none), h2)

/-! ## Auxiliary notions for the analysis -/

/-- The handle registered under `k` in the namespace at `c`. -/
def regAt (h : Heap) (c : CommonPtr) (k : String) : Option TmplPtr :=
  match h.commons[c]? with
  | none => none
  | some cv => mapGet cv.tmpl k

/-- The handle registered under `k` in the namespace at `c`, with its fields. -/
def view (h : Heap) (c : CommonPtr) (k : String) : Option (TmplPtr × Template) :=
  match regAt h c k with
  | none => none
  | some p =>
    match h.templates[p]? with
    | none => none
    | some pv => some (p, pv)

/-- The state in which the loop of `Parse` runs: `t` is a live handle with name `tn`,
delimiters `L`, `R` and namespace `c`; every registered handle is live; and `t` is
registered under no name but its own; `pf` and `ef` are the function tables of `c`. -/
structure Inv (h : Heap) (t : TmplPtr) (c : CommonPtr) (tn L R : String)
    (pf : FuncMap) (ef : List (String × FuncVal)) : Prop where
  ht : ∃ tr, h.templates[t]? = some ⟨tn, tr, some c, L, R⟩
  hc : c < h.commons.length
  reg : ∀ k p, regAt h c k = some p → p < h.templates.length ∧ (p = t → k = tn)
  fn : ∀ cv, h.commons[c]? = some cv → cv.parseFuncs = pf ∧ cv.execFuncs = ef

/-- Outcome of an iteration that installs the tree `tr` under `m`. -/
def Adopted (h h' : Heap) (t : TmplPtr) (c : CommonPtr) (tn L R m : String) (tr : TreePtr)
    (pf : FuncMap) (ef : List (String × FuncVal)) : Prop :=
  Inv h' t c tn L R pf ef ∧ h.templates.length ≤ h'.templates.length ∧
  view h' c m = some (if m = tn then t else h.templates.length, ⟨m, some tr, some c, L, R⟩) ∧
  ∀ k, k ≠ m → view h' c k = view h c k

/-- Outcome of an iteration that leaves every registration as it was. -/
def Kept (h h' : Heap) (t : TmplPtr) (c : CommonPtr) (tn L R : String)
    (pf : FuncMap) (ef : List (String × FuncVal)) : Prop :=
  Inv h' t c tn L R pf ef ∧ h.templates.length ≤ h'.templates.length ∧ ∀ k, view h' c k = view h c k

/-- The write `t.tmpl[name] = new` that ends `associate`. -/
def install (h : Heap) (c : CommonPtr) (name : String) (new : TmplPtr) : Heap :=
  updCommon h c (fun x => { x with tmpl := mapSet x.tmpl name new })

/-- The heap after an adopting iteration on the handle `tmpl`. -/
def adoptHeap (h1 : Heap) (c : CommonPtr) (m : String) (tmpl : TmplPtr) (tr : TreePtr) (L R : String) : Heap :=
  updTmpl (updTmpl (updTmpl (install h1 c m tmpl) tmpl (fun x => { x with Tree := some tr }))
    tmpl (fun x => { x with leftDelim := L })) tmpl (fun x => { x with rightDelim := R })

/-- The heap after an iteration that keeps the existing registration. -/
def keepHeap (h1 : Heap) (tmpl : TmplPtr) (L R : String) : Heap :=
  updTmpl (updTmpl h1 tmpl (fun x => { x with leftDelim := L })) tmpl (fun x => { x with rightDelim := R })

/-- The handle an iteration works on, and the heap after it has been made. -/
def madeTmpl (h : Heap) (t : TmplPtr) (tn m : String) (c : CommonPtr) (L R : String) : TmplPtr × Heap :=
  if m ≠ tn then allocTmpl h ⟨m, none, some c, L, R⟩ else (t, h)

/-- The case of `associate` that an entry `m, tr` of the parser's map falls into. -/
inductive Verdict where
  | adopt
  | keep
  | redefinition
  | fault
deriving DecidableEq, Repr

/-- The case that applies in heap `h` for the namespace at `c`. -/
def verdict (E : Env) (h : Heap) (c : CommonPtr) (m : String) (tr : TreePtr) : Verdict :=
  match view h c m with
  | none => .adopt
  | some (_, pv) =>
    match pv.Tree with
    | none => .fault
    | some ot =>
      if E.IsEmptyTree tr then .keep
      else if E.IsEmptyTree ot then .adopt
      else .redefinition

/-- The keys of a Go map. -/
def keys {β : Type} (M : List (String × β)) : List String := M.map Prod.fst

/-- The result of `t.Lookup(name)` together with the fields read through the returned handle. -/
def lookupView (h : Heap) (t : TmplPtr) (name : String) : Except Fault (Option (TmplPtr × Template)) :=
  match Template.Lookup h t name with
  | .error f => .error f
  | .ok none => .ok none
  | .ok (some p) =>
    match deref h p with
    | .error f => .error f
    | .ok pv => .ok (some (p, pv))

/-- The parse-time function table that `Parse` on `t` hands to the parser: the table of
the namespace of `t`, which is empty when `init` has only just created it. -/
def parseFuncsOf (h : Heap) (t : TmplPtr) : FuncMap :=
  match getCommon h t with
  | .ok (_, cv) => cv.parseFuncs
  | .error _ => []

/-- Well-formed handle: `t` is live; if it has a namespace, the namespace is live, every
handle registered there is live, and `t` is registered under no name but its own. -/
def WF (h : Heap) (t : TmplPtr) : Prop :=
  match h.templates[t]? with
  | none => False
  | some tv =>
    match tv.common with
    | none => True
    | some c =>
      match h.commons[c]? with
      | none => False
      | some cv => ∀ e ∈ cv.tmpl, e.2 < h.templates.length ∧ (e.2 = t → e.1 = tv.name)

/-- The heap after `init` has run on a live handle `t` with fields `tv`. -/
def initHeap (h : Heap) (t : TmplPtr) (tv : Template) : Heap :=
  match tv.common with
  | some _ => h
  | none =>
    updTmpl { h with commons := h.commons ++ [{ tmpl := [], parseFuncs := [], execFuncs := [] }] } t
      (fun x => { x with common := some h.commons.length })

/-- The namespace of `t` once `init` has run. -/
def initCommon (h : Heap) (tv : Template) : CommonPtr :=
  match tv.common with
  | some c => c
  | none => h.commons.length

/-- What `Parse` returns once the parser's answer is known, on the heap left by `init`. -/
def parseTail (E : Env) (h1 : Heap) (t : TmplPtr) (res : Except String (List (String × TreePtr))) :
    Except Fault ((Option TmplPtr × Option Error) × Heap) :=
  match res with
  | .error e => .ok ((none, some (.parser e)), h1)
  | .ok trees =>
    match parseLoop E h1 t trees with
    | .error f => .error f
    | .ok (some err, h2) => .ok ((none, some err), h2)
    | .ok (none, h2) => .ok ((some t, none), h2)

/-- A parser for the examples: text "a" defines page and header, text "b" defines footer
and page, text "e" defines page as empty, any other text is rejected; trees with an even
address are empty. -/
def exEnv : Env :=
  { IsEmptyTree := fun p => p % 2 == 0
    Parse := fun _ text _ _ _ =>
      if text = "a" then .ok [("page", 1), ("header", 3)]
      else if text = "b" then .ok [("footer", 5), ("page", 7)]
      else if text = "e" then .ok [("page", 2)]
      else .error "unexpected"
    goodFunc := fun _ => true }

/-- The heap after `New("page")` and a first `Parse` of text "a". -/
def exHeap : Heap :=
  { templates := [⟨"page", some 1, some 0, "", ""⟩, ⟨"header", some 3, some 0, "", ""⟩]
    commons := [⟨[("page", 0), ("header", 1)], [], []⟩] }

/-- What the first loop of `Clone` has done when it has run from heap `g` to heap `g2`
over the entries `l`, for the clone root `nt` with namespace `ntc`: the records of `ntc`
before and after are `cvg` and `cvg2`. -/
structure Cloned (g g2 : Heap) (tn : String) (ntc : CommonPtr) (l : List (String × TmplPtr))
    (cvg cvg2 : common) : Prop where
  len : g.templates.length ≤ g2.templates.length
  old : ∀ p : TmplPtr, p < g.templates.length → g2.templates[p]? = g.templates[p]?
  clen : g2.commons.length = g.commons.length
  cold : ∀ d : CommonPtr, d ≠ ntc → g2.commons[d]? = g.commons[d]?
  cnew : g2.commons[ntc]? = some cvg2
  pfn : cvg2.parseFuncs = cvg.parseFuncs
  efn : cvg2.execFuncs = cvg.execFuncs
  mem : ∀ e ∈ cvg2.tmpl, e ∈ cvg.tmpl ∨
    (g.templates.length ≤ e.2 ∧ ∃ pv, g2.templates[e.2]? = some pv ∧ pv.common = some ntc)
  nd : (keys cvg.tmpl).Nodup → (keys cvg2.tmpl).Nodup
  same : ∀ k, (k = tn ∨ mapGet l k = none) → mapGet cvg2.tmpl k = mapGet cvg.tmpl k
  copied : (keys l).Nodup → ∀ k v, mapGet l k = some v → k ≠ tn →
    ∃ pv, g.templates[v]? = some pv ∧ ∃ p', mapGet cvg2.tmpl k = some p' ∧
      g.templates.length ≤ p' ∧ g2.templates[p']? = some { pv with common := some ntc }

/-- The heap of `Clone` when its first loop starts: the clone root has been allocated,
initialized and registered under the name of `t`. -/
def cloneStart (h : Heap) (tv : Template) : Heap :=
  updCommon
    (updTmpl
      { (allocTmpl h { tv with common := none }).2 with
        commons := h.commons ++ [{ tmpl := [], parseFuncs := [], execFuncs := [] }] }
      h.templates.length (fun x => { x with common := some h.commons.length }))
    h.commons.length (fun x => { x with tmpl := mapSet x.tmpl tv.name h.templates.length })

/-- The names of the handles that `Templates` returns. -/
def templateNames (h : Heap) (t : TmplPtr) : List String :=
  match Template.Templates h t with
  | .ok ps =>
    ps.filterMap (fun p =>
      match deref h p with
      | .ok pv => some pv.name
      | .error _ => none)
  | .error _ => []

/-- A later mutating call made through a handle. -/
inductive Op where
  | parse (text : String)
  | addParseTree (name : String) (tree : Option TreePtr)
  | funcs (funcMap : FuncMap)
deriving DecidableEq, Repr

/-- The heap after the call `op` has been made through the handle `x`. -/
def applyOp (E : Env) (h : Heap) (x : TmplPtr) : Op → Except Fault Heap
  | .parse text =>
    match Template.Parse E h x text with
    | .ok (_, h') => .ok h'
    | .error f => .error f
  | .addParseTree name tree =>
    match Template.AddParseTree h x name tree with
    | .ok (_, h') => .ok h'
    | .error f => .error f
  | .funcs funcMap =>
    match Template.Funcs E h x funcMap with
    | .ok (_, h') => .ok h'
    | .error f => .error f

/-- Runs the calls in order, each through a handle whose namespace is `ns` at the time of
the call; `none` when a handle is not of that namespace or a call panics. -/
def runOps (E : Env) (ns : CommonPtr) : Heap → List (TmplPtr × Op) → Option Heap
  | h, [] => some h
  | h, (x, op) :: rest =>
    match deref h x with
    | .error _ => none
    | .ok xv =>
      if xv.common = some ns then
        match applyOp E h x op with
        | .ok h' => runOps E ns h' rest
        | .error _ => none
      else none

/-- Nothing of namespace `b` differs between `h` and `h'`: the record of `b` is the same
and so is every handle that carries `b`. -/
def Untouched (b : CommonPtr) (h h' : Heap) : Prop :=
  h'.commons[b]? = h.commons[b]? ∧
  ∀ (p : TmplPtr) (pv : Template), h.templates[p]? = some pv → pv.common = some b →
    h'.templates[p]? = some pv

/-- The state that the loop of `Parse` keeps for a live handle `x` of namespace `a`,
whatever is registered there. -/
def Live (g : Heap) (x : TmplPtr) (a : CommonPtr) (tn L R : String) : Prop :=
  (∃ tt, g.templates[x]? = some ⟨tn, tt, some a, L, R⟩) ∧ ∃ cv, g.commons[a]? = some cv

/-- The heap after `Clone` on the handle "page" of the example heap. -/
def exClone : Heap :=
  match Template.Clone exHeap 0 with
  | .ok (_, h) => h
  | .error _ => exHeap

/-- The heap after a `Parse` of text "b" and a `Funcs` call through handles of the clone. -/
def exRun : Heap :=
  match runOps exEnv 1 exClone [(2, .parse "b"), (3, .funcs [("f", 7)])] with
  | some h => h
  | none => exClone

/-- The heap after an `AddParseTree` that registers the new handle, from the heap `h1`
left by `init`, in which `t` has the namespace `c`. -/
def addedHeap (h1 : Heap) (c : CommonPtr) (name : String) (tree : Option TreePtr)
    (L R : String) : Heap :=
  updCommon
    (updTmpl (allocTmpl h1 ⟨name, none, some c, L, R⟩).2 h1.templates.length
      (fun x => { x with Tree := tree }))
    c (fun x => { x with tmpl := mapSet x.tmpl name h1.templates.length })

/-- A second parser for the examples: text "decl" defines page and header as empty, text
"defs" defines page as empty and header as non-empty, text "second" defines both as
non-empty; trees with an even address are empty. -/
def exEnv2 : Env :=
  { IsEmptyTree := fun p => p % 2 == 0
    Parse := fun _ text _ _ _ =>
      if text = "decl" then .ok [("page", 2), ("header", 4)]
      else if text = "defs" then .ok [("page", 6), ("header", 3)]
      else if text = "second" then .ok [("page", 7), ("header", 9)]
      else .error "unexpected"
    goodFunc := fun _ => true }

/-- The heap after `New("page")` and a `Parse` of text "decl" with the second parser. -/
def exDecl : Heap :=
  { templates := [⟨"page", some 2, some 0, "", ""⟩, ⟨"header", some 4, some 0, "", ""⟩]
    commons := [⟨[("page", 0), ("header", 1)], [], []⟩] }

/-- The heap after `New("page")` and a `Parse` of text "defs" with the second parser. -/
def exDefs : Heap :=
  { templates := [⟨"page", some 6, some 0, "", ""⟩, ⟨"header", some 3, some 0, "", ""⟩]
    commons := [⟨[("page", 0), ("header", 1)], [], []⟩] }

/-- The heap after `New("page")` and `Delims` with the pair `<%`, `%>`. -/
def exAngle : Heap :=
  { templates := [⟨"page", none, none, "<%", "%>"⟩], commons := [] }

/-- Well-formed namespace `c`: its templates map has distinct keys, and every handle stored
in it is live, carries `c` as its namespace and is named by its key. -/
def NsOK (h : Heap) (c : CommonPtr) : Prop :=
  ∀ cv, h.commons[c]? = some cv →
    (keys cv.tmpl).Nodup ∧
    ∀ e ∈ cv.tmpl, ∃ pv, h.templates[e.2]? = some pv ∧ pv.common = some c ∧ pv.name = e.1

/-- Every namespace of the heap is well formed. -/
def AllOK (h : Heap) : Prop := ∀ c, NsOK h c

/-- Every namespace pointer held by a handle is live. -/
def CommonsLive (h : Heap) : Prop :=
  ∀ (p : TmplPtr) (pv : Template) (c : CommonPtr),
    h.templates[p]? = some pv → pv.common = some c → c < h.commons.length

/-- A call of one of the public operations. -/
inductive Call where
  | new (name : String)
  | tNew (t : TmplPtr) (name : String)
  | parse (t : TmplPtr) (text : String)
  | addParseTree (t : TmplPtr) (name : String) (tree : Option TreePtr)
  | clone (t : TmplPtr)
  | funcs (t : TmplPtr) (funcMap : FuncMap)
  | delims (t : TmplPtr) (left right : String)
deriving DecidableEq, Repr

/-- The heap after a call. -/
def callHeap (E : Env) (h : Heap) : Call → Except Fault Heap
  | .new name => .ok (New h name).2
  | .tNew t name =>
    match Template.New h t name with
    | .ok (_, h') => .ok h'
    | .error f => .error f
  | .parse t text =>
    match Template.Parse E h t text with
    | .ok (_, h') => .ok h'
    | .error f => .error f
  | .addParseTree t name tree =>
    match Template.AddParseTree h t name tree with
    | .ok (_, h') => .ok h'
    | .error f => .error f
  | .clone t =>
    match Template.Clone h t with
    | .ok (_, h') => .ok h'
    | .error f => .error f
  | .funcs t funcMap =>
    match Template.Funcs E h t funcMap with
    | .ok (_, h') => .ok h'
    | .error f => .error f
  | .delims t left right =>
    match Template.Delims h t left right with
    | .ok (_, h') => .ok h'
    | .error f => .error f

/-- The heap after a sequence of calls, each made after the one before has returned. -/
def runCalls (E : Env) : Heap → List Call → Except Fault Heap
  | h, [] => .ok h
  | h, c :: rest =>
    match callHeap E h c with
    | .ok h' => runCalls E h' rest
    | .error f => .error f

/-! ## Maps and heap access -/

theorem mapGet_mapSet {β : Type} (m : List (String × β)) (k k' : String) (v : β) :
    mapGet (mapSet m k v) k' = if k = k' then some v else mapGet m k' := by
  induction m with
  | nil => simp [mapSet, mapGet]
  | cons e rest ih =>
    obtain ⟨k0, v0⟩ := e
    by_cases h0 : k0 = k
    · subst h0
      by_cases h1 : k0 = k' <;> simp [mapSet, mapGet, h1]
    · by_cases h1 : k0 = k'
      · subst h1
        have h2 : ¬ k = k0 := fun e => h0 e.symm
        simp [mapSet, mapGet, h0, h2]
      · simp [mapSet, mapGet, h0, h1, ih]

@[simp] theorem updTmpl_commons (h : Heap) (p : TmplPtr) (f : Template → Template) :
    (updTmpl h p f).commons = h.commons := by
  unfold updTmpl; split <;> rfl

@[simp] theorem updTmpl_length (h : Heap) (p : TmplPtr) (f : Template → Template) :
    (updTmpl h p f).templates.length = h.templates.length := by
  unfold updTmpl; split <;> simp

theorem updTmpl_get (h : Heap) (p q : TmplPtr) (f : Template → Template) :
    (updTmpl h p f).templates[q]? = if q = p then (h.templates[p]?).map f else h.templates[q]? := by
  unfold updTmpl
  cases hp : h.templates[p]? with
  | none =>
    by_cases hq : q = p
    · subst hq; simp [hp]
    · simp [hq]
  | some v =>
    by_cases hq : q = p
    · subst hq
      have hlt : q < h.templates.length := by
        by_contra hge
        have := List.getElem?_eq_none (Nat.le_of_not_lt hge)
        rw [this] at hp; cases hp
      simp [List.getElem?_set, hlt]
    · have hq' : ¬ p = q := fun e => hq e.symm
      simp [List.getElem?_set, hq, hq']

@[simp] theorem updCommon_templates (h : Heap) (c : CommonPtr) (f : common → common) :
    (updCommon h c f).templates = h.templates := by
  unfold updCommon; split <;> rfl

@[simp] theorem updCommon_length (h : Heap) (c : CommonPtr) (f : common → common) :
    (updCommon h c f).commons.length = h.commons.length := by
  unfold updCommon; split <;> simp

theorem updCommon_get (h : Heap) (c d : CommonPtr) (f : common → common) :
    (updCommon h c f).commons[d]? = if d = c then (h.commons[c]?).map f else h.commons[d]? := by
  unfold updCommon
  cases hp : h.commons[c]? with
  | none =>
    by_cases hq : d = c
    · subst hq; simp [hp]
    · simp [hq]
  | some v =>
    by_cases hq : d = c
    · subst hq
      have hlt : d < h.commons.length := by
        by_contra hge
        have := List.getElem?_eq_none (Nat.le_of_not_lt hge)
        rw [this] at hp; cases hp
      simp [List.getElem?_set, hlt]
    · have hq' : ¬ c = d := fun e => hq e.symm
      simp [List.getElem?_set, hq, hq']

@[simp] theorem allocTmpl_fst (h : Heap) (v : Template) : (allocTmpl h v).1 = h.templates.length := rfl
@[simp] theorem allocTmpl_commons (h : Heap) (v : Template) : (allocTmpl h v).2.commons = h.commons := rfl
@[simp] theorem allocTmpl_length (h : Heap) (v : Template) :
    (allocTmpl h v).2.templates.length = h.templates.length + 1 := by
  simp [allocTmpl]

theorem allocTmpl_get (h : Heap) (v : Template) (q : TmplPtr) :
    (allocTmpl h v).2.templates[q]? = if q = h.templates.length then some v else h.templates[q]? := by
  simp only [allocTmpl]
  by_cases hq : q = h.templates.length
  · subst hq; simp
  · rcases Nat.lt_or_gt_of_ne hq with hlt | hgt
    · simp [hq, List.getElem?_append_left hlt]
    · have h1 : (h.templates ++ [v]).length ≤ q := by simp; omega
      have h2 : h.templates.length ≤ q := by omega
      simp [hq, List.getElem?_eq_none h1, List.getElem?_eq_none h2]

theorem regAt_updTmpl (h : Heap) (p : TmplPtr) (f : Template → Template) (c : CommonPtr) (k : String) :
    regAt (updTmpl h p f) c k = regAt h c k := by
  simp [regAt]

theorem regAt_allocTmpl (h : Heap) (v : Template) (c : CommonPtr) (k : String) :
    regAt (allocTmpl h v).2 c k = regAt h c k := by
  simp [regAt]

theorem regAt_updCommon_tmpl (h : Heap) (c : CommonPtr) (m k : String) (q : TmplPtr)
    (hc : c < h.commons.length) :
    regAt (updCommon h c (fun x => { x with tmpl := mapSet x.tmpl m q })) c k
      = if m = k then some q else regAt h c k := by
  simp only [regAt, updCommon_get, if_true]
  have : ∃ cv, h.commons[c]? = some cv := ⟨h.commons[c], List.getElem?_eq_getElem hc⟩
  obtain ⟨cv, hcv⟩ := this
  simp [hcv, mapGet_mapSet]

theorem deref_eq (h : Heap) (t : TmplPtr) (tv : Template) (ht : h.templates[t]? = some tv) :
    deref h t = .ok tv := by
  simp [deref, ht]

theorem init_of_some (h : Heap) (t : TmplPtr) (tv : Template) (c : CommonPtr)
    (ht : h.templates[t]? = some tv) (hc : tv.common = some c) : Template.init h t = .ok h := by
  simp [Template.init, deref, ht, hc]

/-! ## The cases of `associate` and one iteration of the loop of `Parse` -/

theorem associate_fresh (E : Env) (h : Heap) (t new : TmplPtr) (tree : Option TreePtr)
    (tv nv : Template) (c : CommonPtr) (cv : common)
    (ht : h.templates[t]? = some tv) (hn : h.templates[new]? = some nv)
    (htc : tv.common = some c) (hnc : nv.common = some c) (hc : h.commons[c]? = some cv)
    (hold : mapGet cv.tmpl nv.name = none) :
    Template.associate E h t new tree = .ok ((true, none), install h c nv.name new) := by
  simp [Template.associate, deref, getCommon, ht, hn, htc, hnc, hc, hold, install]

theorem associate_existing (E : Env) (h : Heap) (t new : TmplPtr) (nt : TreePtr)
    (tv nv ov : Template) (c : CommonPtr) (cv : common) (old : TmplPtr) (ot : TreePtr)
    (ht : h.templates[t]? = some tv) (hn : h.templates[new]? = some nv)
    (htc : tv.common = some c) (hnc : nv.common = some c) (hc : h.commons[c]? = some cv)
    (hold : mapGet cv.tmpl nv.name = some old) (ho : h.templates[old]? = some ov)
    (hot : ov.Tree = some ot) :
    Template.associate E h t new (some nt) =
      if E.IsEmptyTree nt then .ok ((false, none), h)
      else if E.IsEmptyTree ot then .ok ((true, none), install h c nv.name new)
      else .ok ((false, some (.errorf "nifi: redefinition of nifi %q" nv.name)), h) := by
  simp [Template.associate, deref, getCommon, ht, hn, htc, hnc, hc, hold, ho, hot, treeRoot, install]
  by_cases h1 : E.IsEmptyTree nt = true <;> by_cases h2 : E.IsEmptyTree ot = true <;> simp [h1, h2]

theorem associate_treeless (E : Env) (h : Heap) (t new : TmplPtr) (tree : Option TreePtr)
    (tv nv ov : Template) (c : CommonPtr) (cv : common) (old : TmplPtr)
    (ht : h.templates[t]? = some tv) (hn : h.templates[new]? = some nv)
    (htc : tv.common = some c) (hnc : nv.common = some c) (hc : h.commons[c]? = some cv)
    (hold : mapGet cv.tmpl nv.name = some old) (ho : h.templates[old]? = some ov)
    (hot : ov.Tree = none) :
    Template.associate E h t new tree = .error .nilDeref := by
  simp [Template.associate, deref, getCommon, ht, hn, htc, hnc, hc, hold, ho, hot, treeRoot]

theorem New_of_some (h : Heap) (t : TmplPtr) (tv : Template) (c : CommonPtr) (name : String)
    (ht : h.templates[t]? = some tv) (hc : tv.common = some c) :
    Template.New h t name = .ok (allocTmpl h ⟨name, none, some c, tv.leftDelim, tv.rightDelim⟩) := by
  simp [Template.New, init_of_some h t tv c ht hc, deref, ht, hc]

theorem parseStep_fresh (E : Env) (h : Heap) (t : TmplPtr) (c : CommonPtr) (tn L R m : String)
    (tr : TreePtr) (tt : Option TreePtr) (cv : common)
    (ht : h.templates[t]? = some ⟨tn, tt, some c, L, R⟩) (hc : h.commons[c]? = some cv)
    (hold : mapGet cv.tmpl m = none) :
    parseStep E h t m tr = .ok (none,
      adoptHeap (madeTmpl h t tn m c L R).2 c m (madeTmpl h t tn m c L R).1 tr L R) := by
  have htlt : t < h.templates.length := by
    by_contra hge
    rw [List.getElem?_eq_none (Nat.le_of_not_lt hge)] at ht; cases ht
  by_cases hm : m = tn
  · subst hm
    have ha := associate_fresh E h t t (some tr) _ _ c cv ht ht rfl rfl hc hold
    simp only [] at ha
    simp [parseStep, deref, ht, ha, madeTmpl, adoptHeap, install, updTmpl_get]
  · have hn := New_of_some h t _ c m ht rfl
    simp only [] at hn
    have ht1 : (allocTmpl h ⟨m, none, some c, L, R⟩).2.templates[t]? = some ⟨tn, tt, some c, L, R⟩ := by
      rw [allocTmpl_get]; simp [Nat.ne_of_lt htlt, ht]
    have hn1 : (allocTmpl h ⟨m, none, some c, L, R⟩).2.templates[h.templates.length]? = some ⟨m, none, some c, L, R⟩ := by
      rw [allocTmpl_get]; simp
    have ha := associate_fresh E _ t h.templates.length (some tr) _ _ c cv ht1 hn1 rfl rfl (by simpa using hc) hold
    simp only [] at ha
    simp [parseStep, deref, ht, hm, hn, ha, madeTmpl, adoptHeap, install, updTmpl_get, ht1, hn1, Nat.ne_of_lt htlt]

theorem lt_of_get {α : Type} (l : List α) (i : Nat) (v : α) (hi : l[i]? = some v) : i < l.length := by
  by_contra hge
  rw [List.getElem?_eq_none (Nat.le_of_not_lt hge)] at hi; cases hi

theorem parseStep_existing (E : Env) (h : Heap) (t : TmplPtr) (c : CommonPtr) (tn L R m : String)
    (tr : TreePtr) (tt : Option TreePtr) (cv : common) (old : TmplPtr) (ov : Template) (ot : TreePtr)
    (ht : h.templates[t]? = some ⟨tn, tt, some c, L, R⟩) (hc : h.commons[c]? = some cv)
    (hold : mapGet cv.tmpl m = some old) (ho : h.templates[old]? = some ov) (hot : ov.Tree = some ot) :
    parseStep E h t m tr =
      if E.IsEmptyTree tr then
        .ok (none, keepHeap (madeTmpl h t tn m c L R).2 (madeTmpl h t tn m c L R).1 L R)
      else if E.IsEmptyTree ot then
        .ok (none, adoptHeap (madeTmpl h t tn m c L R).2 c m (madeTmpl h t tn m c L R).1 tr L R)
      else .ok (some (.errorf "nifi: redefinition of nifi %q" m), (madeTmpl h t tn m c L R).2) := by
  have htlt : t < h.templates.length := lt_of_get _ _ _ ht
  have holt : old < h.templates.length := lt_of_get _ _ _ ho
  by_cases hm : m = tn
  · subst hm
    have ha := associate_existing E h t t tr _ _ ov c cv old ot ht ht rfl rfl hc hold ho hot
    simp only [] at ha
    by_cases h1 : E.IsEmptyTree tr = true <;> by_cases h2 : E.IsEmptyTree ot = true <;>
      simp [parseStep, deref, ht, ha, madeTmpl, adoptHeap, keepHeap, install, updTmpl_get, h1, h2]
  · have hn := New_of_some h t _ c m ht rfl
    simp only [] at hn
    have ht1 : (allocTmpl h ⟨m, none, some c, L, R⟩).2.templates[t]? = some ⟨tn, tt, some c, L, R⟩ := by
      rw [allocTmpl_get]; simp [Nat.ne_of_lt htlt, ht]
    have ho1 : (allocTmpl h ⟨m, none, some c, L, R⟩).2.templates[old]? = some ov := by
      rw [allocTmpl_get]; simp [Nat.ne_of_lt holt, ho]
    have hn1 : (allocTmpl h ⟨m, none, some c, L, R⟩).2.templates[h.templates.length]? = some ⟨m, none, some c, L, R⟩ := by
      rw [allocTmpl_get]; simp
    have ha := associate_existing E _ t h.templates.length tr _ _ ov c cv old ot ht1 hn1 rfl rfl
      (by simpa using hc) hold ho1 hot
    simp only [] at ha
    by_cases h1 : E.IsEmptyTree tr = true <;> by_cases h2 : E.IsEmptyTree ot = true <;>
      simp [parseStep, deref, ht, hm, hn, ha, madeTmpl, adoptHeap, keepHeap, install, updTmpl_get, ht1, hn1,
        Nat.ne_of_lt htlt, h1, h2]

theorem parseStep_treeless (E : Env) (h : Heap) (t : TmplPtr) (c : CommonPtr) (tn L R m : String)
    (tr : TreePtr) (tt : Option TreePtr) (cv : common) (old : TmplPtr) (ov : Template)
    (ht : h.templates[t]? = some ⟨tn, tt, some c, L, R⟩) (hc : h.commons[c]? = some cv)
    (hold : mapGet cv.tmpl m = some old) (ho : h.templates[old]? = some ov) (hot : ov.Tree = none) :
    parseStep E h t m tr = .error .nilDeref := by
  have htlt : t < h.templates.length := lt_of_get _ _ _ ht
  have holt : old < h.templates.length := lt_of_get _ _ _ ho
  by_cases hm : m = tn
  · subst hm
    have ha := associate_treeless E h t t (some tr) _ _ ov c cv old ht ht rfl rfl hc hold ho hot
    simp [parseStep, deref, ht, ha]
  · have hn := New_of_some h t _ c m ht rfl
    simp only [] at hn
    have ht1 : (allocTmpl h ⟨m, none, some c, L, R⟩).2.templates[t]? = some ⟨tn, tt, some c, L, R⟩ := by
      rw [allocTmpl_get]; simp [Nat.ne_of_lt htlt, ht]
    have ho1 : (allocTmpl h ⟨m, none, some c, L, R⟩).2.templates[old]? = some ov := by
      rw [allocTmpl_get]; simp [Nat.ne_of_lt holt, ho]
    have hn1 : (allocTmpl h ⟨m, none, some c, L, R⟩).2.templates[h.templates.length]? = some ⟨m, none, some c, L, R⟩ := by
      rw [allocTmpl_get]; simp
    have ha := associate_treeless E _ t h.templates.length (some tr) _ _ ov c cv old ht1 hn1 rfl rfl
      (by simpa using hc) hold ho1 hot
    simp [parseStep, deref, ht, hm, hn, ha]

theorem adoptHeap_get (h1 : Heap) (c : CommonPtr) (m : String) (q p : TmplPtr) (tr : TreePtr) (L R : String) :
    (adoptHeap h1 c m q tr L R).templates[p]? =
      if p = q then (h1.templates[q]?).map
        (fun x => { x with Tree := some tr, leftDelim := L, rightDelim := R })
      else h1.templates[p]? := by
  by_cases hp : p = q
  · subst hp
    cases hq : h1.templates[p]? <;> simp [adoptHeap, install, updTmpl_get, hq]
  · simp [adoptHeap, install, updTmpl_get, hp]

theorem adoptHeap_commons (h1 : Heap) (c : CommonPtr) (m : String) (q : TmplPtr) (tr : TreePtr) (L R : String) :
    (adoptHeap h1 c m q tr L R).commons = (install h1 c m q).commons := by
  simp [adoptHeap]

theorem adoptHeap_regAt (h1 : Heap) (c : CommonPtr) (m k : String) (q : TmplPtr) (tr : TreePtr) (L R : String)
    (hc : c < h1.commons.length) :
    regAt (adoptHeap h1 c m q tr L R) c k = if m = k then some q else regAt h1 c k := by
  have := regAt_updCommon_tmpl h1 c m k q hc
  simpa [regAt, adoptHeap, install] using this

theorem keepHeap_get (h1 : Heap) (q p : TmplPtr) (L R : String) :
    (keepHeap h1 q L R).templates[p]? =
      if p = q then (h1.templates[q]?).map (fun x => { x with leftDelim := L, rightDelim := R })
      else h1.templates[p]? := by
  by_cases hp : p = q
  · subst hp
    cases hq : h1.templates[p]? <;> simp [keepHeap, updTmpl_get, hq]
  · simp [keepHeap, updTmpl_get, hp]

theorem keepHeap_commons (h1 : Heap) (q : TmplPtr) (L R : String) :
    (keepHeap h1 q L R).commons = h1.commons := by
  simp [keepHeap]

theorem madeTmpl_commons (h : Heap) (t : TmplPtr) (tn m : String) (c : CommonPtr) (L R : String) :
    (madeTmpl h t tn m c L R).2.commons = h.commons := by
  unfold madeTmpl; split <;> simp

theorem madeTmpl_fst (h : Heap) (t : TmplPtr) (tn m : String) (c : CommonPtr) (L R : String) :
    (madeTmpl h t tn m c L R).1 = if m = tn then t else h.templates.length := by
  unfold madeTmpl; by_cases hm : m = tn <;> simp [hm]

theorem madeTmpl_get_old (h : Heap) (t : TmplPtr) (tn m : String) (c : CommonPtr) (L R : String)
    (p : TmplPtr) (hp : p < h.templates.length) :
    (madeTmpl h t tn m c L R).2.templates[p]? = h.templates[p]? := by
  unfold madeTmpl
  by_cases hm : m = tn
  · simp [hm]
  · simp [hm, allocTmpl_get, Nat.ne_of_lt hp]

theorem madeTmpl_length (h : Heap) (t : TmplPtr) (tn m : String) (c : CommonPtr) (L R : String) :
    h.templates.length ≤ (madeTmpl h t tn m c L R).2.templates.length := by
  unfold madeTmpl
  by_cases hm : m = tn <;> simp [hm]

theorem madeTmpl_get_self (h : Heap) (t : TmplPtr) (tn m : String) (c : CommonPtr) (L R : String)
    (tt : Option TreePtr) (ht : h.templates[t]? = some ⟨tn, tt, some c, L, R⟩) :
    ∃ x, (madeTmpl h t tn m c L R).2.templates[(madeTmpl h t tn m c L R).1]? = some ⟨m, x, some c, L, R⟩ := by
  unfold madeTmpl
  by_cases hm : m = tn
  · subst hm; exact ⟨tt, by simpa using ht⟩
  · refine ⟨none, ?_⟩
    simp only [ne_eq, hm, not_false_eq_true, if_true, allocTmpl_fst]
    rw [allocTmpl_get]; simp

variable {pf : FuncMap} {ef : List (String × FuncVal)}

theorem regAt_congr (h h1 : Heap) (c : CommonPtr) (k : String) (hcom : h1.commons = h.commons) :
    regAt h1 c k = regAt h c k := by
  simp [regAt, hcom]

theorem view_congr (h h' : Heap) (c : CommonPtr) (k : String)
    (hreg : regAt h' c k = regAt h c k)
    (hget : ∀ p, regAt h c k = some p → h'.templates[p]? = h.templates[p]?) :
    view h' c k = view h c k := by
  unfold view
  rw [hreg]
  cases hp : regAt h c k with
  | none => rfl
  | some p => simp only []; rw [hget p hp]

theorem made_kept (h : Heap) (t : TmplPtr) (c : CommonPtr) (tn L R m : String)
    (hinv : Inv h t c tn L R pf ef) : Kept h (madeTmpl h t tn m c L R).2 t c tn L R pf ef := by
  obtain ⟨⟨tt, ht⟩, hc, hreg, hfn⟩ := hinv
  have htlt : t < h.templates.length := lt_of_get _ _ _ ht
  have hcom := madeTmpl_commons h t tn m c L R
  refine ⟨⟨⟨tt, ?_⟩, ?_, ?_, ?_⟩, madeTmpl_length _ _ _ _ _ _ _, ?_⟩
  · rw [madeTmpl_get_old _ _ _ _ _ _ _ _ htlt]; exact ht
  · rw [hcom]; exact hc
  · intro k p hk
    rw [regAt_congr _ _ _ _ hcom] at hk
    exact ⟨Nat.lt_of_lt_of_le (hreg k p hk).1 (madeTmpl_length _ _ _ _ _ _ _), (hreg k p hk).2⟩
  · rw [hcom]; exact hfn
  · intro k
    apply view_congr _ _ _ _ (regAt_congr _ _ _ _ hcom)
    intro p hp
    exact madeTmpl_get_old _ _ _ _ _ _ _ _ (hreg k p hp).1

theorem keep_kept (h : Heap) (t : TmplPtr) (c : CommonPtr) (tn L R m : String)
    (hinv : Inv h t c tn L R pf ef) :
    Kept h (keepHeap (madeTmpl h t tn m c L R).2 (madeTmpl h t tn m c L R).1 L R) t c tn L R pf ef := by
  obtain ⟨⟨tt, ht⟩, hc, hreg, hfn⟩ := hinv
  have htlt : t < h.templates.length := lt_of_get _ _ _ ht
  have hcom := madeTmpl_commons h t tn m c L R
  obtain ⟨x, hself⟩ := madeTmpl_get_self h t tn m c L R tt ht
  have hsame : ∀ p : TmplPtr, (keepHeap (madeTmpl h t tn m c L R).2 (madeTmpl h t tn m c L R).1 L R).templates[p]?
      = (madeTmpl h t tn m c L R).2.templates[p]? := by
    intro p
    rw [keepHeap_get]
    by_cases hp : p = (madeTmpl h t tn m c L R).1
    · subst hp; simp [hself]
    · simp [hp]
  have hcom2 : (keepHeap (madeTmpl h t tn m c L R).2 (madeTmpl h t tn m c L R).1 L R).commons = h.commons := by
    rw [keepHeap_commons, hcom]
  refine ⟨⟨⟨tt, ?_⟩, ?_, ?_, ?_⟩, ?_, ?_⟩
  · rw [hsame, madeTmpl_get_old _ _ _ _ _ _ _ _ htlt]; exact ht
  · rw [hcom2]; exact hc
  · intro k p hk
    rw [regAt_congr _ _ _ _ hcom2] at hk
    refine ⟨?_, (hreg k p hk).2⟩
    have h2 := (hreg k p hk).1
    simp only [keepHeap, updTmpl_length]
    exact Nat.lt_of_lt_of_le h2 (madeTmpl_length h t tn m c L R)
  · rw [hcom2]; exact hfn
  · simp only [keepHeap, updTmpl_length]
    exact madeTmpl_length h t tn m c L R
  · intro k
    apply view_congr _ _ _ _ (regAt_congr _ _ _ _ hcom2)
    intro p hp
    rw [hsame]
    exact madeTmpl_get_old _ _ _ _ _ _ _ _ (hreg k p hp).1

theorem adopt_adopted (h : Heap) (t : TmplPtr) (c : CommonPtr) (tn L R m : String) (tr : TreePtr)
    (hinv : Inv h t c tn L R pf ef) :
    Adopted h (adoptHeap (madeTmpl h t tn m c L R).2 c m (madeTmpl h t tn m c L R).1 tr L R)
      t c tn L R m tr pf ef := by
  obtain ⟨⟨tt, ht⟩, hc, hreg, hfn⟩ := hinv
  have htlt : t < h.templates.length := lt_of_get _ _ _ ht
  have hcom := madeTmpl_commons h t tn m c L R
  obtain ⟨x, hself⟩ := madeTmpl_get_self h t tn m c L R tt ht
  have hq := madeTmpl_fst h t tn m c L R
  have hc1 : c < (madeTmpl h t tn m c L R).2.commons.length := by rw [hcom]; exact hc
  have hra : ∀ k, regAt (adoptHeap (madeTmpl h t tn m c L R).2 c m (madeTmpl h t tn m c L R).1 tr L R) c k
      = if m = k then some (madeTmpl h t tn m c L R).1 else regAt h c k := by
    intro k
    rw [adoptHeap_regAt _ _ _ _ _ _ _ _ hc1, regAt_congr _ _ _ _ hcom]
  have hlen := madeTmpl_length h t tn m c L R
  have hqlt : (madeTmpl h t tn m c L R).1 < (madeTmpl h t tn m c L R).2.templates.length :=
    lt_of_get _ _ _ hself
  have hl : (adoptHeap (madeTmpl h t tn m c L R).2 c m (madeTmpl h t tn m c L R).1 tr L R).templates.length
      = (madeTmpl h t tn m c L R).2.templates.length := by
    simp [adoptHeap, install]
  refine ⟨⟨⟨if m = tn then some tr else tt, ?_⟩, ?_, ?_, ?_⟩, by rw [hl]; exact hlen, ?_, ?_⟩
  · rw [adoptHeap_get]
    by_cases hm : m = tn
    · subst hm
      have e : (madeTmpl h t m m c L R).1 = t := by simp [hq]
      rw [e] at hself
      simp [e, hself]
    · have e : t ≠ (madeTmpl h t tn m c L R).1 := by
        rw [hq]; simp [hm]; exact Nat.ne_of_lt htlt
      simp only [e, if_false, hm]
      rw [madeTmpl_get_old _ _ _ _ _ _ _ _ htlt]; exact ht
  · rw [adoptHeap_commons]; simp only [install, updCommon_length]; exact hc1
  · intro k p hk
    rw [hra] at hk
    by_cases hmk : m = k
    · subst hmk
      simp only [if_true, Option.some.injEq] at hk
      subst hk
      refine ⟨by rw [hl]; exact hqlt, ?_⟩
      intro e
      by_contra hne
      rw [hq] at e
      simp only [hne, if_false] at e
      exact absurd e.symm (Nat.ne_of_lt htlt)
    · simp only [hmk, if_false] at hk
      refine ⟨by rw [hl]; exact Nat.lt_of_lt_of_le (hreg k p hk).1 hlen, (hreg k p hk).2⟩
  · intro cv' hcv'
    rw [adoptHeap_commons] at hcv'
    simp only [install, updCommon_get, if_true, hcom] at hcv'
    obtain ⟨cv, hcv⟩ : ∃ cv, h.commons[c]? = some cv := ⟨h.commons[c], List.getElem?_eq_getElem hc⟩
    rw [hcv] at hcv'
    simp only [Option.map_some', Option.some.injEq] at hcv'
    subst hcv'
    exact hfn cv hcv
  · unfold view
    rw [hra]
    simp only [if_true]
    rw [adoptHeap_get]
    simp only [if_true, hself, Option.map_some']
    rw [hq]
  · intro k hk
    have hmk : ¬ m = k := fun e => hk e.symm
    apply view_congr
    · rw [hra]; simp [hmk]
    · intro p hp
      have hplt := (hreg k p hp).1
      have hpne : p ≠ (madeTmpl h t tn m c L R).1 := by
        rw [hq]
        by_cases hm : m = tn
        · simp only [hm, if_true]
          intro e
          exact hk (by rw [(hreg k p hp).2 e, hm])
        · simp only [hm, if_false]; exact Nat.ne_of_lt hplt
      rw [adoptHeap_get]
      simp only [hpne, if_false]
      exact madeTmpl_get_old _ _ _ _ _ _ _ _ hplt

theorem verdict_congr (E : Env) (h h1 : Heap) (c : CommonPtr) (m : String) (tr : TreePtr)
    (hv : view h1 c m = view h c m) : verdict E h1 c m tr = verdict E h c m tr := by
  simp [verdict, hv]

theorem parseStep_spec (E : Env) (h : Heap) (t : TmplPtr) (c : CommonPtr) (tn L R : String)
    (hinv : Inv h t c tn L R pf ef) (m : String) (tr : TreePtr) :
    (verdict E h c m tr = .adopt ∧
      ∃ h', parseStep E h t m tr = .ok (none, h') ∧ Adopted h h' t c tn L R m tr pf ef) ∨
    (verdict E h c m tr = .keep ∧
      ∃ h', parseStep E h t m tr = .ok (none, h') ∧ Kept h h' t c tn L R pf ef) ∨
    (verdict E h c m tr = .redefinition ∧
      ∃ h', parseStep E h t m tr = .ok (some (.errorf "nifi: redefinition of nifi %q" m), h') ∧
        Kept h h' t c tn L R pf ef) ∨
    (verdict E h c m tr = .fault ∧ parseStep E h t m tr = .error .nilDeref) := by
  have hinv' := hinv
  obtain ⟨⟨tt, ht⟩, hc, hreg, _⟩ := hinv
  obtain ⟨cv, hcv⟩ : ∃ cv, h.commons[c]? = some cv := ⟨h.commons[c], List.getElem?_eq_getElem hc⟩
  have hra : regAt h c m = mapGet cv.tmpl m := by simp [regAt, hcv]
  cases hold : mapGet cv.tmpl m with
  | none =>
    left
    refine ⟨by simp [verdict, view, hra, hold], _, parseStep_fresh E h t c tn L R m tr tt cv ht hcv hold, ?_⟩
    exact adopt_adopted h t c tn L R m tr hinv'
  | some old =>
    have holt := (hreg m old (by rw [hra, hold])).1
    obtain ⟨ov, hov⟩ : ∃ ov, h.templates[old]? = some ov := ⟨h.templates[old], List.getElem?_eq_getElem holt⟩
    have hview : view h c m = some (old, ov) := by simp [view, hra, hold, hov]
    cases hot : ov.Tree with
    | none =>
      right; right; right
      exact ⟨by simp [verdict, hview, hot], parseStep_treeless E h t c tn L R m tr tt cv old ov ht hcv hold hov hot⟩
    | some ot =>
      have hstep := parseStep_existing E h t c tn L R m tr tt cv old ov ot ht hcv hold hov hot
      by_cases h1 : E.IsEmptyTree tr = true
      · right; left
        exact ⟨by simp [verdict, hview, hot, h1], _, by rw [hstep, if_pos h1], keep_kept h t c tn L R m hinv'⟩
      · by_cases h2 : E.IsEmptyTree ot = true
        · left
          exact ⟨by simp [verdict, hview, hot, h1, h2], _, by rw [hstep, if_neg h1, if_pos h2],
            adopt_adopted h t c tn L R m tr hinv'⟩
        · right; right; left
          exact ⟨by simp [verdict, hview, hot, h1, h2], _, by rw [hstep, if_neg h1, if_neg h2],
            made_kept h t c tn L R m hinv'⟩

theorem mem_keys_of_mem {β : Type} {M : List (String × β)} {k : String} {tr : β}
    (hm : (k, tr) ∈ M) : k ∈ keys M :=
  List.mem_map.mpr ⟨(k, tr), hm, rfl⟩

/-! ## The loop of `Parse` -/

theorem parseLoop_cons_ok (E : Env) (h h1 : Heap) (t : TmplPtr) (m : String) (tr : TreePtr)
    (rest : List (String × TreePtr)) (hs : parseStep E h t m tr = .ok (none, h1)) :
    parseLoop E h t ((m, tr) :: rest) = parseLoop E h1 t rest := by
  simp [parseLoop, hs]

theorem parseLoop_cons_err (E : Env) (h h1 : Heap) (t : TmplPtr) (m : String) (tr : TreePtr) (e : Error)
    (rest : List (String × TreePtr)) (hs : parseStep E h t m tr = .ok (some e, h1)) :
    parseLoop E h t ((m, tr) :: rest) = .ok (some e, h1) := by
  simp [parseLoop, hs]

theorem parseLoop_cons_fault (E : Env) (h : Heap) (t : TmplPtr) (m : String) (tr : TreePtr) (f : Fault)
    (rest : List (String × TreePtr)) (hs : parseStep E h t m tr = .error f) :
    parseLoop E h t ((m, tr) :: rest) = .error f := by
  simp [parseLoop, hs]

theorem parseLoop_run (E : Env) (t : TmplPtr) (c : CommonPtr) (tn L R : String)
    (M : List (String × TreePtr)) :
    ∀ h, Inv h t c tn L R pf ef → (keys M).Nodup →
      (∀ k tr, (k, tr) ∈ M → verdict E h c k tr ≠ .fault) →
      ∃ r h', parseLoop E h t M = .ok (r, h') := by
  induction M with
  | nil => intro h _ _ _; exact ⟨none, h, rfl⟩
  | cons e rest ih =>
    obtain ⟨m, tr0⟩ := e
    intro h hinv hnd hnf
    have hnd' : m ∉ keys rest ∧ (keys rest).Nodup := by simpa [keys] using hnd
    have hrest : ∀ h1, Inv h1 t c tn L R pf ef → (∀ k, k ≠ m → view h1 c k = view h c k) →
        ∃ r h', parseLoop E h1 t rest = .ok (r, h') := by
      intro h1 hinv1 hv
      apply ih h1 hinv1 hnd'.2
      intro k tr hk
      have hkm : k ≠ m := fun e => hnd'.1 (e ▸ mem_keys_of_mem hk)
      rw [verdict_congr E h h1 c k tr (hv k hkm)]
      exact hnf k tr (List.mem_cons_of_mem _ hk)
    rcases parseStep_spec E h t c tn L R hinv m tr0 with
      ⟨_, h1, hs, hinv1, _, _, hv⟩ | ⟨_, h1, hs, hinv1, _, hv⟩ | ⟨_, h1, hs, _⟩ | ⟨hf, _⟩
    · rw [parseLoop_cons_ok E h h1 t m tr0 rest hs]; exact hrest h1 hinv1 hv
    · rw [parseLoop_cons_ok E h h1 t m tr0 rest hs]; exact hrest h1 hinv1 (fun k _ => hv k)
    · rw [parseLoop_cons_err E h h1 t m tr0 _ rest hs]; exact ⟨_, _, rfl⟩
    · exact absurd hf (hnf m tr0 (List.mem_cons_self _ _))

theorem parseLoop_ok (E : Env) (t : TmplPtr) (c : CommonPtr) (tn L R : String)
    (M : List (String × TreePtr)) :
    ∀ h h', Inv h t c tn L R pf ef → (keys M).Nodup → parseLoop E h t M = .ok (none, h') →
      Inv h' t c tn L R pf ef ∧ h.templates.length ≤ h'.templates.length ∧
      (∀ k, k ∉ keys M → view h' c k = view h c k) ∧
      ∀ k tr, (k, tr) ∈ M →
        (verdict E h c k tr = .adopt ∧
          ∃ q, view h' c k = some (q, ⟨k, some tr, some c, L, R⟩) ∧
            (if k = tn then q = t else h.templates.length ≤ q)) ∨
        (verdict E h c k tr = .keep ∧ view h' c k = view h c k) := by
  induction M with
  | nil =>
    intro h h' hinv _ hrun
    simp only [parseLoop, Except.ok.injEq, Prod.mk.injEq, true_and] at hrun
    subst hrun
    exact ⟨hinv, Nat.le_refl _, fun _ _ => rfl, fun k tr hk => absurd hk (List.not_mem_nil _)⟩
  | cons e rest ih =>
    obtain ⟨m, tr0⟩ := e
    intro h h' hinv hnd hrun
    have hnd' : m ∉ keys rest ∧ (keys rest).Nodup := by simpa [keys] using hnd
    -- the common continuation: after a step to h1 that left every other name as it was
    have hrest : ∀ h1, Inv h1 t c tn L R pf ef → h.templates.length ≤ h1.templates.length →
        (∀ k, k ≠ m → view h1 c k = view h c k) → parseLoop E h1 t rest = .ok (none, h') →
        (verdict E h c m tr0 = .adopt ∧
          view h1 c m = some (if m = tn then t else h.templates.length, ⟨m, some tr0, some c, L, R⟩) ∨
         verdict E h c m tr0 = .keep ∧ view h1 c m = view h c m) →
        Inv h' t c tn L R pf ef ∧ h.templates.length ≤ h'.templates.length ∧
        (∀ k, k ∉ keys ((m, tr0) :: rest) → view h' c k = view h c k) ∧
        ∀ k tr, (k, tr) ∈ (m, tr0) :: rest →
          (verdict E h c k tr = .adopt ∧
            ∃ q, view h' c k = some (q, ⟨k, some tr, some c, L, R⟩) ∧
              (if k = tn then q = t else h.templates.length ≤ q)) ∨
          (verdict E h c k tr = .keep ∧ view h' c k = view h c k) := by
      intro h1 hinv1 hlen1 hv hrun1 hhead
      obtain ⟨hinv', hlen', hout, hin⟩ := ih h1 h' hinv1 hnd'.2 hrun1
      refine ⟨hinv', Nat.le_trans hlen1 hlen', ?_, ?_⟩
      · intro k hk
        have hk' : k ≠ m ∧ k ∉ keys rest := by simpa [keys] using hk
        rw [hout k hk'.2, hv k hk'.1]
      · intro k tr hk
        rcases List.mem_cons.mp hk with heq | hmem
        · obtain ⟨rfl, rfl⟩ := Prod.mk.inj heq
          rcases hhead with ⟨hvd, hview⟩ | ⟨hvd, hview⟩
          · left
            refine ⟨hvd, _, by rw [hout k hnd'.1, hview], ?_⟩
            by_cases hk2 : k = tn <;> simp [hk2]
          · right
            exact ⟨hvd, by rw [hout k hnd'.1, hview]⟩
        · have hkm : k ≠ m := fun e => hnd'.1 (e ▸ mem_keys_of_mem hmem)
          rcases hin k tr hmem with ⟨hvd, q, hq, hqb⟩ | ⟨hvd, hview⟩
          · left
            refine ⟨by rw [← verdict_congr E h h1 c k tr (hv k hkm)]; exact hvd, q, hq, ?_⟩
            by_cases hk2 : k = tn
            · simpa [hk2] using hqb
            · simp only [hk2, if_false] at hqb ⊢
              exact Nat.le_trans hlen1 hqb
          · right
            exact ⟨by rw [← verdict_congr E h h1 c k tr (hv k hkm)]; exact hvd, by rw [hview, hv k hkm]⟩
    rcases parseStep_spec E h t c tn L R hinv m tr0 with
      ⟨hvd, h1, hs, hinv1, hlen1, hview, hv⟩ | ⟨hvd, h1, hs, hinv1, hlen1, hv⟩ | ⟨_, h1, hs, _⟩ | ⟨_, hs⟩
    · rw [parseLoop_cons_ok E h h1 t m tr0 rest hs] at hrun
      exact hrest h1 hinv1 hlen1 hv hrun (Or.inl ⟨hvd, hview⟩)
    · rw [parseLoop_cons_ok E h h1 t m tr0 rest hs] at hrun
      exact hrest h1 hinv1 hlen1 (fun k _ => hv k) hrun (Or.inr ⟨hvd, hv m⟩)
    · rw [parseLoop_cons_err E h h1 t m tr0 _ rest hs] at hrun
      simp at hrun
    · rw [parseLoop_cons_fault E h t m tr0 _ rest hs] at hrun
      cases hrun

theorem parseLoop_err (E : Env) (t : TmplPtr) (c : CommonPtr) (tn L R : String)
    (M : List (String × TreePtr)) :
    ∀ h h' e, Inv h t c tn L R pf ef → (keys M).Nodup → parseLoop E h t M = .ok (some e, h') →
      Inv h' t c tn L R pf ef ∧ h.templates.length ≤ h'.templates.length ∧
      (∀ k, k ∉ keys M → view h' c k = view h c k) ∧
      ∃ n tr, (n, tr) ∈ M ∧ e = .errorf "nifi: redefinition of nifi %q" n ∧
        verdict E h c n tr = .redefinition ∧ view h' c n = view h c n ∧
        ∀ k tr', (k, tr') ∈ M →
          view h' c k = view h c k ∨
          (verdict E h c k tr' = .adopt ∧ ∃ q, view h' c k = some (q, ⟨k, some tr', some c, L, R⟩)) := by
  induction M with
  | nil =>
    intro h h' e _ _ hrun
    simp [parseLoop] at hrun
  | cons x rest ih =>
    obtain ⟨m, tr0⟩ := x
    intro h h' e hinv hnd hrun
    have hnd' : m ∉ keys rest ∧ (keys rest).Nodup := by simpa [keys] using hnd
    have hrest : ∀ h1, Inv h1 t c tn L R pf ef → h.templates.length ≤ h1.templates.length →
        (∀ k, k ≠ m → view h1 c k = view h c k) → parseLoop E h1 t rest = .ok (some e, h') →
        (verdict E h c m tr0 = .adopt ∧
          view h1 c m = some (if m = tn then t else h.templates.length, ⟨m, some tr0, some c, L, R⟩) ∨
         view h1 c m = view h c m) →
        Inv h' t c tn L R pf ef ∧ h.templates.length ≤ h'.templates.length ∧
        (∀ k, k ∉ keys ((m, tr0) :: rest) → view h' c k = view h c k) ∧
        ∃ n tr, (n, tr) ∈ (m, tr0) :: rest ∧ e = .errorf "nifi: redefinition of nifi %q" n ∧
          verdict E h c n tr = .redefinition ∧ view h' c n = view h c n ∧
          ∀ k tr', (k, tr') ∈ (m, tr0) :: rest →
            view h' c k = view h c k ∨
            (verdict E h c k tr' = .adopt ∧
              ∃ q, view h' c k = some (q, ⟨k, some tr', some c, L, R⟩)) := by
      intro h1 hinv1 hlen1 hv hrun1 hhead
      obtain ⟨hinv', hlen', hout, n, tr, hn, he, hvd, hvn, hin⟩ := ih h1 h' e hinv1 hnd'.2 hrun1
      have hnm : n ≠ m := fun e => hnd'.1 (e ▸ mem_keys_of_mem hn)
      refine ⟨hinv', Nat.le_trans hlen1 hlen', ?_, n, tr, List.mem_cons_of_mem _ hn, he, ?_, ?_, ?_⟩
      · intro k hk
        have hk' : k ≠ m ∧ k ∉ keys rest := by simpa [keys] using hk
        rw [hout k hk'.2, hv k hk'.1]
      · rw [← verdict_congr E h h1 c n tr (hv n hnm)]; exact hvd
      · rw [hvn, hv n hnm]
      · intro k tr' hk
        rcases List.mem_cons.mp hk with heq | hmem
        · obtain ⟨rfl, rfl⟩ := Prod.mk.inj heq
          rcases hhead with ⟨hvd0, hview⟩ | hview
          · right
            exact ⟨hvd0, _, by rw [hout k hnd'.1, hview]⟩
          · left
            rw [hout k hnd'.1, hview]
        · have hkm : k ≠ m := fun e => hnd'.1 (e ▸ mem_keys_of_mem hmem)
          rcases hin k tr' hmem with hview | ⟨hvd1, q, hq⟩
          · left; rw [hview, hv k hkm]
          · right
            exact ⟨by rw [← verdict_congr E h h1 c k tr' (hv k hkm)]; exact hvd1, q, hq⟩
    rcases parseStep_spec E h t c tn L R hinv m tr0 with
      ⟨hvd, h1, hs, hinv1, hlen1, hview, hv⟩ | ⟨hvd, h1, hs, hinv1, hlen1, hv⟩ |
      ⟨hvd, h1, hs, hinv1, hlen1, hv⟩ | ⟨_, hs⟩
    · rw [parseLoop_cons_ok E h h1 t m tr0 rest hs] at hrun
      exact hrest h1 hinv1 hlen1 hv hrun (Or.inl ⟨hvd, hview⟩)
    · rw [parseLoop_cons_ok E h h1 t m tr0 rest hs] at hrun
      exact hrest h1 hinv1 hlen1 (fun k _ => hv k) hrun (Or.inr (hv m))
    · rw [parseLoop_cons_err E h h1 t m tr0 _ rest hs] at hrun
      simp only [Except.ok.injEq, Prod.mk.injEq, Option.some.injEq] at hrun
      obtain ⟨rfl, rfl⟩ := hrun
      exact ⟨hinv1, hlen1, fun k _ => hv k, m, tr0, List.mem_cons_self _ _, rfl, hvd, hv m,
        fun k _ _ => Or.inl (hv k)⟩
    · rw [parseLoop_cons_fault E h t m tr0 _ rest hs] at hrun
      cases hrun

/-! ## `Parse` as a whole, and the laws of redefinition -/

theorem mapGet_mem {β : Type} (m : List (String × β)) (k : String) (v : β)
    (hg : mapGet m k = some v) : (k, v) ∈ m := by
  induction m with
  | nil => simp [mapGet] at hg
  | cons e rest ih =>
    obtain ⟨k0, v0⟩ := e
    by_cases h0 : k0 = k
    · subst h0
      simp [mapGet] at hg
      subst hg
      exact List.mem_cons_self _ _
    · simp [mapGet, h0] at hg
      exact List.mem_cons_of_mem _ (ih hg)

theorem lookupView_of_Inv {pf : FuncMap} {ef : List (String × FuncVal)}
    (h : Heap) (t : TmplPtr) (c : CommonPtr) (tn L R : String)
    (hinv : Inv h t c tn L R pf ef) (k : String) :
    lookupView h t k = .ok (view h c k) := by
  obtain ⟨⟨tt, ht⟩, hc, hreg, _⟩ := hinv
  obtain ⟨cv, hcv⟩ : ∃ cv, h.commons[c]? = some cv := ⟨h.commons[c], List.getElem?_eq_getElem hc⟩
  have hra : regAt h c k = mapGet cv.tmpl k := by simp [regAt, hcv]
  cases hg : mapGet cv.tmpl k with
  | none => simp [lookupView, Template.Lookup, deref, ht, hcv, hg, view, hra]
  | some p =>
    have hplt := (hreg k p (by rw [hra, hg])).1
    obtain ⟨pv, hpv⟩ : ∃ pv, h.templates[p]? = some pv := ⟨h.templates[p], List.getElem?_eq_getElem hplt⟩
    simp [lookupView, Template.Lookup, deref, ht, hcv, hg, view, hra, hpv]

theorem init_eq (h : Heap) (t : TmplPtr) (tv : Template) (ht : h.templates[t]? = some tv) :
    Template.init h t = .ok (initHeap h t tv) := by
  cases hc : tv.common <;> simp [Template.init, deref, ht, hc, initHeap]

theorem init_inv (h : Heap) (t : TmplPtr) (tv : Template) (hwf : WF h t)
    (ht : h.templates[t]? = some tv) :
    Inv (initHeap h t tv) t (initCommon h tv) tv.name tv.leftDelim tv.rightDelim (parseFuncsOf h t)
      (match getCommon h t with | .ok (_, cv) => cv.execFuncs | .error _ => []) ∧
    (∀ k, lookupView h t k = .ok (view (initHeap h t tv) (initCommon h tv) k)) ∧
    (∃ tv1, (initHeap h t tv).templates[t]? = some tv1 ∧ tv1.Tree = tv.Tree) ∧
    (initHeap h t tv).templates.length = h.templates.length := by
  obtain ⟨tn, tt, tc, L, R⟩ := tv
  cases tc with
  | some c =>
    simp only [WF, ht] at hwf
    cases hcv : h.commons[c]? with
    | none => simp [hcv] at hwf
    | some cv =>
      simp only [hcv] at hwf
      have hclt : c < h.commons.length := lt_of_get _ _ _ hcv
      have hinv : Inv h t c tn L R cv.parseFuncs cv.execFuncs := by
        refine ⟨⟨tt, ht⟩, hclt, ?_, ?_⟩
        · intro k p hk
          simp only [regAt, hcv] at hk
          exact hwf (k, p) (mapGet_mem _ _ _ hk)
        · intro cv' hcv'
          rw [hcv] at hcv'; cases hcv'; exact ⟨rfl, rfl⟩
      simp only [initHeap, initCommon, parseFuncsOf, getCommon, ht, hcv]
      exact ⟨hinv, fun k => lookupView_of_Inv h t c tn L R hinv k, ⟨_, rfl, rfl⟩, trivial⟩
  | none =>
    have htlt : t < h.templates.length := lt_of_get _ _ _ ht
    have hget : (initHeap h t ⟨tn, tt, none, L, R⟩).templates[t]? = some ⟨tn, tt, some h.commons.length, L, R⟩ := by
      simp only [initHeap]
      rw [updTmpl_get]; simp [ht]
    have hcom : (initHeap h t ⟨tn, tt, none, L, R⟩).commons[h.commons.length]? = some ⟨[], [], []⟩ := by
      simp [initHeap]
    have hview : ∀ k, view (initHeap h t ⟨tn, tt, none, L, R⟩) h.commons.length k = none := by
      intro k; simp [view, regAt, hcom, mapGet]
    simp only [initCommon, parseFuncsOf, getCommon, ht]
    refine ⟨⟨⟨tt, hget⟩, ?_, ?_, ?_⟩, ?_, ⟨_, hget, rfl⟩, ?_⟩
    · simp [initHeap]
    · intro k p hk
      simp [regAt, hcom, mapGet] at hk
    · intro cv' hcv'
      rw [hcom] at hcv'; cases hcv'; exact ⟨rfl, rfl⟩
    · intro k
      rw [hview]
      simp [lookupView, Template.Lookup, deref, ht]
    · simp [initHeap]

theorem Parse_of_Inv (E : Env) (h : Heap) (t : TmplPtr) (c : CommonPtr) (tn L R text : String)
    (hinv : Inv h t c tn L R pf ef) :
    Template.Parse E h t text = parseTail E h t (E.Parse tn text L R pf) := by
  obtain ⟨⟨tt, ht⟩, hc, _, hfn⟩ := hinv
  obtain ⟨cv, hcv⟩ : ∃ cv, h.commons[c]? = some cv := ⟨h.commons[c], List.getElem?_eq_getElem hc⟩
  have hpf := (hfn cv hcv).1
  have hi := init_of_some h t _ c ht rfl
  simp only [Template.Parse, hi, deref, getCommon, ht, hcv, hpf, parseTail]

theorem Parse_of_WF (E : Env) (h : Heap) (t : TmplPtr) (tv : Template) (text : String)
    (hwf : WF h t) (ht : h.templates[t]? = some tv) :
    Template.Parse E h t text =
      parseTail E (initHeap h t tv) t
        (E.Parse tv.name text tv.leftDelim tv.rightDelim (parseFuncsOf h t)) := by
  obtain ⟨⟨⟨tt, ht1⟩, hc, _, hfn⟩, _⟩ := init_inv h t tv hwf ht
  obtain ⟨cv, hcv⟩ : ∃ cv, (initHeap h t tv).commons[initCommon h tv]? = some cv :=
    ⟨(initHeap h t tv).commons[initCommon h tv], List.getElem?_eq_getElem hc⟩
  have hpf := (hfn cv hcv).1
  simp only [Template.Parse, init_eq h t tv ht, deref, getCommon, ht1, hcv, hpf, parseTail]

theorem verdict_cases (E : Env) (h : Heap) (c : CommonPtr) (m : String) (tr : TreePtr) :
    (verdict E h c m tr = .adopt ∧
      (view h c m = none ∨ ∃ p pv ot, view h c m = some (p, pv) ∧ pv.Tree = some ot ∧
        E.IsEmptyTree tr = false ∧ E.IsEmptyTree ot = true)) ∨
    (verdict E h c m tr = .keep ∧
      ∃ p pv ot, view h c m = some (p, pv) ∧ pv.Tree = some ot ∧ E.IsEmptyTree tr = true) ∨
    (verdict E h c m tr = .redefinition ∧
      ∃ p pv ot, view h c m = some (p, pv) ∧ pv.Tree = some ot ∧
        E.IsEmptyTree tr = false ∧ E.IsEmptyTree ot = false) ∨
    (verdict E h c m tr = .fault ∧ ∃ p pv, view h c m = some (p, pv) ∧ pv.Tree = none) := by
  unfold verdict
  cases hv : view h c m with
  | none => left; simp
  | some x =>
    obtain ⟨p, pv⟩ := x
    cases hot : pv.Tree with
    | none => right; right; right; exact ⟨by simp [hot], p, pv, rfl, hot⟩
    | some ot =>
      by_cases h1 : E.IsEmptyTree tr = true
      · right; left; exact ⟨by simp [hot, h1], p, pv, ot, rfl, hot, h1⟩
      · have h1' : E.IsEmptyTree tr = false := by simpa using h1
        by_cases h2 : E.IsEmptyTree ot = true
        · left; exact ⟨by simp [hot, h1, h2], Or.inr ⟨p, pv, ot, rfl, hot, h1', h2⟩⟩
        · have h2' : E.IsEmptyTree ot = false := by simpa using h2
          right; right; left; exact ⟨by simp [hot, h1, h2], p, pv, ot, rfl, hot, h1', h2'⟩

theorem get_of_deref (h : Heap) (t : TmplPtr) (tv : Template) (hd : deref h t = .ok tv) :
    h.templates[t]? = some tv := by
  unfold deref at hd
  cases hg : h.templates[t]? with
  | none => rw [hg] at hd; cases hd
  | some v => rw [hg] at hd; cases hd; rfl

theorem parseTail_ok_none (E : Env) (h1 h' : Heap) (t : TmplPtr) (M : List (String × TreePtr))
    (r : Option TmplPtr) (hrun : parseTail E h1 t (.ok M) = .ok ((r, none), h')) :
    parseLoop E h1 t M = .ok (none, h') ∧ r = some t := by
  simp only [parseTail] at hrun
  cases hl : parseLoop E h1 t M with
  | error f => rw [hl] at hrun; cases hrun
  | ok x =>
    obtain ⟨o, h2⟩ := x
    rw [hl] at hrun
    cases o with
    | none => simp at hrun; obtain ⟨rfl, rfl⟩ := hrun; exact ⟨rfl, rfl⟩
    | some e => simp at hrun

theorem parseTail_ok_some (E : Env) (h1 h' : Heap) (t : TmplPtr) (M : List (String × TreePtr))
    (r : Option TmplPtr) (e : Error) (hrun : parseTail E h1 t (.ok M) = .ok ((r, some e), h')) :
    parseLoop E h1 t M = .ok (some e, h') ∧ r = none := by
  simp only [parseTail] at hrun
  cases hl : parseLoop E h1 t M with
  | error f => rw [hl] at hrun; cases hrun
  | ok x =>
    obtain ⟨o, h2⟩ := x
    rw [hl] at hrun
    cases o with
    | none => simp at hrun
    | some e' => simp at hrun; obtain ⟨⟨rfl, rfl⟩, rfl⟩ := hrun; exact ⟨rfl, rfl⟩

/-- Claim C7. When the parser rejects the text, `Parse` returns a nil handle and exactly the
parser's error, every `Lookup` gives the same handle with the same fields as before, and
the name, tree and delimiters of `t` are unchanged. -/
theorem parse_error_atomic (E : Env) (h : Heap) (t : TmplPtr) (tv : Template) (text e : String)
    (hwf : WF h t) (ht : deref h t = .ok tv)
    (hrej : E.Parse tv.name text tv.leftDelim tv.rightDelim (parseFuncsOf h t) = .error e) :
    ∃ h', Template.Parse E h t text = .ok ((none, some (.parser e)), h') ∧
      (∀ name, lookupView h' t name = lookupView h t name) ∧
      ∃ tv', deref h' t = .ok tv' ∧ tv'.name = tv.name ∧ tv'.Tree = tv.Tree ∧
        tv'.leftDelim = tv.leftDelim ∧ tv'.rightDelim = tv.rightDelim := by
  have ht' := get_of_deref h t tv ht
  obtain ⟨hinv, hlook, _, _⟩ := init_inv h t tv hwf ht'
  refine ⟨initHeap h t tv, ?_, ?_, ?_⟩
  · rw [Parse_of_WF E h t tv text hwf ht', hrej]; rfl
  · intro name
    rw [hlook name, lookupView_of_Inv _ t _ _ _ _ hinv name]
  · obtain ⟨tt, ht1⟩ := hinv.ht
    obtain ⟨_, _, ⟨tv1, htv1, htree⟩, _⟩ := init_inv h t tv hwf ht'
    rw [ht1] at htv1
    cases htv1
    exact ⟨_, deref_eq _ _ _ ht1, rfl, htree, rfl, rfl⟩

/-- Claim C10. After a `Parse` that succeeds with parser result `M`, `Parse` has returned
`t` itself, and every name `n` of `M` is registered: its handle holds `M[n]` when `M[n]`
is non-empty or `n` was not registered before, and it is the same handle with the same
fields as before when `M[n]` is empty and `n` was registered. -/
theorem parse_adopts (E : Env) (h h' : Heap) (t : TmplPtr) (tv : Template) (text : String)
    (M : List (String × TreePtr)) (r : Option TmplPtr)
    (hwf : WF h t) (ht : deref h t = .ok tv)
    (hp : E.Parse tv.name text tv.leftDelim tv.rightDelim (parseFuncsOf h t) = .ok M)
    (hnd : (keys M).Nodup)
    (hrun : Template.Parse E h t text = .ok ((r, none), h')) :
    r = some t ∧
    ∀ n tr, (n, tr) ∈ M →
      ∃ q qv, lookupView h' t n = .ok (some (q, qv)) ∧
        ((E.IsEmptyTree tr = false ∨ lookupView h t n = .ok none) → qv.Tree = some tr) ∧
        (E.IsEmptyTree tr = true → ∀ x, lookupView h t n = .ok (some x) → (q, qv) = x) := by
  have ht' := get_of_deref h t tv ht
  obtain ⟨hinv, hlook, _, _⟩ := init_inv h t tv hwf ht'
  rw [Parse_of_WF E h t tv text hwf ht', hp] at hrun
  obtain ⟨hloop, hr⟩ := parseTail_ok_none E _ h' t M r hrun
  obtain ⟨hinv', _, _, hin⟩ := parseLoop_ok E t _ _ _ _ M _ h' hinv hnd hloop
  refine ⟨hr, ?_⟩
  intro n tr hn
  rw [lookupView_of_Inv _ t _ _ _ _ hinv' n, hlook n]
  rcases hin n tr hn with ⟨hvd, q, hq, _⟩ | ⟨hvd, hview⟩
  · refine ⟨q, _, by rw [hq], fun _ => rfl, ?_⟩
    intro hemp x hx
    rcases verdict_cases E (initHeap h t tv) (initCommon h tv) n tr with
      ⟨_, hnone | ⟨_, _, _, _, _, hne, _⟩⟩ | ⟨hk, _⟩ | ⟨hk, _⟩ | ⟨hk, _⟩
    · rw [hnone] at hx; cases hx
    · rw [hne] at hemp; cases hemp
    · rw [hvd] at hk; cases hk
    · rw [hvd] at hk; cases hk
    · rw [hvd] at hk; cases hk
  · rcases verdict_cases E (initHeap h t tv) (initCommon h tv) n tr with
      ⟨hk, _⟩ | ⟨_, p, pv, ot, hv, hot, hemp⟩ | ⟨hk, _⟩ | ⟨hk, _⟩
    · rw [hvd] at hk; cases hk
    · refine ⟨p, pv, by rw [hview, hv], ?_, ?_⟩
      · rintro (hne | hnone)
        · rw [hne] at hemp; cases hemp
        · rw [hv] at hnone; cases hnone
      · intro _ x hx
        rw [hv] at hx
        simp only [Except.ok.injEq, Option.some.injEq] at hx
        exact hx
    · rw [hvd] at hk; cases hk
    · rw [hvd] at hk; cases hk

/-- The redefinition law when every registered handle named by the parser's result holds
a tree: when `Lookup(n)` holds a non-empty tree and the parser's result has a non-empty
tree under `n`, `Parse` returns a nil handle and a redefinition error, and `Lookup(n)`
afterwards is the same handle with the same fields. -/
theorem parse_redefinition (E : Env) (h : Heap) (t : TmplPtr) (tv : Template) (text : String)
    (M : List (String × TreePtr)) (n : String) (T ot : TreePtr) (p : TmplPtr) (pv : Template)
    (hwf : WF h t) (ht : deref h t = .ok tv)
    (hp : E.Parse tv.name text tv.leftDelim tv.rightDelim (parseFuncsOf h t) = .ok M)
    (hnd : (keys M).Nodup)
    (hlook : lookupView h t n = .ok (some (p, pv))) (hpt : pv.Tree = some ot)
    (hpe : E.IsEmptyTree ot = false) (hT : (n, T) ∈ M) (hTe : E.IsEmptyTree T = false)
    (htrees : ∀ k tr q qv, (k, tr) ∈ M → lookupView h t k = .ok (some (q, qv)) → qv.Tree ≠ none) :
    ∃ h' name, Template.Parse E h t text =
        .ok ((none, some (.errorf "nifi: redefinition of nifi %q" name)), h') ∧
      lookupView h' t n = .ok (some (p, pv)) := by
  have ht' := get_of_deref h t tv ht
  obtain ⟨hinv, hlook0, _, _⟩ := init_inv h t tv hwf ht'
  have hvn : view (initHeap h t tv) (initCommon h tv) n = some (p, pv) := by
    have := hlook0 n
    rw [hlook] at this
    simp only [Except.ok.injEq] at this
    exact this.symm
  have hvdn : verdict E (initHeap h t tv) (initCommon h tv) n T = .redefinition := by
    simp [verdict, hvn, hpt, hpe, hTe]
  have hnf : ∀ k tr, (k, tr) ∈ M → verdict E (initHeap h t tv) (initCommon h tv) k tr ≠ .fault := by
    intro k tr hk hf
    rcases verdict_cases E (initHeap h t tv) (initCommon h tv) k tr with
      ⟨hk2, _⟩ | ⟨hk2, _⟩ | ⟨hk2, _⟩ | ⟨_, q, qv, hv, hnone⟩
    · rw [hf] at hk2; cases hk2
    · rw [hf] at hk2; cases hk2
    · rw [hf] at hk2; cases hk2
    · exact htrees k tr q qv hk (by rw [hlook0 k, hv]) hnone
  obtain ⟨r, h', hloop⟩ := parseLoop_run E t _ _ _ _ M _ hinv hnd hnf
  rw [Parse_of_WF E h t tv text hwf ht', hp]
  cases r with
  | none =>
    obtain ⟨_, _, _, hin⟩ := parseLoop_ok E t _ _ _ _ M _ h' hinv hnd hloop
    rcases hin n T hT with ⟨hk, _⟩ | ⟨hk, _⟩
    · rw [hvdn] at hk; cases hk
    · rw [hvdn] at hk; cases hk
  | some e =>
    obtain ⟨hinv', _, _, m, _, _, he, _, _, hall⟩ := parseLoop_err E t _ _ _ _ M _ h' e hinv hnd hloop
    refine ⟨h', m, by simp [parseTail, hloop, he], ?_⟩
    rw [lookupView_of_Inv _ t _ _ _ _ hinv' n]
    rcases hall n T hT with hsame | ⟨hk, _⟩
    · rw [hsame, hvn]
    · rw [hvdn] at hk; cases hk

/-- Claim C8, as the code has it. When `Parse` returns an error although the parser
accepted the text, the error is a redefinition error for a name `n` of the parser's
result whose registration is as before; names outside the parser's result are as before;
any other name of the result is either as before or now registers a handle holding the
tree the parser gave for it. -/
theorem parse_redefinition_effect (E : Env) (h h' : Heap) (t : TmplPtr) (tv : Template)
    (text : String) (M : List (String × TreePtr)) (r : Option TmplPtr) (e : Error)
    (hwf : WF h t) (ht : deref h t = .ok tv)
    (hp : E.Parse tv.name text tv.leftDelim tv.rightDelim (parseFuncsOf h t) = .ok M)
    (hnd : (keys M).Nodup)
    (hrun : Template.Parse E h t text = .ok ((r, some e), h')) :
    r = none ∧
    ∃ n tr, (n, tr) ∈ M ∧ e = .errorf "nifi: redefinition of nifi %q" n ∧
      lookupView h' t n = lookupView h t n ∧
      (∀ k, k ∉ keys M → lookupView h' t k = lookupView h t k) ∧
      ∀ k tr', (k, tr') ∈ M →
        lookupView h' t k = lookupView h t k ∨
        ∃ q qv, lookupView h' t k = .ok (some (q, qv)) ∧ qv.Tree = some tr' := by
  have ht' := get_of_deref h t tv ht
  obtain ⟨hinv, hlook0, _, _⟩ := init_inv h t tv hwf ht'
  rw [Parse_of_WF E h t tv text hwf ht', hp] at hrun
  obtain ⟨hloop, hr⟩ := parseTail_ok_some E _ h' t M r e hrun
  obtain ⟨hinv', _, hout, n, tr, hn, he, _, hvn, hall⟩ :=
    parseLoop_err E t _ _ _ _ M _ h' e hinv hnd hloop
  refine ⟨hr, n, tr, hn, he, ?_, ?_, ?_⟩
  · rw [lookupView_of_Inv _ t _ _ _ _ hinv' n, hlook0 n, hvn]
  · intro k hk
    rw [lookupView_of_Inv _ t _ _ _ _ hinv' k, hlook0 k, hout k hk]
  · intro k tr' hk
    rw [lookupView_of_Inv _ t _ _ _ _ hinv' k, hlook0 k]
    rcases hall k tr' hk with hsame | ⟨_, q, hq⟩
    · left; rw [hsame]
    · right; exact ⟨q, _, by rw [hq], rfl⟩

theorem verdict_of_tree (E : Env) (h : Heap) (c : CommonPtr) (m : String) (tr ot : TreePtr)
    (p : TmplPtr) (pv : Template) (hv : view h c m = some (p, pv)) (hot : pv.Tree = some ot) :
    verdict E h c m tr =
      if E.IsEmptyTree tr then .keep else if E.IsEmptyTree ot then .adopt else .redefinition := by
  simp [verdict, hv, hot]

theorem verdict_of_none (E : Env) (h : Heap) (c : CommonPtr) (m : String) (tr : TreePtr)
    (hv : view h c m = none) : verdict E h c m tr = .adopt := by
  simp [verdict, hv]

/-- Claim C4, as the code has it. After a `Parse` that succeeded and adopted a non-empty
tree for the name of `t`, a second `Parse` of the same text returns a nil handle and a
redefinition error, and every `Lookup` gives the same handle with the same fields as
before the second call. -/
theorem reparse_redefinition (E : Env) (h h1 : Heap) (t : TmplPtr) (tv : Template) (text : String)
    (M : List (String × TreePtr)) (T : TreePtr)
    (hwf : WF h t) (ht : deref h t = .ok tv)
    (hp : E.Parse tv.name text tv.leftDelim tv.rightDelim (parseFuncsOf h t) = .ok M)
    (hnd : (keys M).Nodup)
    (hrun : Template.Parse E h t text = .ok ((some t, none), h1))
    (hroot : (tv.name, T) ∈ M) (hTe : E.IsEmptyTree T = false) :
    ∃ h2 name, Template.Parse E h1 t text =
        .ok ((none, some (.errorf "nifi: redefinition of nifi %q" name)), h2) ∧
      ∀ k, lookupView h2 t k = lookupView h1 t k := by
  have ht' := get_of_deref h t tv ht
  obtain ⟨hinv, _, _, _⟩ := init_inv h t tv hwf ht'
  rw [Parse_of_WF E h t tv text hwf ht', hp] at hrun
  obtain ⟨hloop, _⟩ := parseTail_ok_none E _ h1 t M _ hrun
  obtain ⟨hinv1, _, _, hin⟩ := parseLoop_ok E t _ _ _ _ M _ h1 hinv hnd hloop
  -- in the heap after the first call every entry of `M` is kept or is a redefinition
  have hv2 : ∀ k tr, (k, tr) ∈ M →
      (verdict E h1 (initCommon h tv) k tr = .keep ∧ E.IsEmptyTree tr = true) ∨
      (verdict E h1 (initCommon h tv) k tr = .redefinition ∧ E.IsEmptyTree tr = false) := by
    intro k tr hk
    rcases hin k tr hk with ⟨_, q, hq, _⟩ | ⟨hvd, hview⟩
    · have hvd2 := verdict_of_tree E h1 (initCommon h tv) k tr tr q _ hq rfl
      by_cases hemp : E.IsEmptyTree tr = true
      · left; exact ⟨by rw [hvd2]; simp [hemp], hemp⟩
      · right; exact ⟨by rw [hvd2]; simp [hemp], by simpa using hemp⟩
    · rcases verdict_cases E (initHeap h t tv) (initCommon h tv) k tr with
        ⟨hk2, _⟩ | ⟨_, p, pv, ot, hv, hot, hemp⟩ | ⟨hk2, _⟩ | ⟨hk2, _⟩
      · rw [hvd] at hk2; cases hk2
      · left
        have hvd2 := verdict_of_tree E h1 (initCommon h tv) k tr ot p pv (by rw [hview, hv]) hot
        exact ⟨by rw [hvd2]; simp [hemp], hemp⟩
      · rw [hvd] at hk2; cases hk2
      · rw [hvd] at hk2; cases hk2
  have hnf : ∀ k tr, (k, tr) ∈ M → verdict E h1 (initCommon h tv) k tr ≠ .fault := by
    intro k tr hk hf
    rcases hv2 k tr hk with ⟨h3, _⟩ | ⟨h3, _⟩ <;> rw [hf] at h3 <;> cases h3
  obtain ⟨r, h2, hloop2⟩ := parseLoop_run E t _ _ _ _ M _ hinv1 hnd hnf
  rw [Parse_of_Inv E h1 t _ _ _ _ text hinv1, hp]
  cases r with
  | none =>
    obtain ⟨_, _, _, hin2⟩ := parseLoop_ok E t _ _ _ _ M _ h2 hinv1 hnd hloop2
    rcases hv2 _ T hroot with ⟨_, h3⟩ | ⟨h3, _⟩
    · rw [hTe] at h3; cases h3
    · rcases hin2 _ T hroot with ⟨h4, _⟩ | ⟨h4, _⟩ <;> rw [h3] at h4 <;> cases h4
  | some e =>
    obtain ⟨hinv2, _, hout, m, _, _, he, _, _, hall⟩ :=
      parseLoop_err E t _ _ _ _ M _ h2 e hinv1 hnd hloop2
    refine ⟨h2, m, by simp [parseTail, hloop2, he], ?_⟩
    intro k
    rw [lookupView_of_Inv _ t _ _ _ _ hinv2 k, lookupView_of_Inv _ t _ _ _ _ hinv1 k]
    by_cases hk : k ∈ keys M
    · obtain ⟨⟨k', tr⟩, hmem, hfst⟩ := List.mem_map.mp hk
      simp only at hfst
      subst hfst
      rcases hall k' tr hmem with hsame | ⟨h4, _⟩
      · rw [hsame]
      · rcases hv2 k' tr hmem with ⟨h3, _⟩ | ⟨h3, _⟩ <;> rw [h4] at h3 <;> cases h3
    · rw [hout k hk]

theorem New_get (h0 : Heap) (name : String) :
    (New h0 name).2.templates[(New h0 name).1]? = some ⟨name, none, none, "", ""⟩ := by
  simp only [New, allocTmpl_fst]
  rw [allocTmpl_get]; simp

theorem New_WF (h0 : Heap) (name : String) : WF (New h0 name).2 (New h0 name).1 := by
  simp only [WF, New_get]

theorem mem_of_mem_keys {β : Type} {M : List (String × β)} {k : String} (hk : k ∈ keys M) :
    ∃ tr, (k, tr) ∈ M := by
  obtain ⟨⟨k', tr⟩, hmem, hfst⟩ := List.mem_map.mp hk
  simp only at hfst
  subst hfst
  exact ⟨tr, hmem⟩

/-- The first `Parse` on a freshly constructed handle succeeds and registers every name of
the parser's result with the tree given for it, and no other name. -/
theorem first_parse (E : Env) (h0 : Heap) (name text : String) (M : List (String × TreePtr))
    (hp : E.Parse name text "" "" [] = .ok M) (hnd : (keys M).Nodup) :
    ∃ h1 c ef, Template.Parse E (New h0 name).2 (New h0 name).1 text =
        .ok ((some (New h0 name).1, none), h1) ∧
      Inv h1 (New h0 name).1 c name "" "" [] ef ∧
      (∀ k, k ∉ keys M → view h1 c k = none) ∧
      ∀ k tr, (k, tr) ∈ M → ∃ q, view h1 c k = some (q, ⟨k, some tr, some c, "", ""⟩) := by
  have hget := New_get h0 name
  have hwf := New_WF h0 name
  obtain ⟨hinv, hlook, _, _⟩ := init_inv _ _ _ hwf hget
  have hpf : parseFuncsOf (New h0 name).2 (New h0 name).1 = [] := by
    simp [parseFuncsOf, getCommon, hget]
  rw [hpf] at hinv
  simp only [] at hinv
  have hnone : ∀ k, view (initHeap (New h0 name).2 (New h0 name).1 ⟨name, none, none, "", ""⟩)
      (initCommon (New h0 name).2 ⟨name, none, none, "", ""⟩) k = none := by
    intro k
    have h1 := hlook k
    have h2 : lookupView (New h0 name).2 (New h0 name).1 k = .ok none := by
      simp [lookupView, Template.Lookup, deref, hget]
    rw [h2] at h1
    simp only [Except.ok.injEq] at h1
    exact h1.symm
  have hnf : ∀ k tr, (k, tr) ∈ M → verdict E
      (initHeap (New h0 name).2 (New h0 name).1 ⟨name, none, none, "", ""⟩)
      (initCommon (New h0 name).2 ⟨name, none, none, "", ""⟩) k tr ≠ .fault := by
    intro k tr _ hf
    rw [verdict_of_none E _ _ k tr (hnone k)] at hf; cases hf
  obtain ⟨r, h1, hloop⟩ := parseLoop_run E _ _ _ _ _ M _ hinv hnd hnf
  have hparse := Parse_of_WF E _ _ _ text hwf hget
  rw [hpf] at hparse
  simp only [] at hparse
  rw [hp] at hparse
  cases r with
  | some e =>
    obtain ⟨_, _, _, m, tr, _, _, hvd, _⟩ := parseLoop_err E _ _ _ _ _ M _ h1 e hinv hnd hloop
    rw [verdict_of_none E _ _ m tr (hnone m)] at hvd; cases hvd
  | none =>
    obtain ⟨hinv1, _, hout, hin⟩ := parseLoop_ok E _ _ _ _ _ M _ h1 hinv hnd hloop
    refine ⟨h1, _, _, by rw [hparse]; simp [parseTail, hloop], hinv1, ?_, ?_⟩
    · intro k hk; rw [hout k hk, hnone k]
    · intro k tr hk
      rcases hin k tr hk with ⟨_, q, hq, _⟩ | ⟨hvd, _⟩
      · exact ⟨q, hq⟩
      · rw [verdict_of_none E _ _ k tr (hnone k)] at hvd; cases hvd

/-- Claim C3. On a freshly constructed handle, when one `Parse` defines `n` as empty and
the other as the non-empty tree `T`, in either order, and no name has a non-empty tree in
both parser results, both calls succeed and `Lookup(n)` then holds `T`. -/
theorem empty_placeholder (E : Env) (h0 : Heap) (name text1 text2 n : String)
    (M1 M2 : List (String × TreePtr)) (e T : TreePtr)
    (hp1 : E.Parse name text1 "" "" [] = .ok M1) (hp2 : E.Parse name text2 "" "" [] = .ok M2)
    (hnd1 : (keys M1).Nodup) (hnd2 : (keys M2).Nodup)
    (he : E.IsEmptyTree e = true) (hT : E.IsEmptyTree T = false)
    (horder : ((n, e) ∈ M1 ∧ (n, T) ∈ M2) ∨ ((n, T) ∈ M1 ∧ (n, e) ∈ M2))
    (hnc : ∀ k tr1 tr2, (k, tr1) ∈ M1 → (k, tr2) ∈ M2 →
      E.IsEmptyTree tr1 = true ∨ E.IsEmptyTree tr2 = true) :
    ∃ h1 h2 q qv,
      Template.Parse E (New h0 name).2 (New h0 name).1 text1 = .ok ((some (New h0 name).1, none), h1) ∧
      Template.Parse E h1 (New h0 name).1 text2 = .ok ((some (New h0 name).1, none), h2) ∧
      lookupView h2 (New h0 name).1 n = .ok (some (q, qv)) ∧ qv.Tree = some T := by
  obtain ⟨h1, c, ef1, hrun1, hinv1, hout1, hin1⟩ := first_parse E h0 name text1 M1 hp1 hnd1
  -- the case of every entry of the second result, in the heap after the first call
  have hv2 : ∀ k tr2, (k, tr2) ∈ M2 →
      verdict E h1 c k tr2 = .adopt ∨ verdict E h1 c k tr2 = .keep := by
    intro k tr2 hk
    by_cases hk1 : k ∈ keys M1
    · obtain ⟨tr1, hmem1⟩ := mem_of_mem_keys hk1
      obtain ⟨q, hq⟩ := hin1 k tr1 hmem1
      have hvd := verdict_of_tree E h1 c k tr2 tr1 q _ hq rfl
      by_cases hemp : E.IsEmptyTree tr2 = true
      · right; rw [hvd]; simp [hemp]
      · left
        rcases hnc k tr1 tr2 hmem1 hk with h3 | h3
        · rw [hvd]; simp [hemp, h3]
        · exact absurd h3 hemp
    · left; exact verdict_of_none E h1 c k tr2 (hout1 k hk1)
  have hnf : ∀ k tr, (k, tr) ∈ M2 → verdict E h1 c k tr ≠ .fault := by
    intro k tr hk hf
    rcases hv2 k tr hk with h3 | h3 <;> rw [hf] at h3 <;> cases h3
  obtain ⟨r, h2, hloop2⟩ := parseLoop_run E _ _ _ _ _ M2 _ hinv1 hnd2 hnf
  have hparse2 := Parse_of_Inv E h1 _ _ _ _ _ text2 hinv1
  rw [hp2] at hparse2
  cases r with
  | some err =>
    obtain ⟨_, _, _, m, tr, hm, _, hvd, _⟩ := parseLoop_err E _ _ _ _ _ M2 _ h2 err hinv1 hnd2 hloop2
    rcases hv2 m tr hm with h3 | h3 <;> rw [hvd] at h3 <;> cases h3
  | none =>
    obtain ⟨hinv2, _, _, hin2⟩ := parseLoop_ok E _ _ _ _ _ M2 _ h2 hinv1 hnd2 hloop2
    have hres : ∃ q qv, view h2 c n = some (q, qv) ∧ qv.Tree = some T := by
      rcases horder with ⟨_, hn2⟩ | ⟨hn1, hn2⟩
      · rcases hin2 n T hn2 with ⟨_, q, hq, _⟩ | ⟨hvd, _⟩
        · exact ⟨q, _, hq, rfl⟩
        · rcases verdict_cases E h1 c n T with
            ⟨hk, _⟩ | ⟨_, _, _, _, _, _, hemp⟩ | ⟨hk, _⟩ | ⟨hk, _⟩
          · rw [hvd] at hk; cases hk
          · rw [hT] at hemp; cases hemp
          · rw [hvd] at hk; cases hk
          · rw [hvd] at hk; cases hk
      · obtain ⟨q, hq⟩ := hin1 n T hn1
        rcases hin2 n e hn2 with ⟨hvd, _⟩ | ⟨_, hview⟩
        · rw [verdict_of_tree E h1 c n e T q _ hq rfl] at hvd
          simp [he] at hvd
        · exact ⟨q, _, by rw [hview, hq], rfl⟩
    obtain ⟨q, qv, hq, hqt⟩ := hres
    refine ⟨h1, h2, q, qv, hrun1, by rw [hparse2]; simp [parseTail, hloop2], ?_, hqt⟩
    rw [lookupView_of_Inv _ _ _ _ _ _ hinv2 n, hq]

theorem Lookup_of_getCommon (h : Heap) (t : TmplPtr) (c : CommonPtr) (cv : common) (k : String)
    (hg : getCommon h t = .ok (c, cv)) : Template.Lookup h t k = .ok (mapGet cv.tmpl k) := by
  unfold getCommon at hg
  cases ht : h.templates[t]? with
  | none => simp [ht] at hg
  | some tv =>
    cases htc : tv.common with
    | none => simp [ht, htc] at hg
    | some c' =>
      cases hc : h.commons[c']? with
      | none => simp [ht, htc, hc] at hg
      | some cv' =>
        simp [ht, htc, hc] at hg
        obtain ⟨rfl, rfl⟩ := hg
        simp [Template.Lookup, deref, ht, htc, hc]

theorem getCommon_parts (h : Heap) (t : TmplPtr) (c : CommonPtr) (cv : common)
    (hg : getCommon h t = .ok (c, cv)) :
    ∃ tv, h.templates[t]? = some tv ∧ tv.common = some c ∧ h.commons[c]? = some cv := by
  unfold getCommon at hg
  cases ht : h.templates[t]? with
  | none => simp [ht] at hg
  | some tv =>
    cases htc : tv.common with
    | none => simp [ht, htc] at hg
    | some c' =>
      cases hc : h.commons[c']? with
      | none => simp [ht, htc, hc] at hg
      | some cv' =>
        simp [ht, htc, hc] at hg
        obtain ⟨rfl, rfl⟩ := hg
        exact ⟨tv, rfl, htc, hc⟩

theorem install_spec (h : Heap) (t : TmplPtr) (c : CommonPtr) (cv : common) (name : String)
    (new : TmplPtr) (hg : getCommon h t = .ok (c, cv)) :
    (install h c name new).templates = h.templates ∧
    Template.Lookup (install h c name new) t name = .ok (some new) ∧
    ∀ k, k ≠ name → Template.Lookup (install h c name new) t k = Template.Lookup h t k := by
  obtain ⟨tv, ht, htc, hc⟩ := getCommon_parts h t c cv hg
  have hg' : getCommon (install h c name new) t
      = .ok (c, { cv with tmpl := mapSet cv.tmpl name new }) := by
    simp [getCommon, install, ht, htc, updCommon_get, hc]
  refine ⟨by simp [install], ?_, ?_⟩
  · rw [Lookup_of_getCommon _ t c _ name hg']
    simp [mapGet_mapSet]
  · intro k hk
    have hk' : ¬ name = k := fun e => hk e.symm
    rw [Lookup_of_getCommon _ t c _ k hg', Lookup_of_getCommon _ t c _ k hg]
    simp [mapGet_mapSet, hk']

/-- The four cases of `associate` when the registered handle holds a tree, for a handle
`t` with an initialized namespace, a handle `new` sharing it and a candidate tree: nothing
registered under the name of `new` installs `new`; an empty candidate keeps the
registration; a non-empty candidate replaces an empty existing tree; two non-empty trees
give the redefinition error for that name. Where the result is not an installation the
heap is returned as it was, and an installation changes the registration under the name of
`new` only. A registered handle without a tree makes `associate` panic
(`associate_treeless`). -/
theorem associate_arbitration (E : Env) (h : Heap) (t new : TmplPtr) (tree : TreePtr)
    (nv : Template) (c : CommonPtr) (cv : common)
    (hg : getCommon h t = .ok (c, cv)) (hn : deref h new = .ok nv) (hnc : nv.common = some c) :
    (Template.Lookup h t nv.name = .ok none →
      ∃ h', Template.associate E h t new (some tree) = .ok ((true, none), h') ∧
        h'.templates = h.templates ∧ Template.Lookup h' t nv.name = .ok (some new) ∧
        ∀ k, k ≠ nv.name → Template.Lookup h' t k = Template.Lookup h t k) ∧
    (∀ old ov ot, Template.Lookup h t nv.name = .ok (some old) → deref h old = .ok ov →
      ov.Tree = some ot →
      (E.IsEmptyTree tree = true →
        Template.associate E h t new (some tree) = .ok ((false, none), h)) ∧
      (E.IsEmptyTree tree = false → E.IsEmptyTree ot = true →
        ∃ h', Template.associate E h t new (some tree) = .ok ((true, none), h') ∧
          h'.templates = h.templates ∧ Template.Lookup h' t nv.name = .ok (some new) ∧
          ∀ k, k ≠ nv.name → Template.Lookup h' t k = Template.Lookup h t k) ∧
      (E.IsEmptyTree tree = false → E.IsEmptyTree ot = false →
        Template.associate E h t new (some tree) =
          .ok ((false, some (.errorf "nifi: redefinition of nifi %q" nv.name)), h))) := by
  obtain ⟨tv, ht, htc, hc⟩ := getCommon_parts h t c cv hg
  have hn' := get_of_deref h new nv hn
  have hl := Lookup_of_getCommon h t c cv nv.name hg
  obtain ⟨hi1, hi2, hi3⟩ := install_spec h t c cv nv.name new hg
  constructor
  · intro hnone
    rw [hl] at hnone
    simp only [Except.ok.injEq] at hnone
    exact ⟨_, associate_fresh E h t new (some tree) tv nv c cv ht hn' htc hnc hc hnone, hi1, hi2, hi3⟩
  · intro old ov ot hsome hov hot
    rw [hl] at hsome
    simp only [Except.ok.injEq] at hsome
    have hov' := get_of_deref h old ov hov
    have ha := associate_existing E h t new tree tv nv ov c cv old ot ht hn' htc hnc hc hsome hov' hot
    refine ⟨?_, ?_, ?_⟩
    · intro h1; rw [ha]; simp [h1]
    · intro h1 h2
      exact ⟨_, by rw [ha]; simp [h1, h2], hi1, hi2, hi3⟩
    · intro h1 h2; rw [ha]; simp [h1, h2]

theorem associate_arbitration_witness :
    Template.associate exEnv exHeap 0 1 (some 5) =
      .ok ((false, some (.errorf "nifi: redefinition of nifi %q" "header")), exHeap) :=
  ((associate_arbitration exEnv exHeap 0 1 5 ⟨"header", some 3, some 0, "", ""⟩ 0
    ⟨[("page", 0), ("header", 1)], [], []⟩ rfl rfl rfl).2 1 ⟨"header", some 3, some 0, "", ""⟩ 3
    rfl rfl rfl).2.2 rfl rfl

/-- What `init` does on a handle without a namespace: it allocates a namespace whose three
maps are empty, so that afterwards `Lookup` returns nil for every name, the name of `t`
included, and `Templates` returns the empty list. -/
theorem init_empty_namespace (h : Heap) (t : TmplPtr) (tv : Template)
    (ht : deref h t = .ok tv) (hnone : tv.common = none) :
    ∃ h1, Template.init h t = .ok h1 ∧
      getCommon h1 t = .ok (h.commons.length, ⟨[], [], []⟩) ∧
      (∀ name, Template.Lookup h1 t name = .ok none) ∧
      Template.Templates h1 t = .ok [] := by
  have ht' := get_of_deref h t tv ht
  have hget : (initHeap h t tv).templates[t]? = some { tv with common := some h.commons.length } := by
    simp only [initHeap, hnone]
    rw [updTmpl_get]; simp [ht']
  have hcom : (initHeap h t tv).commons[h.commons.length]? = some ⟨[], [], []⟩ := by
    simp [initHeap, hnone]
  have hg : getCommon (initHeap h t tv) t = .ok (h.commons.length, ⟨[], [], []⟩) := by
    simp [getCommon, hget, hcom]
  refine ⟨initHeap h t tv, init_eq h t tv ht', hg, ?_, ?_⟩
  · intro name
    rw [Lookup_of_getCommon _ t _ _ name hg]; rfl
  · simp [Template.Templates, deref, hget, hcom]

theorem init_empty_namespace_witness :
    ∃ h1, Template.init (New ⟨[], []⟩ "page").2 0 = .ok h1 ∧
      getCommon h1 0 = .ok (0, ⟨[], [], []⟩) ∧
      (∀ name, Template.Lookup h1 0 name = .ok none) ∧
      Template.Templates h1 0 = .ok [] :=
  init_empty_namespace (New ⟨[], []⟩ "page").2 0 ⟨"page", none, none, "", ""⟩ rfl rfl

/-- After `init` on the fresh handle "page", `Lookup` of its own name returns nil and
`Templates` is empty. -/
theorem init_self_registration_counterexample :
    ∃ h1, Template.init (New ⟨[], []⟩ "page").2 0 = .ok h1 ∧
      Template.Name h1 0 = .ok "page" ∧
      Template.Lookup h1 0 "page" = .ok none ∧ Template.Templates h1 0 = .ok [] :=
  ⟨_, rfl, rfl, rfl, rfl⟩

/-- Counterexample to claim C8 as stated: a `Parse` whose parser result defines "footer"
and redefines "page" returns the redefinition error for "page", yet "footer", traversed
first, has been registered. -/
theorem parse_redefinition_not_atomic :
    ∃ h', Template.Parse exEnv exHeap 0 "b" =
        .ok ((none, some (.errorf "nifi: redefinition of nifi %q" "page")), h') ∧
      Template.Lookup exHeap 0 "footer" = .ok none ∧
      Template.Lookup h' 0 "footer" = .ok (some 2) :=
  ⟨_, rfl, rfl, rfl⟩

/-- Counterexample to claim C4 as stated: the first `Parse` of text "a" on the fresh
handle "page" succeeds, and the second `Parse` of the same text returns a redefinition
error. -/
theorem reparse_counterexample :
    Template.Parse exEnv (New ⟨[], []⟩ "page").2 0 "a" = .ok ((some 0, none), exHeap) ∧
    ∃ h', Template.Parse exEnv exHeap 0 "a" =
      .ok ((none, some (.errorf "nifi: redefinition of nifi %q" "page")), h') :=
  ⟨rfl, _, rfl⟩

theorem parse_error_atomic_witness :
    ∃ h', Template.Parse exEnv exHeap 0 "oops" = .ok ((none, some (.parser "unexpected")), h') ∧
      (∀ name, lookupView h' 0 name = lookupView exHeap 0 name) ∧
      ∃ tv', deref h' 0 = .ok tv' ∧ tv'.name = "page" ∧ tv'.Tree = some 1 ∧
        tv'.leftDelim = "" ∧ tv'.rightDelim = "" :=
  parse_error_atomic exEnv exHeap 0 ⟨"page", some 1, some 0, "", ""⟩ "oops" "unexpected"
    (by simp [WF, exHeap]) rfl rfl

theorem parse_adopts_witness :
    some 0 = some 0 ∧
    ∀ n tr, (n, tr) ∈ [("page", 1), ("header", 3)] →
      ∃ q qv, lookupView exHeap 0 n = .ok (some (q, qv)) ∧
        ((exEnv.IsEmptyTree tr = false ∨ lookupView (New ⟨[], []⟩ "page").2 0 n = .ok none) →
          qv.Tree = some tr) ∧
        (exEnv.IsEmptyTree tr = true →
          ∀ x, lookupView (New ⟨[], []⟩ "page").2 0 n = .ok (some x) → (q, qv) = x) :=
  parse_adopts exEnv (New ⟨[], []⟩ "page").2 exHeap 0 ⟨"page", none, none, "", ""⟩ "a"
    [("page", 1), ("header", 3)] (some 0) (by simp [WF, New, allocTmpl]) rfl rfl
    (by simp [keys]) rfl

theorem parse_redefinition_witness :
    ∃ h' name, Template.Parse exEnv exHeap 0 "b" =
        .ok ((none, some (.errorf "nifi: redefinition of nifi %q" name)), h') ∧
      lookupView h' 0 "page" = .ok (some (0, ⟨"page", some 1, some 0, "", ""⟩)) :=
  parse_redefinition exEnv exHeap 0 ⟨"page", some 1, some 0, "", ""⟩ "b"
    [("footer", 5), ("page", 7)] "page" 7 1 0 ⟨"page", some 1, some 0, "", ""⟩
    (by simp [WF, exHeap]) rfl rfl (by simp [keys]) rfl rfl rfl (by simp) rfl
    (by
      intro k tr q qv hk hl
      simp only [List.mem_cons, Prod.mk.injEq, List.mem_singleton, List.not_mem_nil, or_false] at hk
      rcases hk with ⟨rfl, rfl⟩ | ⟨rfl, rfl⟩
      · cases hl
      · cases hl; simp [exHeap])

theorem parse_redefinition_effect_witness :
    (none : Option TmplPtr) = none ∧
    ∃ n tr, (n, tr) ∈ [("footer", 5), ("page", 7)] ∧
      Error.errorf "nifi: redefinition of nifi %q" "page" = .errorf "nifi: redefinition of nifi %q" n ∧
      lookupView
        ⟨[⟨"page", some 1, some 0, "", ""⟩, ⟨"header", some 3, some 0, "", ""⟩,
          ⟨"footer", some 5, some 0, "", ""⟩], [⟨[("page", 0), ("header", 1), ("footer", 2)], [], []⟩]⟩
        0 n = lookupView exHeap 0 n ∧
      (∀ k, k ∉ keys [("footer", 5), ("page", 7)] →
        lookupView
          ⟨[⟨"page", some 1, some 0, "", ""⟩, ⟨"header", some 3, some 0, "", ""⟩,
            ⟨"footer", some 5, some 0, "", ""⟩], [⟨[("page", 0), ("header", 1), ("footer", 2)], [], []⟩]⟩
          0 k = lookupView exHeap 0 k) ∧
      ∀ k tr', (k, tr') ∈ [("footer", 5), ("page", 7)] →
        lookupView
          ⟨[⟨"page", some 1, some 0, "", ""⟩, ⟨"header", some 3, some 0, "", ""⟩,
            ⟨"footer", some 5, some 0, "", ""⟩], [⟨[("page", 0), ("header", 1), ("footer", 2)], [], []⟩]⟩
          0 k = lookupView exHeap 0 k ∨
        ∃ q qv, lookupView
          ⟨[⟨"page", some 1, some 0, "", ""⟩, ⟨"header", some 3, some 0, "", ""⟩,
            ⟨"footer", some 5, some 0, "", ""⟩], [⟨[("page", 0), ("header", 1), ("footer", 2)], [], []⟩]⟩
          0 k = .ok (some (q, qv)) ∧ qv.Tree = some tr' :=
  parse_redefinition_effect exEnv exHeap _ 0 ⟨"page", some 1, some 0, "", ""⟩ "b"
    [("footer", 5), ("page", 7)] none (.errorf "nifi: redefinition of nifi %q" "page")
    (by simp [WF, exHeap]) rfl rfl (by simp [keys]) rfl

theorem reparse_redefinition_witness :
    ∃ h2 name, Template.Parse exEnv exHeap 0 "a" =
        .ok ((none, some (.errorf "nifi: redefinition of nifi %q" name)), h2) ∧
      ∀ k, lookupView h2 0 k = lookupView exHeap 0 k :=
  reparse_redefinition exEnv (New ⟨[], []⟩ "page").2 exHeap 0 ⟨"page", none, none, "", ""⟩ "a"
    [("page", 1), ("header", 3)] 1 (by simp [WF, New, allocTmpl]) rfl rfl (by simp [keys]) rfl
    (by simp) rfl

theorem empty_placeholder_witness :
    ∃ h1 h2 q qv,
      Template.Parse exEnv (New ⟨[], []⟩ "page").2 (New ⟨[], []⟩ "page").1 "e" =
        .ok ((some (New ⟨[], []⟩ "page").1, none), h1) ∧
      Template.Parse exEnv h1 (New ⟨[], []⟩ "page").1 "a" =
        .ok ((some (New ⟨[], []⟩ "page").1, none), h2) ∧
      lookupView h2 (New ⟨[], []⟩ "page").1 "page" = .ok (some (q, qv)) ∧ qv.Tree = some 1 :=
  empty_placeholder exEnv ⟨[], []⟩ "page" "e" "a" "page" [("page", 2)] [("page", 1), ("header", 3)]
    2 1 rfl rfl (by simp [keys]) (by simp [keys]) rfl rfl (Or.inl ⟨by simp, by simp⟩)
    (by
      intro k tr1 tr2 h1 _
      simp only [List.mem_singleton, Prod.mk.injEq] at h1
      obtain ⟨_, rfl⟩ := h1
      left; rfl)

/-! ## `Clone` -/

theorem mem_mapSet {β : Type} (m : List (String × β)) (k : String) (v : β) (e : String × β)
    (he : e ∈ mapSet m k v) : e ∈ m ∨ e = (k, v) := by
  induction m with
  | nil => simp [mapSet] at he; exact Or.inr he
  | cons x rest ih =>
    obtain ⟨k0, v0⟩ := x
    by_cases h0 : k0 = k
    · simp only [mapSet, h0, if_true, List.mem_cons] at he
      rcases he with he | he
      · exact Or.inr he
      · exact Or.inl (List.mem_cons_of_mem _ he)
    · simp only [mapSet, h0, if_false, List.mem_cons] at he
      rcases he with he | he
      · exact Or.inl (he ▸ List.mem_cons_self _ _)
      · rcases ih he with h1 | h1
        · exact Or.inl (List.mem_cons_of_mem _ h1)
        · exact Or.inr h1

theorem mapGet_none_of_not_mem {β : Type} (m : List (String × β)) (k : String)
    (hk : k ∉ keys m) : mapGet m k = none := by
  induction m with
  | nil => rfl
  | cons x rest ih =>
    obtain ⟨k0, v0⟩ := x
    have h1 : ¬ k = k0 ∧ k ∉ keys rest := by simpa [keys] using hk
    have h2 : ¬ k0 = k := fun e => h1.1 e.symm
    simp [mapGet, h2, ih h1.2]

theorem mapGet_copyFuncs (src : List (String × FuncVal)) :
    ∀ dst, (keys src).Nodup → ∀ k,
      mapGet (copyFuncs dst src) k = match mapGet src k with
        | some v => some v
        | none => mapGet dst k := by
  induction src with
  | nil => intro dst _ k; simp [copyFuncs, mapGet]
  | cons x rest ih =>
    obtain ⟨k0, v0⟩ := x
    intro dst hnd k
    have hnd' : k0 ∉ keys rest ∧ (keys rest).Nodup := by simpa [keys] using hnd
    simp only [copyFuncs]
    rw [ih _ hnd'.2 k]
    by_cases h0 : k0 = k
    · subst h0
      simp [mapGet, mapGet_none_of_not_mem rest k0 hnd'.1, mapGet_mapSet]
    · simp [mapGet, h0, mapGet_mapSet]

theorem mem_keys_mapSet {β : Type} (m : List (String × β)) (k : String) (v : β) (x : String)
    (hx : x ∈ keys (mapSet m k v)) : x ∈ keys m ∨ x = k := by
  obtain ⟨e, he, hfst⟩ := List.mem_map.mp hx
  rcases mem_mapSet m k v e he with h1 | h1
  · exact Or.inl (List.mem_map.mpr ⟨e, h1, hfst⟩)
  · subst h1; exact Or.inr hfst.symm

theorem keys_mapSet_nodup {β : Type} (m : List (String × β)) (k : String) (v : β)
    (hnd : (keys m).Nodup) : (keys (mapSet m k v)).Nodup := by
  induction m with
  | nil => simp [mapSet, keys]
  | cons x rest ih =>
    obtain ⟨k0, v0⟩ := x
    have hnd' : k0 ∉ keys rest ∧ (keys rest).Nodup := by simpa [keys] using hnd
    by_cases h0 : k0 = k
    · subst h0
      simpa [mapSet, keys] using hnd
    · simp only [mapSet, h0, if_false]
      have h1 : k0 ∉ keys (mapSet rest k v) := by
        intro hmem
        rcases mem_keys_mapSet rest k v k0 hmem with h2 | h2
        · exact hnd'.1 h2
        · exact h0 h2
      have h2 := ih hnd'.2
      simp only [keys, List.map_cons, List.nodup_cons]
      exact ⟨h1, h2⟩

theorem mapGet_of_mem {β : Type} (m : List (String × β)) (k : String) (v : β)
    (hnd : (keys m).Nodup) (hm : (k, v) ∈ m) : mapGet m k = some v := by
  induction m with
  | nil => cases hm
  | cons x rest ih =>
    obtain ⟨k0, v0⟩ := x
    have hnd' : k0 ∉ keys rest ∧ (keys rest).Nodup := by simpa [keys] using hnd
    rcases List.mem_cons.mp hm with heq | hmem
    · obtain ⟨rfl, rfl⟩ := Prod.mk.inj heq
      simp [mapGet]
    · have hk : ¬ k0 = k := fun e => hnd'.1 (e ▸ mem_keys_of_mem hmem)
      simp [mapGet, hk, ih hnd'.2 hmem]

theorem copy_eq (h : Heap) (v : TmplPtr) (pv : Template) (c : Option CommonPtr)
    (hv : h.templates[v]? = some pv) :
    Template.copy h v c = .ok (allocTmpl h { pv with common := c }) := by
  simp [Template.copy, deref, hv]

theorem cloneTmpls_spec (tn : String) (nt : TmplPtr) (ntc : CommonPtr)
    (l : List (String × TmplPtr)) :
    ∀ (g : Heap) (ntv : Template) (cvg : common), g.templates[nt]? = some ntv →
      ntv.common = some ntc → g.commons[ntc]? = some cvg →
      (∀ e ∈ l, e.2 < g.templates.length) →
      ∃ g2 cvg2, cloneTmpls g tn nt l = .ok g2 ∧ Cloned g g2 tn ntc l cvg cvg2 := by
  induction l with
  | nil =>
    intro g ntv cvg _ _ hcv _
    exact ⟨g, cvg, rfl, ⟨Nat.le_refl _, fun _ _ => rfl, rfl, fun _ _ => rfl, hcv, rfl, rfl,
      fun e he => Or.inl he, id, fun _ _ => rfl, fun _ k v hk _ => by simp [mapGet] at hk⟩⟩
  | cons x rest ih =>
    obtain ⟨k0, v0⟩ := x
    intro g ntv cvg hnt hntc hcv hlive
    have hlive' : ∀ e ∈ rest, e.2 < g.templates.length := fun e he => hlive e (List.mem_cons_of_mem _ he)
    by_cases h0 : k0 = tn
    · obtain ⟨g2, cvg2, hrun, hcl⟩ := ih g ntv cvg hnt hntc hcv hlive'
      refine ⟨g2, cvg2, by simp [cloneTmpls, h0, hrun], ⟨hcl.len, hcl.old, hcl.clen, hcl.cold, hcl.cnew,
        hcl.pfn, hcl.efn, hcl.mem, hcl.nd, ?_, ?_⟩⟩
      · intro k hk
        apply hcl.same k
        rcases hk with hk | hk
        · exact Or.inl hk
        · by_cases hk0 : k0 = k
          · exact Or.inl (hk0 ▸ h0)
          · simp only [mapGet, hk0, if_false] at hk; exact Or.inr hk
      · intro hnd k v hk hktn
        have hnd' : k0 ∉ keys rest ∧ (keys rest).Nodup := by simpa [keys] using hnd
        have hk0 : ¬ k0 = k := fun e => hktn (e ▸ h0)
        simp only [mapGet, hk0, if_false] at hk
        exact hcl.copied hnd'.2 k v hk hktn
    · have hv0lt : v0 < g.templates.length := hlive (k0, v0) (List.mem_cons_self _ _)
      obtain ⟨pv0, hpv0⟩ : ∃ pv0, g.templates[v0]? = some pv0 :=
        ⟨g.templates[v0], List.getElem?_eq_getElem hv0lt⟩
      have hntlt : nt < g.templates.length := lt_of_get _ _ _ hnt
      have hgc : getCommon g nt = .ok (ntc, cvg) := by simp [getCommon, hnt, hntc, hcv]
      -- the heap after this iteration
      have hg1 : ∃ g1, g1 = updCommon (allocTmpl g { pv0 with common := some ntc }).2 ntc
          (fun x => { x with tmpl := mapSet x.tmpl k0 g.templates.length }) := ⟨_, rfl⟩
      obtain ⟨g1, hg1⟩ := hg1
      have hstep : cloneTmpls g tn nt ((k0, v0) :: rest) = cloneTmpls g1 tn nt rest := by
        simp [cloneTmpls, h0, hgc, copy_eq g v0 pv0 (some ntc) hpv0, hg1]
      have hlen1 : g1.templates.length = g.templates.length + 1 := by
        rw [hg1]; simp
      have hold1 : ∀ p : TmplPtr, p < g.templates.length → g1.templates[p]? = g.templates[p]? := by
        intro p hp
        rw [hg1]; simp only [updCommon_templates]
        rw [allocTmpl_get]; simp [Nat.ne_of_lt hp]
      have hnew1 : g1.templates[g.templates.length]? = some { pv0 with common := some ntc } := by
        rw [hg1]; simp only [updCommon_templates]
        rw [allocTmpl_get]; simp
      have hclen1 : g1.commons.length = g.commons.length := by
        rw [hg1]; simp
      have hcold1 : ∀ d : CommonPtr, d ≠ ntc → g1.commons[d]? = g.commons[d]? := by
        intro d hd
        rw [hg1, updCommon_get]; simp [hd]
      have hcnew1 : g1.commons[ntc]? =
          some { cvg with tmpl := mapSet cvg.tmpl k0 g.templates.length } := by
        rw [hg1, updCommon_get]; simp [hcv]
      have hlive1 : ∀ e ∈ rest, e.2 < g1.templates.length := by
        intro e he
        rw [hlen1]; exact Nat.lt_succ_of_lt (hlive' e he)
      obtain ⟨g2, cvg2, hrun, hcl⟩ := ih g1 ntv _ (by rw [hold1 nt hntlt]; exact hnt) hntc hcnew1 hlive1
      have hle : g.templates.length ≤ g1.templates.length := by rw [hlen1]; exact Nat.le_succ _
      have hq2 : g2.templates[g.templates.length]? = some { pv0 with common := some ntc } := by
        rw [hcl.old _ (by rw [hlen1]; exact Nat.lt_succ_self _)]; exact hnew1
      refine ⟨g2, cvg2, by rw [hstep]; exact hrun, ⟨Nat.le_trans hle hcl.len, ?_, ?_, ?_, hcl.cnew,
        hcl.pfn, hcl.efn, ?_, ?_, ?_, ?_⟩⟩
      · intro p hp
        rw [hcl.old p (Nat.lt_of_lt_of_le hp hle), hold1 p hp]
      · rw [hcl.clen, hclen1]
      · intro d hd
        rw [hcl.cold d hd, hcold1 d hd]
      · intro e he
        rcases hcl.mem e he with h1 | ⟨h1, h2⟩
        · rcases mem_mapSet _ _ _ _ h1 with h3 | h3
          · exact Or.inl h3
          · right
            subst h3
            exact ⟨Nat.le_refl _, _, hq2, rfl⟩
        · exact Or.inr ⟨Nat.le_trans hle h1, h2⟩
      · intro hndc
        exact hcl.nd (keys_mapSet_nodup cvg.tmpl k0 g.templates.length hndc)
      · intro k hk
        have hk0 : ¬ k0 = k := by
          rcases hk with hk | hk
          · exact fun e => h0 (e.trans hk)
          · intro e
            simp [mapGet, e] at hk
        have hk' : k = tn ∨ mapGet rest k = none := by
          rcases hk with hk | hk
          · exact Or.inl hk
          · simp only [mapGet, hk0, if_false] at hk; exact Or.inr hk
        rw [hcl.same k hk']
        simp [mapGet_mapSet, hk0]
      · intro hnd k v hk hktn
        have hnd' : k0 ∉ keys rest ∧ (keys rest).Nodup := by simpa [keys] using hnd
        by_cases hk0 : k0 = k
        · subst hk0
          simp only [mapGet, if_true, Option.some.injEq] at hk
          subst hk
          refine ⟨pv0, hpv0, g.templates.length, ?_, Nat.le_refl _, hq2⟩
          rw [hcl.same k0 (Or.inr (mapGet_none_of_not_mem rest k0 hnd'.1))]
          simp [mapGet_mapSet]
        · simp only [mapGet, hk0, if_false] at hk
          obtain ⟨pv, hpv, p', hp1, hp2, hp3⟩ := hcl.copied hnd'.2 k v hk hktn
          have hvlt : v < g.templates.length := hlive' (k, v) (mapGet_mem _ _ _ hk)
          exact ⟨pv, by rw [← hold1 v hvlt]; exact hpv, p', hp1, Nat.le_trans hle hp2, hp3⟩

theorem cloneStart_old (h : Heap) (tv : Template) (p : TmplPtr) (hp : p < h.templates.length) :
    (cloneStart h tv).templates[p]? = h.templates[p]? := by
  simp only [cloneStart, updCommon_templates]
  rw [updTmpl_get]
  simp only [Nat.ne_of_lt hp, if_false]
  exact allocTmpl_get h _ p ▸ by simp [Nat.ne_of_lt hp]

theorem cloneStart_root (h : Heap) (tv : Template) :
    (cloneStart h tv).templates[h.templates.length]? = some { tv with common := some h.commons.length } := by
  simp only [cloneStart, updCommon_templates]
  rw [updTmpl_get]
  simp only [if_true]
  have := allocTmpl_get h { tv with common := none } h.templates.length
  simp only [if_true] at this
  simp [this]

theorem cloneStart_length (h : Heap) (tv : Template) :
    (cloneStart h tv).templates.length = h.templates.length + 1 := by
  simp [cloneStart]

theorem cloneStart_cold (h : Heap) (tv : Template) (d : CommonPtr) (hd : d < h.commons.length) :
    (cloneStart h tv).commons[d]? = h.commons[d]? := by
  simp only [cloneStart]
  rw [updCommon_get]
  simp [Nat.ne_of_lt hd, List.getElem?_append_left hd]

theorem cloneStart_cnew (h : Heap) (tv : Template) :
    (cloneStart h tv).commons[h.commons.length]? =
      some ⟨[(tv.name, h.templates.length)], [], []⟩ := by
  simp only [cloneStart]
  rw [updCommon_get]
  simp [mapSet]

theorem cloneStart_eq (h : Heap) (t : TmplPtr) (tv : Template) (c : CommonPtr) (cv : common)
    (ht : h.templates[t]? = some tv) (htc : tv.common = some c) (hc : h.commons[c]? = some cv) :
    Template.Clone h t =
      match cloneTmpls (cloneStart h tv) tv.name h.templates.length cv.tmpl with
      | .error f => .error f
      | .ok h4 =>
        .ok ((h.templates.length, none),
          updCommon
            (updCommon h4 h.commons.length
              (fun x => { x with parseFuncs := copyFuncs x.parseFuncs cv.parseFuncs }))
            h.commons.length (fun x => { x with execFuncs := copyFuncs x.execFuncs cv.execFuncs })) := by
  have htlt : t < h.templates.length := lt_of_get _ _ _ ht
  have hclt : c < h.commons.length := lt_of_get _ _ _ hc
  have e1 := copy_eq h t tv none ht
  have hn1 : (allocTmpl h { tv with common := none }).2.templates[h.templates.length]?
      = some { tv with common := none } := by
    rw [allocTmpl_get]; simp
  have e2 : Template.init (allocTmpl h { tv with common := none }).2 h.templates.length =
      .ok (updTmpl
        { (allocTmpl h { tv with common := none }).2 with
          commons := h.commons ++ [{ tmpl := [], parseFuncs := [], execFuncs := [] }] }
        h.templates.length (fun x => { x with common := some h.commons.length })) := by
    simp [Template.init, deref, hn1]
  have hn2 : (updTmpl
        { (allocTmpl h { tv with common := none }).2 with
          commons := h.commons ++ [{ tmpl := [], parseFuncs := [], execFuncs := [] }] }
        h.templates.length (fun x => { x with common := some h.commons.length })).templates[h.templates.length]?
      = some { tv with common := some h.commons.length } := by
    rw [updTmpl_get]; simp [hn1]
  have ht2 : (updTmpl
        { (allocTmpl h { tv with common := none }).2 with
          commons := h.commons ++ [{ tmpl := [], parseFuncs := [], execFuncs := [] }] }
        h.templates.length (fun x => { x with common := some h.commons.length })).templates[t]?
      = some tv := by
    rw [updTmpl_get]
    simp only [Nat.ne_of_lt htlt, if_false]
    have := allocTmpl_get h { tv with common := none } t
    simp only [Nat.ne_of_lt htlt, if_false] at this
    rw [← ht]; exact this
  have e3 : getCommon (updTmpl
        { (allocTmpl h { tv with common := none }).2 with
          commons := h.commons ++ [{ tmpl := [], parseFuncs := [], execFuncs := [] }] }
        h.templates.length (fun x => { x with common := some h.commons.length })) h.templates.length
      = .ok (h.commons.length, ⟨[], [], []⟩) := by
    simp [getCommon, hn2]
  have e5 : getCommon (cloneStart h tv) t = .ok (c, cv) := by
    simp [getCommon, cloneStart_old h tv t htlt, ht, htc, cloneStart_cold h tv c hclt, hc]
  simp only [Template.Clone, e1, e2, e3, deref, ht2, allocTmpl_fst]
  have hcs : updCommon (updTmpl
        { (allocTmpl h { tv with common := none }).2 with
          commons := h.commons ++ [{ tmpl := [], parseFuncs := [], execFuncs := [] }] }
        h.templates.length (fun x => { x with common := some h.commons.length }))
      h.commons.length (fun x => { x with tmpl := mapSet x.tmpl tv.name h.templates.length })
      = cloneStart h tv := rfl
  rw [hcs, e5]

/-- What `Clone` does on a handle `t` with fields `tv`, whose namespace `c` has the
record `cv` and registers live handles only. -/
theorem Clone_spec (h : Heap) (t : TmplPtr) (tv : Template) (c : CommonPtr) (cv : common)
    (ht : h.templates[t]? = some tv) (htc : tv.common = some c) (hc : h.commons[c]? = some cv)
    (hlive : ∀ e ∈ cv.tmpl, e.2 < h.templates.length) :
    ∃ h' cv', Template.Clone h t = .ok ((h.templates.length, none), h') ∧
      (∀ p : TmplPtr, p < h.templates.length → h'.templates[p]? = h.templates[p]?) ∧
      (∀ d : CommonPtr, d < h.commons.length → h'.commons[d]? = h.commons[d]?) ∧
      h'.templates[h.templates.length]? = some { tv with common := some h.commons.length } ∧
      h'.commons[h.commons.length]? = some cv' ∧
      cv'.parseFuncs = copyFuncs [] cv.parseFuncs ∧ cv'.execFuncs = copyFuncs [] cv.execFuncs ∧
      (∀ e ∈ cv'.tmpl, h.templates.length ≤ e.2 ∧
        ∃ pv, h'.templates[e.2]? = some pv ∧ pv.common = some h.commons.length) ∧
      (keys cv'.tmpl).Nodup ∧
      mapGet cv'.tmpl tv.name = some h.templates.length ∧
      (∀ k, k ≠ tv.name → mapGet cv.tmpl k = none → mapGet cv'.tmpl k = none) ∧
      ((keys cv.tmpl).Nodup → ∀ k v, mapGet cv.tmpl k = some v → k ≠ tv.name →
        ∃ pv, h.templates[v]? = some pv ∧ ∃ p', mapGet cv'.tmpl k = some p' ∧
          h.templates.length ≤ p' ∧
          h'.templates[p']? = some { pv with common := some h.commons.length }) := by
  have hlive' : ∀ e ∈ cv.tmpl, e.2 < (cloneStart h tv).templates.length := by
    intro e he
    rw [cloneStart_length]; exact Nat.lt_succ_of_lt (hlive e he)
  obtain ⟨h4, cv4, hrun, hcl⟩ := cloneTmpls_spec tv.name h.templates.length h.commons.length cv.tmpl
    (cloneStart h tv) _ _ (cloneStart_root h tv) rfl (cloneStart_cnew h tv) hlive'
  have hle : h.templates.length ≤ (cloneStart h tv).templates.length := by
    rw [cloneStart_length]; exact Nat.le_succ _
  have hcv6 : (updCommon
      (updCommon h4 h.commons.length
        (fun x => { x with parseFuncs := copyFuncs x.parseFuncs cv.parseFuncs }))
      h.commons.length (fun x => { x with execFuncs := copyFuncs x.execFuncs cv.execFuncs })).commons[h.commons.length]?
      = some ⟨cv4.tmpl, copyFuncs [] cv.parseFuncs, copyFuncs [] cv.execFuncs⟩ := by
    rw [updCommon_get]
    simp only [if_true]
    rw [updCommon_get]
    simp [hcl.cnew, hcl.pfn, hcl.efn]
  refine ⟨_, _, by rw [cloneStart_eq h t tv c cv ht htc hc, hrun], ?_, ?_, ?_, hcv6, rfl, rfl, ?_,
    hcl.nd (by simp [keys]), ?_, ?_, ?_⟩
  · intro p hp
    simp only [updCommon_templates]
    rw [hcl.old p (Nat.lt_of_lt_of_le hp hle), cloneStart_old h tv p hp]
  · intro d hd
    have hne : d ≠ h.commons.length := Nat.ne_of_lt hd
    rw [updCommon_get]; simp only [hne, if_false]
    rw [updCommon_get]; simp only [hne, if_false]
    rw [hcl.cold d hne, cloneStart_cold h tv d hd]
  · simp only [updCommon_templates]
    rw [hcl.old _ (by rw [cloneStart_length]; exact Nat.lt_succ_self _), cloneStart_root]
  · intro e he
    simp only [updCommon_templates]
    rcases hcl.mem e he with h1 | ⟨h1, h2⟩
    · simp only [List.mem_singleton] at h1
      subst h1
      refine ⟨Nat.le_refl _, { tv with common := some h.commons.length }, ?_, rfl⟩
      rw [hcl.old _ (by rw [cloneStart_length]; exact Nat.lt_succ_self _), cloneStart_root]
    · exact ⟨Nat.le_trans hle h1, h2⟩
  · simp only []
    rw [hcl.same tv.name (Or.inl rfl)]
    simp [mapGet]
  · intro k hk hnone
    have hk' : ¬ tv.name = k := fun e => hk e.symm
    simp only []
    rw [hcl.same k (Or.inr hnone)]
    simp [mapGet, hk']
  · intro hnd k v hk hktn
    obtain ⟨pv, hpv, p', hp1, hp2, hp3⟩ := hcl.copied hnd k v hk hktn
    have hvlt : v < h.templates.length := hlive (k, v) (mapGet_mem _ _ _ hk)
    refine ⟨pv, by rw [← cloneStart_old h tv v hvlt]; exact hpv, p', hp1, Nat.le_trans hle hp2, ?_⟩
    simp only [updCommon_templates]
    exact hp3

theorem mem_templateNames (h : Heap) (t : TmplPtr) (c : CommonPtr) (cv : common) (n : String)
    (hg : getCommon h t = .ok (c, cv)) :
    n ∈ templateNames h t ↔ ∃ k p pv, (k, p) ∈ cv.tmpl ∧ h.templates[p]? = some pv ∧ pv.name = n := by
  obtain ⟨tv, ht, htc, hc⟩ := getCommon_parts h t c cv hg
  simp only [templateNames, Template.Templates, deref, ht, htc, hc, List.mem_filterMap, List.mem_map]
  constructor
  · rintro ⟨p, ⟨⟨k, p'⟩, hmem, rfl⟩, hn⟩
    cases hp : h.templates[p']? with
    | none => simp [hp] at hn
    | some pv =>
      simp only [hp, Option.some.injEq] at hn
      exact ⟨k, p', pv, hmem, hp, hn⟩
  · rintro ⟨k, p, pv, hmem, hp, hn⟩
    exact ⟨p, ⟨(k, p), hmem, rfl⟩, by simp [hp, hn]⟩

theorem lookupView_of_getCommon (h : Heap) (t : TmplPtr) (c : CommonPtr) (cv : common) (k : String)
    (hg : getCommon h t = .ok (c, cv)) :
    lookupView h t k =
      match mapGet cv.tmpl k with
      | none => .ok none
      | some p =>
        match h.templates[p]? with
        | some pv => .ok (some (p, pv))
        | none => .error .nilDeref := by
  simp only [lookupView, Lookup_of_getCommon h t c cv k hg]
  cases mapGet cv.tmpl k with
  | none => rfl
  | some p =>
    simp only [deref]
    cases h.templates[p]? <;> rfl

/-- Claim C6. For a handle `a` registered under its own name in an initialized namespace
whose maps have distinct keys and whose registered handles are live, `Clone` returns a
new handle and no error; the handles of the clone carry the same names; every registered
name is registered in the clone with a different handle that has the clone namespace and
the same name, tree and delimiters; unregistered names stay unregistered; and both
function tables have the same entries. -/
theorem clone_mirrors (h : Heap) (a : TmplPtr) (av : Template) (c : CommonPtr) (cv : common)
    (ha : deref h a = .ok av) (hg : getCommon h a = .ok (c, cv))
    (hself : Template.Lookup h a av.name = .ok (some a))
    (hlive : ∀ e ∈ cv.tmpl, e.2 < h.templates.length)
    (hnd : (keys cv.tmpl).Nodup) (hndp : (keys cv.parseFuncs).Nodup)
    (hnde : (keys cv.execFuncs).Nodup) :
    ∃ a' h' c' cv', Template.Clone h a = .ok ((a', none), h') ∧
      getCommon h' a' = .ok (c', cv') ∧ c' ≠ c ∧
      (∀ n, n ∈ templateNames h' a' ↔ n ∈ templateNames h a) ∧
      (∀ k, lookupView h a k = .ok none → lookupView h' a' k = .ok none) ∧
      (∀ k p pv, lookupView h a k = .ok (some (p, pv)) →
        ∃ p', p' ≠ p ∧ lookupView h' a' k = .ok (some (p', { pv with common := some c' }))) ∧
      (∀ k, mapGet cv'.parseFuncs k = mapGet cv.parseFuncs k) ∧
      (∀ k, mapGet cv'.execFuncs k = mapGet cv.execFuncs k) := by
  obtain ⟨tv, ht, htc, hc⟩ := getCommon_parts h a c cv hg
  have hav : tv = av := by
    have := get_of_deref h a av ha
    rw [ht] at this; exact Option.some.inj this
  subst hav
  have halt : a < h.templates.length := lt_of_get _ _ _ ht
  have hclt : c < h.commons.length := lt_of_get _ _ _ hc
  have hselfg : mapGet cv.tmpl tv.name = some a := by
    rw [Lookup_of_getCommon h a c cv tv.name hg] at hself
    exact Except.ok.inj hself
  obtain ⟨h', cv', hrun, hold, _, hroot, hcnew, hpf, hef, _, hnd', hrootreg, hnone, hcopied⟩ :=
    Clone_spec h a tv c cv ht htc hc hlive
  have hg' : getCommon h' h.templates.length = .ok (h.commons.length, cv') := by
    simp [getCommon, hroot, hcnew]
  -- the registration of every name in the clone
  have hreg : ∀ k p pv, mapGet cv.tmpl k = some p → h.templates[p]? = some pv →
      ∃ p', p' ≠ p ∧ mapGet cv'.tmpl k = some p' ∧
        h'.templates[p']? = some { pv with common := some h.commons.length } := by
    intro k p pv hk hp
    by_cases hktn : k = tv.name
    · subst hktn
      rw [hselfg] at hk
      have hpa : a = p := Option.some.inj hk
      subst hpa
      rw [ht] at hp
      have := Option.some.inj hp
      subst this
      exact ⟨h.templates.length, (Nat.ne_of_lt halt).symm, hrootreg, hroot⟩
    · obtain ⟨pv0, hpv0, p', hp1, hp2, hp3⟩ := hcopied hnd k p hk hktn
      rw [hp] at hpv0
      have := Option.some.inj hpv0
      subst this
      have hplt : p < h.templates.length := lt_of_get _ _ _ hp
      exact ⟨p', (Nat.ne_of_lt (Nat.lt_of_lt_of_le hplt hp2)).symm, hp1, hp3⟩
  refine ⟨h.templates.length, h', h.commons.length, cv', hrun, hg', (Nat.ne_of_lt hclt).symm,
    ?_, ?_, ?_, ?_, ?_⟩
  · intro n
    rw [mem_templateNames h' _ _ cv' n hg', mem_templateNames h a c cv n hg]
    constructor
    · rintro ⟨k, p', pv', hmem, hp', hn⟩
      have hk' := mapGet_of_mem cv'.tmpl k p' hnd' hmem
      cases hk : mapGet cv.tmpl k with
      | none =>
        by_cases hktn : k = tv.name
        · rw [hktn, hselfg] at hk; cases hk
        · rw [hnone k hktn hk] at hk'; cases hk'
      | some p =>
        have hplt : p < h.templates.length := hlive (k, p) (mapGet_mem _ _ _ hk)
        obtain ⟨pv, hpv⟩ : ∃ pv, h.templates[p]? = some pv :=
          ⟨h.templates[p], List.getElem?_eq_getElem hplt⟩
        obtain ⟨p'', _, hp1, hp3⟩ := hreg k p pv hk hpv
        rw [hk'] at hp1
        have := Option.some.inj hp1
        subst this
        rw [hp'] at hp3
        have := Option.some.inj hp3
        subst this
        exact ⟨k, p, pv, mapGet_mem _ _ _ hk, hpv, hn⟩
    · rintro ⟨k, p, pv, hmem, hp, hn⟩
      have hk := mapGet_of_mem cv.tmpl k p hnd hmem
      obtain ⟨p', _, hp1, hp3⟩ := hreg k p pv hk hp
      exact ⟨k, p', _, mapGet_mem _ _ _ hp1, hp3, hn⟩
  · intro k hk
    rw [lookupView_of_getCommon h a c cv k hg] at hk
    rw [lookupView_of_getCommon h' _ _ cv' k hg']
    cases hm : mapGet cv.tmpl k with
    | none =>
      have hktn : k ≠ tv.name := by
        intro e; rw [e, hselfg] at hm; cases hm
      rw [hnone k hktn hm]
    | some p =>
      rw [hm] at hk
      have hplt : p < h.templates.length := hlive (k, p) (mapGet_mem _ _ _ hm)
      simp only [List.getElem?_eq_getElem hplt] at hk
      cases hk
  · intro k p pv hk
    rw [lookupView_of_getCommon h a c cv k hg] at hk
    cases hm : mapGet cv.tmpl k with
    | none => rw [hm] at hk; cases hk
    | some p0 =>
      rw [hm] at hk
      have hplt : p0 < h.templates.length := hlive (k, p0) (mapGet_mem _ _ _ hm)
      simp only [List.getElem?_eq_getElem hplt, Except.ok.injEq, Option.some.injEq,
        Prod.mk.injEq] at hk
      obtain ⟨rfl, rfl⟩ := hk
      obtain ⟨p', hne, hp1, hp3⟩ := hreg k p0 _ hm (List.getElem?_eq_getElem hplt)
      refine ⟨p', hne, ?_⟩
      rw [lookupView_of_getCommon h' _ _ cv' k hg', hp1]
      simp only [hp3]
  · intro k
    rw [hpf, mapGet_copyFuncs cv.parseFuncs [] hndp k]
    cases mapGet cv.parseFuncs k <;> rfl
  · intro k
    rw [hef, mapGet_copyFuncs cv.execFuncs [] hnde k]
    cases mapGet cv.execFuncs k <;> rfl

theorem clone_mirrors_witness :
    ∃ a' h' c' cv', Template.Clone exHeap 0 = .ok ((a', none), h') ∧
      getCommon h' a' = .ok (c', cv') ∧ c' ≠ 0 ∧
      (∀ n, n ∈ templateNames h' a' ↔ n ∈ templateNames exHeap 0) ∧
      (∀ k, lookupView exHeap 0 k = .ok none → lookupView h' a' k = .ok none) ∧
      (∀ k p pv, lookupView exHeap 0 k = .ok (some (p, pv)) →
        ∃ p', p' ≠ p ∧ lookupView h' a' k = .ok (some (p', { pv with common := some c' }))) ∧
      (∀ k, mapGet cv'.parseFuncs k = mapGet ([] : FuncMap) k) ∧
      (∀ k, mapGet cv'.execFuncs k = mapGet ([] : List (String × FuncVal)) k) :=
  clone_mirrors exHeap 0 ⟨"page", some 1, some 0, "", ""⟩ 0 ⟨[("page", 0), ("header", 1)], [], []⟩
    rfl rfl rfl (by simp [exHeap]) (by simp [keys]) (by simp [keys]) (by simp [keys])

/-! ## Independence of a namespace from calls made in another -/

theorem untouched_refl (b : CommonPtr) (h : Heap) : Untouched b h h :=
  ⟨rfl, fun _ _ hp _ => hp⟩

theorem untouched_trans (b : CommonPtr) (h h1 h2 : Heap) (h01 : Untouched b h h1)
    (h12 : Untouched b h1 h2) : Untouched b h h2 :=
  ⟨h12.1.trans h01.1, fun p pv hp hb => h12.2 p pv (h01.2 p pv hp hb) hb⟩

theorem untouched_alloc (b : CommonPtr) (h : Heap) (v : Template) :
    Untouched b h (allocTmpl h v).2 := by
  refine ⟨rfl, ?_⟩
  intro p pv hp _
  rw [allocTmpl_get]
  simp [Nat.ne_of_lt (lt_of_get _ _ _ hp), hp]

theorem untouched_updCommon (b a : CommonPtr) (h : Heap) (f : common → common) (hab : b ≠ a) :
    Untouched b h (updCommon h a f) := by
  refine ⟨?_, ?_⟩
  · rw [updCommon_get]; simp [hab]
  · intro p pv hp _
    simpa using hp

theorem untouched_updTmpl (b : CommonPtr) (h : Heap) (q : TmplPtr) (f : Template → Template)
    (hq : ∀ qv, h.templates[q]? = some qv → qv.common ≠ some b) :
    Untouched b h (updTmpl h q f) := by
  refine ⟨by simp, ?_⟩
  intro p pv hp hb
  rw [updTmpl_get]
  by_cases hpq : p = q
  · subst hpq
    exact absurd hb (hq pv hp)
  · simp [hpq, hp]

theorem Funcs_untouched (E : Env) (b a : CommonPtr) (h h' : Heap) (x : TmplPtr) (xv : Template)
    (fm : FuncMap) (r : TmplPtr) (hx : h.templates[x]? = some xv) (hxa : xv.common = some a)
    (hab : b ≠ a) (hrun : Template.Funcs E h x fm = .ok (r, h')) : Untouched b h h' := by
  simp only [Template.Funcs, init_of_some h x xv a hx hxa, getCommon, hx, hxa] at hrun
  cases hc : h.commons[a]? with
  | none => simp [hc] at hrun
  | some cv =>
    simp only [hc] at hrun
    cases hv : addValueFuncs E cv.execFuncs fm with
    | error f => simp [hv] at hrun
    | ok ef1 =>
      simp only [hv, Except.ok.injEq, Prod.mk.injEq] at hrun
      obtain ⟨_, rfl⟩ := hrun
      exact untouched_trans b _ _ _ (untouched_updCommon b a h _ hab) (untouched_updCommon b a _ _ hab)

theorem AddParseTree_untouched (b a : CommonPtr) (h h' : Heap) (x : TmplPtr) (xv : Template)
    (name : String) (tree : Option TreePtr) (r : Option TmplPtr × Option Error)
    (hx : h.templates[x]? = some xv) (hxa : xv.common = some a)
    (hab : b ≠ a) (hrun : Template.AddParseTree h x name tree = .ok (r, h')) :
    Untouched b h h' := by
  have hxlt : x < h.templates.length := lt_of_get _ _ _ hx
  simp only [Template.AddParseTree, deref, hx, hxa] at hrun
  cases hc : h.commons[a]? with
  | none => simp [hc] at hrun
  | some cv =>
    simp only [hc] at hrun
    cases htaken : (mapGet cv.tmpl name).isSome with
    | true =>
      simp only [htaken, Except.ok.injEq, Prod.mk.injEq] at hrun
      obtain ⟨_, rfl⟩ := hrun
      exact untouched_refl b h
    | false =>
      simp only [htaken, New_of_some h x xv a name hx hxa] at hrun
      have hx2 : (updTmpl (allocTmpl h ⟨name, none, some a, xv.leftDelim, xv.rightDelim⟩).2
          (allocTmpl h ⟨name, none, some a, xv.leftDelim, xv.rightDelim⟩).1
          (fun x => { x with Tree := tree })).templates[x]? = some xv := by
        rw [updTmpl_get, allocTmpl_fst]
        simp only [Nat.ne_of_lt hxlt, if_false]
        rw [allocTmpl_get]; simp [Nat.ne_of_lt hxlt, hx]
      simp only [getCommon, hx2, hxa, updTmpl_commons, allocTmpl_commons, hc, Except.ok.injEq,
        Prod.mk.injEq] at hrun
      obtain ⟨_, rfl⟩ := hrun
      have u1 := untouched_alloc b h ⟨name, none, some a, xv.leftDelim, xv.rightDelim⟩
      have u2 : Untouched b (allocTmpl h ⟨name, none, some a, xv.leftDelim, xv.rightDelim⟩).2
          (updTmpl (allocTmpl h ⟨name, none, some a, xv.leftDelim, xv.rightDelim⟩).2
            (allocTmpl h ⟨name, none, some a, xv.leftDelim, xv.rightDelim⟩).1
            (fun x => { x with Tree := tree })) := by
        apply untouched_updTmpl
        intro qv hqv
        rw [allocTmpl_fst, allocTmpl_get] at hqv
        simp only [if_true, Option.some.injEq] at hqv
        subst hqv
        simp only [ne_eq, Option.some.injEq]
        exact fun e => hab e.symm
      exact untouched_trans b _ _ _ (untouched_trans b _ _ _ u1 u2) (untouched_updCommon b a _ _ hab)

theorem parseStep_dangling (E : Env) (h : Heap) (t : TmplPtr) (c : CommonPtr) (tn L R m : String)
    (tr : TreePtr) (tt : Option TreePtr) (cv : common) (old : TmplPtr)
    (ht : h.templates[t]? = some ⟨tn, tt, some c, L, R⟩) (hc : h.commons[c]? = some cv)
    (hold : mapGet cv.tmpl m = some old) (ho : h.templates[old]? = none) :
    parseStep E h t m tr = .error .nilDeref := by
  have htlt : t < h.templates.length := lt_of_get _ _ _ ht
  by_cases hm : m = tn
  · subst hm
    simp [parseStep, deref, ht, Template.associate, getCommon, hc, hold, ho]
  · have hn := New_of_some h t _ c m ht rfl
    simp only [] at hn
    have ht1 : (allocTmpl h ⟨m, none, some c, L, R⟩).2.templates[t]? = some ⟨tn, tt, some c, L, R⟩ := by
      rw [allocTmpl_get]; simp [Nat.ne_of_lt htlt, ht]
    have hn1 : (allocTmpl h ⟨m, none, some c, L, R⟩).2.templates[h.templates.length]? = some ⟨m, none, some c, L, R⟩ := by
      rw [allocTmpl_get]; simp
    by_cases hol : old = h.templates.length
    · -- the registered pointer is the address just allocated: it holds no tree
      have ho1 : (allocTmpl h ⟨m, none, some c, L, R⟩).2.templates[old]? = some ⟨m, none, some c, L, R⟩ := by
        rw [hol]; exact hn1
      have ha := associate_treeless E _ t h.templates.length (some tr) _ _ _ c cv old ht1 hn1 rfl rfl
        (by simpa using hc) hold ho1 rfl
      simp [parseStep, deref, ht, hm, hn, ha]
    · have ho1 : (allocTmpl h ⟨m, none, some c, L, R⟩).2.templates[old]? = none := by
        rw [allocTmpl_get]; simp [hol, ho]
      simp [parseStep, deref, ht, hm, hn, Template.associate, getCommon, ht1, hn1, hc, hold, ho1]

theorem shape_untouched (b a : CommonPtr) (g g' : Heap) (x : TmplPtr) (tn L R m : String)
    (tt : Option TreePtr) (hab : b ≠ a)
    (ht : g.templates[x]? = some ⟨tn, tt, some a, L, R⟩)
    (hcom : g'.commons[b]? = g.commons[b]?)
    (hget : ∀ p : TmplPtr, p < g.templates.length → p ≠ (madeTmpl g x tn m a L R).1 →
      g'.templates[p]? = g.templates[p]?) :
    Untouched b g g' := by
  refine ⟨hcom, ?_⟩
  intro p pv hp hb
  have hplt : p < g.templates.length := lt_of_get _ _ _ hp
  rw [hget p hplt ?_, hp]
  rw [madeTmpl_fst]
  by_cases hm : m = tn
  · simp only [hm, if_true]
    intro e
    subst e
    rw [ht] at hp
    have := Option.some.inj hp
    subst this
    exact hab (Option.some.inj hb).symm
  · simp only [hm, if_false]
    exact Nat.ne_of_lt hplt

theorem parseStep_frame (E : Env) (b a : CommonPtr) (g g' : Heap) (x : TmplPtr) (tn L R m : String)
    (tr : TreePtr) (r : Option Error) (hab : b ≠ a) (hlive : Live g x a tn L R)
    (hrun : parseStep E g x m tr = .ok (r, g')) :
    Untouched b g g' ∧ Live g' x a tn L R := by
  obtain ⟨⟨tt, ht⟩, cv, hc⟩ := hlive
  have hxlt : x < g.templates.length := lt_of_get _ _ _ ht
  have hclt : a < g.commons.length := lt_of_get _ _ _ hc
  obtain ⟨y, hself⟩ := madeTmpl_get_self g x tn m a L R tt ht
  have hmc := madeTmpl_commons g x tn m a L R
  -- the three heaps an iteration can leave
  have hadopt : Untouched b g (adoptHeap (madeTmpl g x tn m a L R).2 a m (madeTmpl g x tn m a L R).1 tr L R) ∧
      Live (adoptHeap (madeTmpl g x tn m a L R).2 a m (madeTmpl g x tn m a L R).1 tr L R) x a tn L R := by
    refine ⟨shape_untouched b a g _ x tn L R m tt hab ht ?_ ?_, ?_, ?_⟩
    · rw [adoptHeap_commons]
      simp only [install]
      rw [updCommon_get]; simp [hab, hmc]
    · intro p hp hne
      rw [adoptHeap_get]; simp only [hne, if_false]
      exact madeTmpl_get_old _ _ _ _ _ _ _ _ hp
    · rw [adoptHeap_get]
      by_cases hx : x = (madeTmpl g x tn m a L R).1
      · have hm : m = tn := by
          by_contra hm
          rw [madeTmpl_fst] at hx
          simp only [hm, if_false] at hx
          exact Nat.ne_of_lt hxlt hx
        subst hm
        rw [← hx] at hself
        rw [← hx]
        simp only [if_true, hself, Option.map_some']
        exact ⟨_, rfl⟩
      · simp only [hx, if_false]
        rw [madeTmpl_get_old _ _ _ _ _ _ _ _ hxlt]
        exact ⟨tt, ht⟩
    · rw [adoptHeap_commons]
      simp only [install]
      rw [updCommon_get]; simp [hmc, hc]
  have hkeep : Untouched b g (keepHeap (madeTmpl g x tn m a L R).2 (madeTmpl g x tn m a L R).1 L R) ∧
      Live (keepHeap (madeTmpl g x tn m a L R).2 (madeTmpl g x tn m a L R).1 L R) x a tn L R := by
    refine ⟨shape_untouched b a g _ x tn L R m tt hab ht ?_ ?_, ?_, ?_⟩
    · rw [keepHeap_commons, hmc]
    · intro p hp hne
      rw [keepHeap_get]; simp only [hne, if_false]
      exact madeTmpl_get_old _ _ _ _ _ _ _ _ hp
    · rw [keepHeap_get]
      by_cases hx : x = (madeTmpl g x tn m a L R).1
      · have hm : m = tn := by
          by_contra hm
          rw [madeTmpl_fst] at hx
          simp only [hm, if_false] at hx
          exact Nat.ne_of_lt hxlt hx
        subst hm
        rw [← hx] at hself
        rw [← hx]
        simp only [if_true, hself, Option.map_some']
        exact ⟨_, rfl⟩
      · simp only [hx, if_false]
        rw [madeTmpl_get_old _ _ _ _ _ _ _ _ hxlt]
        exact ⟨tt, ht⟩
    · rw [keepHeap_commons, hmc]; exact ⟨cv, hc⟩
  have hmade : Untouched b g (madeTmpl g x tn m a L R).2 ∧ Live (madeTmpl g x tn m a L R).2 x a tn L R := by
    refine ⟨shape_untouched b a g _ x tn L R m tt hab ht (by rw [hmc]) ?_, ?_, ?_⟩
    · intro p hp _
      exact madeTmpl_get_old _ _ _ _ _ _ _ _ hp
    · rw [madeTmpl_get_old _ _ _ _ _ _ _ _ hxlt]; exact ⟨tt, ht⟩
    · rw [hmc]; exact ⟨cv, hc⟩
  cases hold : mapGet cv.tmpl m with
  | none =>
    rw [parseStep_fresh E g x a tn L R m tr tt cv ht hc hold] at hrun
    simp only [Except.ok.injEq, Prod.mk.injEq] at hrun
    obtain ⟨_, rfl⟩ := hrun
    exact hadopt
  | some old =>
    cases ho : g.templates[old]? with
    | none =>
      rw [parseStep_dangling E g x a tn L R m tr tt cv old ht hc hold ho] at hrun
      cases hrun
    | some ov =>
      cases hot : ov.Tree with
      | none =>
        rw [parseStep_treeless E g x a tn L R m tr tt cv old ov ht hc hold ho hot] at hrun
        cases hrun
      | some ot =>
        rw [parseStep_existing E g x a tn L R m tr tt cv old ov ot ht hc hold ho hot] at hrun
        by_cases h1 : E.IsEmptyTree tr = true
        · rw [if_pos h1] at hrun
          simp only [Except.ok.injEq, Prod.mk.injEq] at hrun
          obtain ⟨_, rfl⟩ := hrun
          exact hkeep
        · rw [if_neg h1] at hrun
          by_cases h2 : E.IsEmptyTree ot = true
          · rw [if_pos h2] at hrun
            simp only [Except.ok.injEq, Prod.mk.injEq] at hrun
            obtain ⟨_, rfl⟩ := hrun
            exact hadopt
          · rw [if_neg h2] at hrun
            simp only [Except.ok.injEq, Prod.mk.injEq] at hrun
            obtain ⟨_, rfl⟩ := hrun
            exact hmade

theorem parseLoop_frame (E : Env) (b a : CommonPtr) (x : TmplPtr) (tn L R : String)
    (hab : b ≠ a) (M : List (String × TreePtr)) :
    ∀ g g' r, Live g x a tn L R → parseLoop E g x M = .ok (r, g') → Untouched b g g' := by
  induction M with
  | nil =>
    intro g g' r _ hrun
    simp only [parseLoop, Except.ok.injEq, Prod.mk.injEq] at hrun
    obtain ⟨_, rfl⟩ := hrun
    exact untouched_refl b g
  | cons e rest ih =>
    obtain ⟨m, tr⟩ := e
    intro g g' r hlive hrun
    cases hs : parseStep E g x m tr with
    | error f => rw [parseLoop_cons_fault E g x m tr f rest hs] at hrun; cases hrun
    | ok res =>
      obtain ⟨o, g1⟩ := res
      obtain ⟨hu, hlive1⟩ := parseStep_frame E b a g g1 x tn L R m tr o hab hlive hs
      cases o with
      | some err =>
        rw [parseLoop_cons_err E g g1 x m tr err rest hs] at hrun
        simp only [Except.ok.injEq, Prod.mk.injEq] at hrun
        obtain ⟨_, rfl⟩ := hrun
        exact hu
      | none =>
        rw [parseLoop_cons_ok E g g1 x m tr rest hs] at hrun
        exact untouched_trans b g g1 g' hu (ih g1 g' r hlive1 hrun)

theorem Parse_untouched (E : Env) (b a : CommonPtr) (h h' : Heap) (x : TmplPtr) (xv : Template)
    (text : String) (r : Option TmplPtr × Option Error)
    (hx : h.templates[x]? = some xv) (hxa : xv.common = some a) (hab : b ≠ a)
    (hrun : Template.Parse E h x text = .ok (r, h')) : Untouched b h h' := by
  obtain ⟨tn, tt, xc, L, R⟩ := xv
  simp only at hxa
  subst hxa
  simp only [Template.Parse, init_of_some h x _ a hx rfl, deref, hx, getCommon] at hrun
  cases hc : h.commons[a]? with
  | none => simp [hc] at hrun
  | some cv =>
    simp only [hc] at hrun
    cases hp : E.Parse tn text L R cv.parseFuncs with
    | error e =>
      simp only [hp, Except.ok.injEq, Prod.mk.injEq] at hrun
      obtain ⟨_, rfl⟩ := hrun
      exact untouched_refl b h
    | ok M =>
      simp only [hp] at hrun
      cases hl : parseLoop E h x M with
      | error f => simp [hl] at hrun
      | ok res =>
        obtain ⟨o, g1⟩ := res
        have hu := parseLoop_frame E b a x tn L R hab M h g1 o ⟨⟨tt, hx⟩, cv, hc⟩ hl
        cases o with
        | none =>
          simp only [hl, Except.ok.injEq, Prod.mk.injEq] at hrun
          obtain ⟨_, rfl⟩ := hrun
          exact hu
        | some err =>
          simp only [hl, Except.ok.injEq, Prod.mk.injEq] at hrun
          obtain ⟨_, rfl⟩ := hrun
          exact hu

theorem applyOp_untouched (E : Env) (b a : CommonPtr) (h h' : Heap) (x : TmplPtr) (xv : Template)
    (op : Op) (hx : h.templates[x]? = some xv) (hxa : xv.common = some a) (hab : b ≠ a)
    (hrun : applyOp E h x op = .ok h') : Untouched b h h' := by
  cases op with
  | parse text =>
    simp only [applyOp] at hrun
    cases hp : Template.Parse E h x text with
    | error f => rw [hp] at hrun; cases hrun
    | ok res =>
      obtain ⟨r, g⟩ := res
      rw [hp] at hrun
      simp only [Except.ok.injEq] at hrun
      subst hrun
      exact Parse_untouched E b a h g x xv text r hx hxa hab hp
  | addParseTree name tree =>
    simp only [applyOp] at hrun
    cases hp : Template.AddParseTree h x name tree with
    | error f => rw [hp] at hrun; cases hrun
    | ok res =>
      obtain ⟨r, g⟩ := res
      rw [hp] at hrun
      simp only [Except.ok.injEq] at hrun
      subst hrun
      exact AddParseTree_untouched b a h g x xv name tree r hx hxa hab hp
  | funcs fm =>
    simp only [applyOp] at hrun
    cases hp : Template.Funcs E h x fm with
    | error f => rw [hp] at hrun; cases hrun
    | ok res =>
      obtain ⟨r, g⟩ := res
      rw [hp] at hrun
      simp only [Except.ok.injEq] at hrun
      subst hrun
      exact Funcs_untouched E b a h g x xv fm r hx hxa hab hp

theorem runOps_untouched (E : Env) (b ns : CommonPtr) (hne : b ≠ ns) (ops : List (TmplPtr × Op)) :
    ∀ h h2, runOps E ns h ops = some h2 → Untouched b h h2 := by
  induction ops with
  | nil =>
    intro h h2 hrun
    simp only [runOps, Option.some.injEq] at hrun
    subst hrun
    exact untouched_refl b h
  | cons e rest ih =>
    obtain ⟨x, op⟩ := e
    intro h h2 hrun
    simp only [runOps] at hrun
    cases hd : deref h x with
    | error f => rw [hd] at hrun; cases hrun
    | ok xv =>
      rw [hd] at hrun
      simp only at hrun
      by_cases hxa : xv.common = some ns
      · rw [if_pos hxa] at hrun
        cases ha : applyOp E h x op with
        | error f => rw [ha] at hrun; cases hrun
        | ok h1 =>
          rw [ha] at hrun
          exact untouched_trans b h h1 h2
            (applyOp_untouched E b ns h h1 x xv op (get_of_deref h x xv hd) hxa hne ha)
            (ih h1 h2 hrun)
      · rw [if_neg hxa] at hrun; cases hrun

theorem untouched_view (b : CommonPtr) (h h2 : Heap) (t : TmplPtr) (cv : common)
    (hu : Untouched b h h2) (hg : getCommon h t = .ok (b, cv))
    (hclosed : ∀ e ∈ cv.tmpl, ∃ pv, h.templates[e.2]? = some pv ∧ pv.common = some b) :
    getCommon h2 t = getCommon h t ∧ ∀ name, lookupView h2 t name = lookupView h t name := by
  obtain ⟨tv, ht, htc, hc⟩ := getCommon_parts h t b cv hg
  have hg2 : getCommon h2 t = .ok (b, cv) := by
    simp [getCommon, hu.2 t tv ht htc, htc, hu.1, hc]
  refine ⟨by rw [hg2, hg], ?_⟩
  intro name
  rw [lookupView_of_getCommon h2 t b cv name hg2, lookupView_of_getCommon h t b cv name hg]
  cases hm : mapGet cv.tmpl name with
  | none => rfl
  | some p =>
    obtain ⟨pv, hp, hpb⟩ := hclosed (name, p) (mapGet_mem _ _ _ hm)
    simp only [hu.2 p pv hp hpb, hp]

/-- Claim C5. After `c = Clone(t)` on a handle whose namespace registers handles of that
namespace, the two namespaces differ, and any sequence of `Parse`, `AddParseTree` and
`Funcs` calls made through handles of the clone's namespace leaves the record of the
namespace of `t` (registrations and both function tables) and every `Lookup` through `t`,
handle and fields, as they were; the same holds for the clone under calls made through
handles of the namespace of `t`. -/
theorem clone_independence (E : Env) (h h1 : Heap) (t nt : TmplPtr) (c c' : CommonPtr)
    (cv cv' : common)
    (hg : getCommon h t = .ok (c, cv))
    (hclosed : ∀ e ∈ cv.tmpl, ∃ pv, h.templates[e.2]? = some pv ∧ pv.common = some c)
    (hclone : Template.Clone h t = .ok ((nt, none), h1))
    (hg' : getCommon h1 nt = .ok (c', cv')) :
    c' ≠ c ∧
    (∀ ops h2, runOps E c' h1 ops = some h2 →
      getCommon h2 t = getCommon h1 t ∧ ∀ name, lookupView h2 t name = lookupView h1 t name) ∧
    (∀ ops h2, runOps E c h1 ops = some h2 →
      getCommon h2 nt = getCommon h1 nt ∧ ∀ name, lookupView h2 nt name = lookupView h1 nt name) := by
  obtain ⟨tv, ht, htc, hc⟩ := getCommon_parts h t c cv hg
  have htlt : t < h.templates.length := lt_of_get _ _ _ ht
  have hclt : c < h.commons.length := lt_of_get _ _ _ hc
  have hlive : ∀ e ∈ cv.tmpl, e.2 < h.templates.length := by
    intro e he
    obtain ⟨pv, hp, _⟩ := hclosed e he
    exact lt_of_get _ _ _ hp
  obtain ⟨h', cv1, hrun, hold, hcold, hroot, hcnew, _, _, hmem, _⟩ :=
    Clone_spec h t tv c cv ht htc hc hlive
  rw [hrun] at hclone
  simp only [Except.ok.injEq, Prod.mk.injEq, and_true] at hclone
  obtain ⟨rfl, rfl⟩ := hclone
  have hgn : getCommon h' h.templates.length = .ok (h.commons.length, cv1) := by
    simp [getCommon, hroot, hcnew]
  rw [hgn] at hg'
  simp only [Except.ok.injEq, Prod.mk.injEq] at hg'
  obtain ⟨rfl, rfl⟩ := hg'
  have hne : h.commons.length ≠ c := (Nat.ne_of_lt hclt).symm
  have hgt : getCommon h' t = .ok (c, cv) := by
    simp [getCommon, hold t htlt, ht, htc, hcold c hclt, hc]
  have hclosed' : ∀ e ∈ cv.tmpl, ∃ pv, h'.templates[e.2]? = some pv ∧ pv.common = some c := by
    intro e he
    obtain ⟨pv, hp, hpc⟩ := hclosed e he
    exact ⟨pv, by rw [hold e.2 (hlive e he)]; exact hp, hpc⟩
  refine ⟨hne, ?_, ?_⟩
  · intro ops h2 hops
    exact untouched_view c h' h2 t cv (runOps_untouched E c _ hne.symm ops h' h2 hops) hgt hclosed'
  · intro ops h2 hops
    exact untouched_view _ h' h2 _ cv1 (runOps_untouched E _ c hne ops h' h2 hops) hgn
      (fun e he => (hmem e he).2)

theorem clone_independence_witness :
    (1 : CommonPtr) ≠ 0 ∧
    getCommon exRun 0 = getCommon exClone 0 ∧
    ∀ name, lookupView exRun 0 name = lookupView exClone 0 name :=
  ⟨(clone_independence exEnv exHeap exClone 0 2 0 1 ⟨[("page", 0), ("header", 1)], [], []⟩
      ⟨[("page", 2), ("header", 3)], [], []⟩ rfl (by simp [exHeap]) rfl rfl).1,
   (clone_independence exEnv exHeap exClone 0 2 0 1 ⟨[("page", 0), ("header", 1)], [], []⟩
      ⟨[("page", 2), ("header", 3)], [], []⟩ rfl (by simp [exHeap]) rfl rfl).2.1
      [(2, .parse "b"), (3, .funcs [("f", 7)])] exRun rfl⟩

/-! ## Delimiters, parse trees added by hand, and reachable heaps -/

theorem deref_iff (h : Heap) (t : TmplPtr) (tv : Template) :
    deref h t = .ok tv ↔ h.templates[t]? = some tv :=
  ⟨get_of_deref h t tv, deref_eq h t tv⟩

theorem deref_none (h : Heap) (t : TmplPtr) (ht : h.templates[t]? = none) :
    deref h t = .error .nilDeref := by
  simp [deref, ht]

/-- Claim C16. `Delims` returns `t` itself with the two delimiters set; the name, tree and
namespace of `t`, every `common` record and every other handle are as before. -/
theorem delims_pure (h : Heap) (t : TmplPtr) (tv : Template) (left right : String)
    (ht : deref h t = .ok tv) :
    ∃ h', Template.Delims h t left right = .ok (t, h') ∧
      deref h' t = .ok { tv with leftDelim := left, rightDelim := right } ∧
      h'.commons = h.commons ∧ h'.templates.length = h.templates.length ∧
      ∀ p : TmplPtr, p ≠ t → deref h' p = deref h p := by
  have ht' := get_of_deref h t tv ht
  refine ⟨updTmpl (updTmpl h t (fun x => { x with leftDelim := left })) t
    (fun x => { x with rightDelim := right }), by simp [Template.Delims, ht], ?_, by simp,
    by simp, ?_⟩
  · apply deref_eq
    rw [updTmpl_get]; simp only [if_true]
    rw [updTmpl_get]; simp [ht']
  · intro p hp
    simp only [deref]
    rw [updTmpl_get]; simp only [hp, if_false]
    rw [updTmpl_get]; simp only [hp, if_false]

theorem delims_pure_witness :
    ∃ h', Template.Delims exHeap 0 "<%" "%>" = .ok (0, h') ∧
      deref h' 0 = .ok ⟨"page", some 1, some 0, "<%", "%>"⟩ ∧
      h'.commons = exHeap.commons ∧ h'.templates.length = exHeap.templates.length ∧
      ∀ p : TmplPtr, p ≠ 0 → deref h' p = deref exHeap p :=
  delims_pure exHeap 0 ⟨"page", some 1, some 0, "", ""⟩ "<%" "%>" rfl

/-- Claim C18, evaluated on the code: `Clone` on the freshly constructed handle "page",
which has no namespace, panics with a nil dereference when it ranges over `t.tmpl`. -/
theorem clone_uninitialized_panics :
    Template.Clone (New ⟨[], []⟩ "page").2 (New ⟨[], []⟩ "page").1 = .error .nilDeref := rfl

theorem Clone_of_nil (h : Heap) (t : TmplPtr) (tv : Template)
    (ht : h.templates[t]? = some tv) (hnone : tv.common = none) :
    Template.Clone h t = .error .nilDeref := by
  have htlt : t < h.templates.length := lt_of_get _ _ _ ht
  have e1 := copy_eq h t tv none ht
  have hn1 : (allocTmpl h { tv with common := none }).2.templates[h.templates.length]?
      = some { tv with common := none } := by
    rw [allocTmpl_get]; simp
  have e2 : Template.init (allocTmpl h { tv with common := none }).2 h.templates.length =
      .ok (updTmpl
        { (allocTmpl h { tv with common := none }).2 with
          commons := h.commons ++ [{ tmpl := [], parseFuncs := [], execFuncs := [] }] }
        h.templates.length (fun x => { x with common := some h.commons.length })) := by
    simp [Template.init, deref, hn1]
  have hn2 : (updTmpl
        { (allocTmpl h { tv with common := none }).2 with
          commons := h.commons ++ [{ tmpl := [], parseFuncs := [], execFuncs := [] }] }
        h.templates.length (fun x => { x with common := some h.commons.length })).templates[h.templates.length]?
      = some { tv with common := some h.commons.length } := by
    rw [updTmpl_get]; simp [hn1]
  have ht2 : (updTmpl
        { (allocTmpl h { tv with common := none }).2 with
          commons := h.commons ++ [{ tmpl := [], parseFuncs := [], execFuncs := [] }] }
        h.templates.length (fun x => { x with common := some h.commons.length })).templates[t]?
      = some tv := by
    rw [updTmpl_get]
    simp only [Nat.ne_of_lt htlt, if_false]
    have := allocTmpl_get h { tv with common := none } t
    simp only [Nat.ne_of_lt htlt, if_false] at this
    rw [← ht]; exact this
  have e3 : getCommon (updTmpl
        { (allocTmpl h { tv with common := none }).2 with
          commons := h.commons ++ [{ tmpl := [], parseFuncs := [], execFuncs := [] }] }
        h.templates.length (fun x => { x with common := some h.commons.length })) h.templates.length
      = .ok (h.commons.length, ⟨[], [], []⟩) := by
    simp [getCommon, hn2]
  simp only [Template.Clone, e1, e2, e3, deref, ht2, allocTmpl_fst]
  simp [getCommon, ht2, hnone]

theorem Lookup_of_nil (h : Heap) (t : TmplPtr) (tv : Template) (k : String)
    (ht : h.templates[t]? = some tv) (hnone : tv.common = none) :
    Template.Lookup h t k = .ok none := by
  simp [Template.Lookup, deref, ht, hnone]

theorem AddParseTree_taken (h : Heap) (t : TmplPtr) (name : String) (tree : Option TreePtr)
    (p : TmplPtr) (hl : Template.Lookup h t name = .ok (some p)) :
    Template.AddParseTree h t name tree =
      .ok ((none, some (.errorf "nifi: redefinition of nifi %q" name)), h) := by
  simp only [Template.Lookup, deref] at hl
  cases ht : h.templates[t]? with
  | none => simp [ht] at hl
  | some tv =>
    simp only [ht] at hl
    cases htc : tv.common with
    | none => simp [htc] at hl
    | some c =>
      simp only [htc] at hl
      cases hc : h.commons[c]? with
      | none => simp [hc] at hl
      | some cv =>
        simp only [hc, Except.ok.injEq] at hl
        simp [Template.AddParseTree, deref, ht, htc, hc, hl]

theorem AddParseTree_free_init (h : Heap) (t : TmplPtr) (tv : Template) (c : CommonPtr)
    (cv : common) (name : String) (tree : Option TreePtr)
    (ht : h.templates[t]? = some tv) (htc : tv.common = some c) (hc : h.commons[c]? = some cv)
    (hfree : mapGet cv.tmpl name = none) :
    Template.AddParseTree h t name tree =
      .ok ((some h.templates.length, none), addedHeap h c name tree tv.leftDelim tv.rightDelim) := by
  have htlt : t < h.templates.length := lt_of_get _ _ _ ht
  have hx2 : (updTmpl (allocTmpl h ⟨name, none, some c, tv.leftDelim, tv.rightDelim⟩).2
      h.templates.length
      (fun x => { x with Tree := tree })).templates[t]? = some tv := by
    rw [updTmpl_get]
    simp only [Nat.ne_of_lt htlt, if_false]
    rw [allocTmpl_get]; simp [Nat.ne_of_lt htlt, ht]
  simp [Template.AddParseTree, deref, ht, htc, hc, hfree, New_of_some h t tv c name ht htc,
    getCommon, hx2, addedHeap]

theorem addedHeap_spec (h1 : Heap) (t : TmplPtr) (tv1 : Template) (c : CommonPtr) (cv : common)
    (name : String) (tree : Option TreePtr)
    (ht : h1.templates[t]? = some tv1) (htc : tv1.common = some c)
    (hc : h1.commons[c]? = some cv) :
    getCommon (addedHeap h1 c name tree tv1.leftDelim tv1.rightDelim) t =
      .ok (c, { cv with tmpl := mapSet cv.tmpl name h1.templates.length }) ∧
    deref (addedHeap h1 c name tree tv1.leftDelim tv1.rightDelim) h1.templates.length =
      .ok ⟨name, tree, some c, tv1.leftDelim, tv1.rightDelim⟩ ∧
    (∀ p : TmplPtr, p < h1.templates.length →
      (addedHeap h1 c name tree tv1.leftDelim tv1.rightDelim).templates[p]? = h1.templates[p]?) ∧
    (∀ d : CommonPtr, d ≠ c →
      (addedHeap h1 c name tree tv1.leftDelim tv1.rightDelim).commons[d]? = h1.commons[d]?) := by
  have htlt : t < h1.templates.length := lt_of_get _ _ _ ht
  have hold : ∀ p : TmplPtr, p < h1.templates.length →
      (addedHeap h1 c name tree tv1.leftDelim tv1.rightDelim).templates[p]? = h1.templates[p]? := by
    intro p hp
    simp only [addedHeap, updCommon_templates]
    rw [updTmpl_get]; simp only [Nat.ne_of_lt hp, if_false]
    rw [allocTmpl_get]; simp [Nat.ne_of_lt hp]
  have hcn : (addedHeap h1 c name tree tv1.leftDelim tv1.rightDelim).commons[c]? =
      some { cv with tmpl := mapSet cv.tmpl name h1.templates.length } := by
    simp only [addedHeap]
    rw [updCommon_get]; simp [hc]
  refine ⟨?_, ?_, hold, ?_⟩
  · simp [getCommon, hold t htlt, ht, htc, hcn]
  · apply deref_eq
    simp only [addedHeap, updCommon_templates]
    rw [updTmpl_get]; simp only [if_true]
    rw [allocTmpl_get]; simp
  · intro d hd
    simp only [addedHeap]
    rw [updCommon_get]; simp [hd]

theorem initHeap_some (h : Heap) (t : TmplPtr) (tv : Template) (c : CommonPtr)
    (htc : tv.common = some c) : initHeap h t tv = h := by
  simp [initHeap, htc]

theorem initHeap_nil_get (h : Heap) (t : TmplPtr) (tv : Template)
    (ht : h.templates[t]? = some tv) (hnone : tv.common = none) :
    (initHeap h t tv).templates[t]? = some { tv with common := some h.commons.length } := by
  simp only [initHeap, hnone]
  rw [updTmpl_get]; simp [ht]

theorem initHeap_nil_old (h : Heap) (t : TmplPtr) (tv : Template) (p : TmplPtr)
    (hnone : tv.common = none) (hp : p ≠ t) :
    (initHeap h t tv).templates[p]? = h.templates[p]? := by
  simp only [initHeap, hnone]
  rw [updTmpl_get]; simp [hp]

theorem initHeap_length (h : Heap) (t : TmplPtr) (tv : Template) :
    (initHeap h t tv).templates.length = h.templates.length := by
  cases hc : tv.common <;> simp [initHeap, hc]

theorem initHeap_nil_cold (h : Heap) (t : TmplPtr) (tv : Template) (d : CommonPtr)
    (hnone : tv.common = none) (hd : d < h.commons.length) :
    (initHeap h t tv).commons[d]? = h.commons[d]? := by
  simp [initHeap, hnone, List.getElem?_append_left hd]

theorem initHeap_nil_cnew (h : Heap) (t : TmplPtr) (tv : Template) (hnone : tv.common = none) :
    (initHeap h t tv).commons[h.commons.length]? = some ⟨[], [], []⟩ := by
  simp [initHeap, hnone]

theorem initHeap_nil_clen (h : Heap) (t : TmplPtr) (tv : Template) (hnone : tv.common = none) :
    (initHeap h t tv).commons.length = h.commons.length + 1 := by
  simp [initHeap, hnone]

theorem init_idem (h : Heap) (t : TmplPtr) (tv : Template) (ht : h.templates[t]? = some tv) :
    Template.init (initHeap h t tv) t = .ok (initHeap h t tv) := by
  cases hc : tv.common with
  | some c => rw [initHeap_some h t tv c hc]; exact init_of_some h t tv c ht hc
  | none => exact init_of_some _ t _ _ (initHeap_nil_get h t tv ht hc) rfl

theorem New_init (h : Heap) (t : TmplPtr) (tv : Template) (name : String)
    (ht : h.templates[t]? = some tv) :
    Template.New h t name = Template.New (initHeap h t tv) t name := by
  simp only [Template.New, init_eq h t tv ht, init_idem h t tv ht]

theorem Parse_init (E : Env) (h : Heap) (t : TmplPtr) (tv : Template) (text : String)
    (ht : h.templates[t]? = some tv) :
    Template.Parse E h t text = Template.Parse E (initHeap h t tv) t text := by
  simp only [Template.Parse, init_eq h t tv ht, init_idem h t tv ht]

theorem Funcs_init (E : Env) (h : Heap) (t : TmplPtr) (tv : Template) (fm : FuncMap)
    (ht : h.templates[t]? = some tv) :
    Template.Funcs E h t fm = Template.Funcs E (initHeap h t tv) t fm := by
  simp only [Template.Funcs, init_eq h t tv ht, init_idem h t tv ht]

theorem AddParseTree_init (h : Heap) (t : TmplPtr) (tv : Template) (name : String)
    (tree : Option TreePtr) (ht : h.templates[t]? = some tv) :
    Template.AddParseTree h t name tree = Template.AddParseTree (initHeap h t tv) t name tree := by
  cases hc : tv.common with
  | some c => rw [initHeap_some h t tv c hc]
  | none =>
    have h1 := initHeap_nil_get h t tv ht hc
    have h2 := initHeap_nil_cnew h t tv hc
    simp only [Template.AddParseTree, deref, ht, hc, h1, h2, mapGet, Option.isSome_none,
      New_init h t tv name ht]

theorem AddParseTree_free (h : Heap) (t : TmplPtr) (tv : Template) (name : String)
    (tree : Option TreePtr) (ht : h.templates[t]? = some tv)
    (hl : Template.Lookup h t name = .ok none) :
    ∃ c cv, (∀ c0, tv.common = some c0 → c = c0) ∧
      (initHeap h t tv).commons[c]? = some cv ∧
      (∀ k, Template.Lookup h t k = .ok (mapGet cv.tmpl k)) ∧
      Template.AddParseTree h t name tree =
        .ok ((some h.templates.length, none),
          addedHeap (initHeap h t tv) c name tree tv.leftDelim tv.rightDelim) ∧
      getCommon (addedHeap (initHeap h t tv) c name tree tv.leftDelim tv.rightDelim) t =
        .ok (c, { cv with tmpl := mapSet cv.tmpl name h.templates.length }) ∧
      deref (addedHeap (initHeap h t tv) c name tree tv.leftDelim tv.rightDelim) h.templates.length =
        .ok ⟨name, tree, some c, tv.leftDelim, tv.rightDelim⟩ := by
  cases htc : tv.common with
  | none =>
    have h1 := initHeap_nil_get h t tv ht htc
    have h2 := initHeap_nil_cnew h t tv htc
    have hadd := AddParseTree_free_init (initHeap h t tv) t _ h.commons.length ⟨[], [], []⟩ name tree
      h1 rfl h2 rfl
    obtain ⟨hs1, hs2, _, _⟩ := addedHeap_spec (initHeap h t tv) t _ h.commons.length ⟨[], [], []⟩
      name tree h1 rfl h2
    rw [initHeap_length] at hadd hs1 hs2
    refine ⟨h.commons.length, ⟨[], [], []⟩, ?_, h2, ?_, ?_, hs1, hs2⟩
    · intro c0 hc0; cases hc0
    · intro k; rw [Lookup_of_nil h t tv k ht htc]; rfl
    · rw [AddParseTree_init h t tv name tree ht]; exact hadd
  | some c =>
    cases hc : h.commons[c]? with
    | none => simp [Template.Lookup, deref, ht, htc, hc] at hl
    | some cv =>
      have hg : getCommon h t = .ok (c, cv) := by simp [getCommon, ht, htc, hc]
      have hfree : mapGet cv.tmpl name = none := by
        rw [Lookup_of_getCommon h t c cv name hg] at hl
        exact Except.ok.inj hl
      have hadd := AddParseTree_free_init h t tv c cv name tree ht htc hc hfree
      obtain ⟨hs1, hs2, _, _⟩ := addedHeap_spec h t tv c cv name tree ht htc hc
      rw [initHeap_some h t tv c htc]
      exact ⟨c, cv, fun c0 hc0 => (Option.some.inj hc0), hc,
        fun k => Lookup_of_getCommon h t c cv k hg, hadd, hs1, hs2⟩

/-- Claim C14. `AddParseTree` returns a nil handle and the redefinition error for the name,
on an unchanged heap, when `Lookup` of the name is non-nil, whatever the trees; when
`Lookup` of the name is nil it returns no error and a newly allocated handle with that
name, the given tree, the namespace of `t` and the delimiters of `t`, registered under the
name, the entries under other names being as before; and it returns an error exactly in
the first case. -/
theorem addParseTree_spec (h : Heap) (t : TmplPtr) (tv : Template) (name : String)
    (tree : Option TreePtr) (ht : deref h t = .ok tv) :
    (∀ p, Template.Lookup h t name = .ok (some p) →
      Template.AddParseTree h t name tree =
        .ok ((none, some (.errorf "nifi: redefinition of nifi %q" name)), h)) ∧
    (Template.Lookup h t name = .ok none →
      ∃ nt h' c cv', Template.AddParseTree h t name tree = .ok ((some nt, none), h') ∧
        deref h nt = .error .nilDeref ∧
        getCommon h' t = .ok (c, cv') ∧ (∀ c0, tv.common = some c0 → c = c0) ∧
        deref h' nt = .ok ⟨name, tree, some c, tv.leftDelim, tv.rightDelim⟩ ∧
        Template.Lookup h' t name = .ok (some nt) ∧
        ∀ k, k ≠ name → Template.Lookup h' t k = Template.Lookup h t k) ∧
    ((∃ r e h', Template.AddParseTree h t name tree = .ok ((r, some e), h')) ↔
      ∃ p, Template.Lookup h t name = .ok (some p)) := by
  have ht' := get_of_deref h t tv ht
  have hfreecase : Template.Lookup h t name = .ok none →
      ∃ nt h' c cv', Template.AddParseTree h t name tree = .ok ((some nt, none), h') ∧
        deref h nt = .error .nilDeref ∧
        getCommon h' t = .ok (c, cv') ∧ (∀ c0, tv.common = some c0 → c = c0) ∧
        deref h' nt = .ok ⟨name, tree, some c, tv.leftDelim, tv.rightDelim⟩ ∧
        Template.Lookup h' t name = .ok (some nt) ∧
        ∀ k, k ≠ name → Template.Lookup h' t k = Template.Lookup h t k := by
    intro hl
    obtain ⟨c, cv, hc0, _, hlk, hadd, hg, hd⟩ := AddParseTree_free h t tv name tree ht' hl
    refine ⟨_, _, c, _, hadd, deref_none h _ (List.getElem?_eq_none (Nat.le_refl _)), hg, hc0, hd, ?_, ?_⟩
    · rw [Lookup_of_getCommon _ t c _ name hg]
      simp [mapGet_mapSet]
    · intro k hk
      have hk' : ¬ name = k := fun e => hk e.symm
      rw [Lookup_of_getCommon _ t c _ k hg, hlk k]
      simp [mapGet_mapSet, hk']
  refine ⟨fun p hl => AddParseTree_taken h t name tree p hl, hfreecase, ?_, ?_⟩
  · rintro ⟨r, e, h', hrun⟩
    cases hl : Template.Lookup h t name with
    | error f =>
      exfalso
      simp only [Template.Lookup, deref, ht'] at hl
      cases htc : tv.common with
      | none => simp [htc] at hl
      | some c =>
        cases hc : h.commons[c]? with
        | some cv => simp [htc, hc] at hl
        | none => simp [Template.AddParseTree, deref, ht', htc, hc] at hrun
    | ok o =>
      cases o with
      | some p => exact ⟨p, rfl⟩
      | none =>
        obtain ⟨nt, h2, _, _, hadd, _⟩ := hfreecase hl
        rw [hadd] at hrun
        simp at hrun
  · rintro ⟨p, hl⟩
    exact ⟨none, _, h, AddParseTree_taken h t name tree p hl⟩

theorem addParseTree_spec_witness :
    (∀ p, Template.Lookup exHeap 0 "footer" = .ok (some p) →
      Template.AddParseTree exHeap 0 "footer" (some 5) =
        .ok ((none, some (.errorf "nifi: redefinition of nifi %q" "footer")), exHeap)) ∧
    (Template.Lookup exHeap 0 "footer" = .ok none →
      ∃ nt h' c cv', Template.AddParseTree exHeap 0 "footer" (some 5) = .ok ((some nt, none), h') ∧
        deref exHeap nt = .error .nilDeref ∧
        getCommon h' 0 = .ok (c, cv') ∧ (∀ c0, some 0 = some c0 → c = c0) ∧
        deref h' nt = .ok ⟨"footer", some 5, some c, "", ""⟩ ∧
        Template.Lookup h' 0 "footer" = .ok (some nt) ∧
        ∀ k, k ≠ "footer" → Template.Lookup h' 0 k = Template.Lookup exHeap 0 k) ∧
    ((∃ r e h', Template.AddParseTree exHeap 0 "footer" (some 5) = .ok ((r, some e), h')) ↔
      ∃ p, Template.Lookup exHeap 0 "footer" = .ok (some p)) :=
  addParseTree_spec exHeap 0 ⟨"page", some 1, some 0, "", ""⟩ "footer" (some 5) rfl

theorem parseStep_fault (E : Env) (g : Heap) (x : TmplPtr) (a : CommonPtr) (tn L R m : String)
    (tr : TreePtr) (f : Fault) (hlive : Live g x a tn L R)
    (hrun : parseStep E g x m tr = .error f) : f = .nilDeref := by
  obtain ⟨⟨tt, ht⟩, cv, hc⟩ := hlive
  cases hold : mapGet cv.tmpl m with
  | none =>
    rw [parseStep_fresh E g x a tn L R m tr tt cv ht hc hold] at hrun
    cases hrun
  | some old =>
    cases ho : g.templates[old]? with
    | none =>
      rw [parseStep_dangling E g x a tn L R m tr tt cv old ht hc hold ho] at hrun
      exact (Except.error.inj hrun).symm
    | some ov =>
      cases hot : ov.Tree with
      | none =>
        rw [parseStep_treeless E g x a tn L R m tr tt cv old ov ht hc hold ho hot] at hrun
        exact (Except.error.inj hrun).symm
      | some ot =>
        rw [parseStep_existing E g x a tn L R m tr tt cv old ov ot ht hc hold ho hot] at hrun
        by_cases h1 : E.IsEmptyTree tr = true
        · rw [if_pos h1] at hrun; cases hrun
        · rw [if_neg h1] at hrun
          by_cases h2 : E.IsEmptyTree ot = true
          · rw [if_pos h2] at hrun; cases hrun
          · rw [if_neg h2] at hrun; cases hrun

theorem parseLoop_fault (E : Env) (x : TmplPtr) (a : CommonPtr) (tn L R : String)
    (M : List (String × TreePtr)) :
    ∀ g f, Live g x a tn L R → parseLoop E g x M = .error f → f = .nilDeref := by
  induction M with
  | nil => intro g f _ hrun; simp [parseLoop] at hrun
  | cons e rest ih =>
    obtain ⟨m, tr⟩ := e
    intro g f hlive hrun
    cases hs : parseStep E g x m tr with
    | error f' =>
      rw [parseLoop_cons_fault E g x m tr f' rest hs] at hrun
      have := parseStep_fault E g x a tn L R m tr f' hlive hs
      rw [← Except.error.inj hrun]; exact this
    | ok res =>
      obtain ⟨o, g1⟩ := res
      have hne : a + 1 ≠ a := Nat.succ_ne_self a
      obtain ⟨_, hlive1⟩ := parseStep_frame E (a + 1) a g g1 x tn L R m tr o hne hlive hs
      cases o with
      | some err => rw [parseLoop_cons_err E g g1 x m tr err rest hs] at hrun; cases hrun
      | none =>
        rw [parseLoop_cons_ok E g g1 x m tr rest hs] at hrun
        exact ih g1 f hlive1 hrun

theorem Parse_fault (E : Env) (h : Heap) (t : TmplPtr) (text : String) (f : Fault)
    (hrun : Template.Parse E h t text = .error f) : f = .nilDeref := by
  cases ht : h.templates[t]? with
  | none =>
    simp [Template.Parse, Template.init, deref, ht] at hrun
    exact hrun.symm
  | some tv =>
    rw [Parse_init E h t tv text ht] at hrun
    obtain ⟨tn, tt, oc, L, R⟩ := tv
    have hlive1 : ∃ a tv1, (initHeap h t ⟨tn, tt, oc, L, R⟩).templates[t]? = some tv1 ∧
        tv1 = ⟨tn, tt, some a, L, R⟩ := by
      cases oc with
      | some c => exact ⟨c, _, by rw [initHeap_some h t _ c rfl]; exact ht, rfl⟩
      | none => exact ⟨h.commons.length, _, initHeap_nil_get h t _ ht rfl, rfl⟩
    obtain ⟨a, tv1, ht1, rfl⟩ := hlive1
    simp only [Template.Parse, init_of_some _ t _ a ht1 rfl, deref, ht1, getCommon] at hrun
    cases hc : (initHeap h t ⟨tn, tt, oc, L, R⟩).commons[a]? with
    | none =>
      simp [hc] at hrun
      exact hrun.symm
    | some cv =>
      simp only [hc] at hrun
      cases hp : E.Parse tn text L R cv.parseFuncs with
      | error e => simp [hp] at hrun
      | ok M =>
        simp only [hp] at hrun
        cases hl : parseLoop E (initHeap h t ⟨tn, tt, oc, L, R⟩) t M with
        | error f' =>
          simp only [hl, Except.error.injEq] at hrun
          rw [← hrun]
          exact parseLoop_fault E t a tn L R M _ f' ⟨⟨tt, ht1⟩, cv, hc⟩ hl
        | ok res =>
          obtain ⟨o, g1⟩ := res
          cases o <;> simp [hl] at hrun

/-- Claim C17. No call of `Parse` ends in the panic "internal error: associate not common":
every handle that `Parse` passes to `associate` is `t` itself or one made by `t.New`, so
it carries the namespace of `t`. -/
theorem parse_never_not_common (E : Env) (h : Heap) (t : TmplPtr) (text : String) :
    Template.Parse E h t text ≠ .error .associateNotCommon := by
  intro hrun
  have := Parse_fault E h t text _ hrun
  cases this

/-- Claim C19, evaluated on the code. A handle made by `New` and initialized by `Funcs` is
cloned: the clone root is registered under "page" with no tree, and `Parse` through the
clone panics with a nil dereference. Likewise after `AddParseTree("header", nil)` on a
fresh handle, `Parse` of a text that defines "header" panics. -/
theorem parse_treeless_panics :
    (∃ h1 h2 c, Template.Funcs exEnv (New ⟨[], []⟩ "page").2 0 [] = .ok (0, h1) ∧
      Template.Clone h1 0 = .ok ((c, none), h2) ∧
      lookupView h2 c "page" = .ok (some (c, ⟨"page", none, some 1, "", ""⟩)) ∧
      Template.Parse exEnv h2 c "a" = .error .nilDeref) ∧
    (∃ nt h1, Template.AddParseTree (New ⟨[], []⟩ "page").2 0 "header" none = .ok ((some nt, none), h1) ∧
      lookupView h1 0 "header" = .ok (some (nt, ⟨"header", none, some 0, "", ""⟩)) ∧
      Template.Parse exEnv h1 0 "a" = .error .nilDeref) :=
  ⟨⟨_, _, _, rfl, rfl, rfl, rfl⟩, ⟨_, _, rfl, rfl, rfl⟩⟩

theorem view_lt (h : Heap) (c : CommonPtr) (k : String) (p : TmplPtr) (pv : Template)
    (hv : view h c k = some (p, pv)) : p < h.templates.length ∧ h.templates[p]? = some pv := by
  unfold view at hv
  cases hr : regAt h c k with
  | none => simp [hr] at hv
  | some p0 =>
    simp only [hr] at hv
    cases hp : h.templates[p0]? with
    | none => simp [hp] at hv
    | some pv0 =>
      simp only [hp, Option.some.injEq, Prod.mk.injEq] at hv
      obtain ⟨rfl, rfl⟩ := hv
      exact ⟨lt_of_get _ _ _ hp, hp⟩

/-- Counterexample to claim C12 as stated: "header" is registered with an empty tree on
handle 1; a `Parse` that adopts a non-empty tree for "header" succeeds, and `Lookup` of
"header" then returns handle 2, while handle 1 still holds its empty tree. -/
theorem parse_nested_not_reused :
    ∃ h', Template.Parse exEnv2 exDecl 0 "defs" = .ok ((some 0, none), h') ∧
      Template.Lookup exDecl 0 "header" = .ok (some 1) ∧
      Template.Lookup h' 0 "header" = .ok (some 2) ∧
      deref h' 1 = .ok ⟨"header", some 4, some 0, "", ""⟩ ∧
      deref h' 2 = .ok ⟨"header", some 3, some 0, "", ""⟩ :=
  ⟨_, rfl, rfl, rfl, rfl, rfl⟩

/-- Claim C13. After a successful `Parse` on a handle `t` whose delimiters are `L`, `R`,
every registration that the call has made or replaced (every name whose `Lookup` differs
from before) is a handle with `leftDelim = L` and `rightDelim = R`, and `t` keeps `L`, `R`. -/
theorem parse_delims_inherited (E : Env) (h h' : Heap) (t : TmplPtr) (tv : Template)
    (text : String) (M : List (String × TreePtr)) (r : Option TmplPtr)
    (hwf : WF h t) (ht : deref h t = .ok tv)
    (hp : E.Parse tv.name text tv.leftDelim tv.rightDelim (parseFuncsOf h t) = .ok M)
    (hnd : (keys M).Nodup)
    (hrun : Template.Parse E h t text = .ok ((r, none), h')) :
    (∃ tv', deref h' t = .ok tv' ∧ tv'.leftDelim = tv.leftDelim ∧ tv'.rightDelim = tv.rightDelim) ∧
    ∀ n q qv, lookupView h' t n = .ok (some (q, qv)) → lookupView h' t n ≠ lookupView h t n →
      qv.leftDelim = tv.leftDelim ∧ qv.rightDelim = tv.rightDelim := by
  have ht' := get_of_deref h t tv ht
  obtain ⟨hinv, hlook0, _, _⟩ := init_inv h t tv hwf ht'
  rw [Parse_of_WF E h t tv text hwf ht', hp] at hrun
  obtain ⟨hloop, _⟩ := parseTail_ok_none E _ h' t M r hrun
  obtain ⟨hinv', _, hout, hin⟩ := parseLoop_ok E t _ _ _ _ M _ h' hinv hnd hloop
  constructor
  · obtain ⟨tt, ht1⟩ := hinv'.ht
    exact ⟨_, deref_eq _ _ _ ht1, rfl, rfl⟩
  · intro n q qv hq hne
    rw [lookupView_of_Inv _ t _ _ _ _ hinv' n] at hq hne
    rw [hlook0 n] at hne
    by_cases hk : n ∈ keys M
    · obtain ⟨tr, hmem⟩ := mem_of_mem_keys hk
      rcases hin n tr hmem with ⟨_, q', hq', _⟩ | ⟨_, hsame⟩
      · rw [hq'] at hq
        simp only [Except.ok.injEq, Option.some.injEq, Prod.mk.injEq] at hq
        obtain ⟨_, rfl⟩ := hq
        exact ⟨rfl, rfl⟩
      · exact absurd (by rw [hsame]) hne
    · exact absurd (by rw [hout n hk]) hne

theorem parse_delims_inherited_witness :
    (∃ tv', deref
        ⟨[⟨"page", some 1, some 0, "<%", "%>"⟩, ⟨"header", some 3, some 0, "<%", "%>"⟩],
          [⟨[("page", 0), ("header", 1)], [], []⟩]⟩ 0 = .ok tv' ∧
      tv'.leftDelim = "<%" ∧ tv'.rightDelim = "%>") ∧
    ∀ n q qv, lookupView
        ⟨[⟨"page", some 1, some 0, "<%", "%>"⟩, ⟨"header", some 3, some 0, "<%", "%>"⟩],
          [⟨[("page", 0), ("header", 1)], [], []⟩]⟩ 0 n = .ok (some (q, qv)) →
      lookupView
        ⟨[⟨"page", some 1, some 0, "<%", "%>"⟩, ⟨"header", some 3, some 0, "<%", "%>"⟩],
          [⟨[("page", 0), ("header", 1)], [], []⟩]⟩ 0 n ≠ lookupView exAngle 0 n →
      qv.leftDelim = "<%" ∧ qv.rightDelim = "%>" :=
  parse_delims_inherited exEnv exAngle _ 0 ⟨"page", none, none, "<%", "%>"⟩ "a"
    [("page", 1), ("header", 3)] (some 0) (by simp [WF, exAngle]) rfl rfl (by simp [keys]) rfl

theorem parseStep_shape (E : Env) (g g' : Heap) (x : TmplPtr) (a : CommonPtr) (tn L R m : String)
    (tr : TreePtr) (r : Option Error) (hlive : Live g x a tn L R)
    (hrun : parseStep E g x m tr = .ok (r, g')) :
    g' = adoptHeap (madeTmpl g x tn m a L R).2 a m (madeTmpl g x tn m a L R).1 tr L R ∨
    g' = keepHeap (madeTmpl g x tn m a L R).2 (madeTmpl g x tn m a L R).1 L R ∨
    g' = (madeTmpl g x tn m a L R).2 := by
  obtain ⟨⟨tt, ht⟩, cv, hc⟩ := hlive
  cases hold : mapGet cv.tmpl m with
  | none =>
    rw [parseStep_fresh E g x a tn L R m tr tt cv ht hc hold] at hrun
    simp only [Except.ok.injEq, Prod.mk.injEq] at hrun
    exact Or.inl hrun.2.symm
  | some old =>
    cases ho : g.templates[old]? with
    | none =>
      rw [parseStep_dangling E g x a tn L R m tr tt cv old ht hc hold ho] at hrun
      cases hrun
    | some ov =>
      cases hot : ov.Tree with
      | none =>
        rw [parseStep_treeless E g x a tn L R m tr tt cv old ov ht hc hold ho hot] at hrun
        cases hrun
      | some ot =>
        rw [parseStep_existing E g x a tn L R m tr tt cv old ov ot ht hc hold ho hot] at hrun
        by_cases h1 : E.IsEmptyTree tr = true
        · rw [if_pos h1] at hrun
          simp only [Except.ok.injEq, Prod.mk.injEq] at hrun
          exact Or.inr (Or.inl hrun.2.symm)
        · rw [if_neg h1] at hrun
          by_cases h2 : E.IsEmptyTree ot = true
          · rw [if_pos h2] at hrun
            simp only [Except.ok.injEq, Prod.mk.injEq] at hrun
            exact Or.inl hrun.2.symm
          · rw [if_neg h2] at hrun
            simp only [Except.ok.injEq, Prod.mk.injEq] at hrun
            exact Or.inr (Or.inr hrun.2.symm)

theorem NsOK_of_same (h h' : Heap) (b : CommonPtr) (hok : NsOK h b)
    (hcom : h'.commons[b]? = h.commons[b]?)
    (hget : ∀ (p : TmplPtr) (pv : Template), h.templates[p]? = some pv → pv.common = some b →
      ∃ pv', h'.templates[p]? = some pv' ∧ pv'.common = pv.common ∧ pv'.name = pv.name) :
    NsOK h' b := by
  intro cv hcv
  rw [hcom] at hcv
  obtain ⟨hnd, hall⟩ := hok cv hcv
  refine ⟨hnd, ?_⟩
  intro e he
  obtain ⟨pv, hp, hpc, hpn⟩ := hall e he
  obtain ⟨pv', hp', hc', hn'⟩ := hget e.2 pv hp hpc
  exact ⟨pv', hp', by rw [hc', hpc], by rw [hn', hpn]⟩

theorem NsOK_of_untouched (h h' : Heap) (b : CommonPtr) (hok : NsOK h b)
    (hu : Untouched b h h') : NsOK h' b :=
  NsOK_of_same h h' b hok hu.1 (fun p pv hp hb => ⟨pv, hu.2 p pv hp hb, rfl, rfl⟩)

theorem NsOK_made (g : Heap) (x : TmplPtr) (a b : CommonPtr) (tn L R m : String)
    (hok : NsOK g b) : NsOK (madeTmpl g x tn m a L R).2 b := by
  apply NsOK_of_same g _ b hok (by rw [madeTmpl_commons])
  intro p pv hp _
  exact ⟨pv, by rw [madeTmpl_get_old _ _ _ _ _ _ _ _ (lt_of_get _ _ _ hp)]; exact hp, rfl, rfl⟩

theorem NsOK_keep (g : Heap) (x : TmplPtr) (a b : CommonPtr) (tn L R m : String)
    (hok : NsOK g b) :
    NsOK (keepHeap (madeTmpl g x tn m a L R).2 (madeTmpl g x tn m a L R).1 L R) b := by
  apply NsOK_of_same g _ b hok (by rw [keepHeap_commons, madeTmpl_commons])
  intro p pv hp _
  have hold := madeTmpl_get_old g x tn m a L R p (lt_of_get _ _ _ hp)
  rw [keepHeap_get]
  by_cases hpq : p = (madeTmpl g x tn m a L R).1
  · rw [if_pos hpq, ← hpq, hold, hp]
    exact ⟨_, rfl, rfl, rfl⟩
  · rw [if_neg hpq, hold]
    exact ⟨pv, hp, rfl, rfl⟩

theorem NsOK_adopt (g : Heap) (x : TmplPtr) (a : CommonPtr) (tn L R m : String) (tr : TreePtr)
    (hlive : Live g x a tn L R) (hok : NsOK g a) :
    NsOK (adoptHeap (madeTmpl g x tn m a L R).2 a m (madeTmpl g x tn m a L R).1 tr L R) a := by
  obtain ⟨⟨tt, ht⟩, cv, hc⟩ := hlive
  obtain ⟨hnd, hall⟩ := hok cv hc
  obtain ⟨y, hself⟩ := madeTmpl_get_self g x tn m a L R tt ht
  have hmc := madeTmpl_commons g x tn m a L R
  have hnewget : (adoptHeap (madeTmpl g x tn m a L R).2 a m (madeTmpl g x tn m a L R).1 tr L R).templates[(madeTmpl g x tn m a L R).1]?
      = some ⟨m, some tr, some a, L, R⟩ := by
    rw [adoptHeap_get]; simp [hself]
  intro cv' hcv'
  rw [adoptHeap_commons] at hcv'
  simp only [install] at hcv'
  rw [updCommon_get] at hcv'
  simp only [if_true, hmc, hc, Option.map_some', Option.some.injEq] at hcv'
  subst hcv'
  refine ⟨keys_mapSet_nodup cv.tmpl m _ hnd, ?_⟩
  intro e he
  rcases mem_mapSet _ _ _ _ he with h1 | h1
  · obtain ⟨pv, hp, hpc, hpn⟩ := hall e h1
    by_cases hpq : e.2 = (madeTmpl g x tn m a L R).1
    · rw [hpq]
      refine ⟨_, hnewget, rfl, ?_⟩
      -- the registered handle is the one the iteration works on: it is `x`, named `tn = m`
      have hplt : e.2 < g.templates.length := lt_of_get _ _ _ hp
      rw [madeTmpl_fst] at hpq
      by_cases hm : m = tn
      · simp only [hm, if_true] at hpq
        rw [hpq, ht] at hp
        have := Option.some.inj hp
        subst this
        simp only at hpn
        rw [← hpn, hm]
      · simp only [hm, if_false] at hpq
        exact absurd hpq (Nat.ne_of_lt hplt)
    · refine ⟨pv, ?_, hpc, hpn⟩
      rw [adoptHeap_get, if_neg hpq, madeTmpl_get_old _ _ _ _ _ _ _ _ (lt_of_get _ _ _ hp)]
      exact hp
  · subst h1
    exact ⟨_, hnewget, rfl, rfl⟩

theorem parseStep_NsOK (E : Env) (g g' : Heap) (x : TmplPtr) (a : CommonPtr) (tn L R m : String)
    (tr : TreePtr) (r : Option Error) (hlive : Live g x a tn L R) (hok : NsOK g a)
    (hrun : parseStep E g x m tr = .ok (r, g')) : NsOK g' a := by
  rcases parseStep_shape E g g' x a tn L R m tr r hlive hrun with h1 | h1 | h1
  · rw [h1]; exact NsOK_adopt g x a tn L R m tr hlive hok
  · rw [h1]; exact NsOK_keep g x a a tn L R m hok
  · rw [h1]; exact NsOK_made g x a a tn L R m hok

theorem parseLoop_NsOK (E : Env) (x : TmplPtr) (a : CommonPtr) (tn L R : String)
    (M : List (String × TreePtr)) :
    ∀ g g' r, Live g x a tn L R → NsOK g a → parseLoop E g x M = .ok (r, g') → NsOK g' a := by
  induction M with
  | nil =>
    intro g g' r _ hok hrun
    simp only [parseLoop, Except.ok.injEq, Prod.mk.injEq] at hrun
    rw [← hrun.2]; exact hok
  | cons e rest ih =>
    obtain ⟨m, tr⟩ := e
    intro g g' r hlive hok hrun
    cases hs : parseStep E g x m tr with
    | error f => rw [parseLoop_cons_fault E g x m tr f rest hs] at hrun; cases hrun
    | ok res =>
      obtain ⟨o, g1⟩ := res
      have hok1 := parseStep_NsOK E g g1 x a tn L R m tr o hlive hok hs
      have hne : a + 1 ≠ a := Nat.succ_ne_self a
      obtain ⟨_, hlive1⟩ := parseStep_frame E (a + 1) a g g1 x tn L R m tr o hne hlive hs
      cases o with
      | some err =>
        rw [parseLoop_cons_err E g g1 x m tr err rest hs] at hrun
        simp only [Except.ok.injEq, Prod.mk.injEq] at hrun
        rw [← hrun.2]; exact hok1
      | none =>
        rw [parseLoop_cons_ok E g g1 x m tr rest hs] at hrun
        exact ih g1 g' r hlive1 hok1 hrun

theorem NsOK_of_none (h : Heap) (c : CommonPtr) (hc : h.commons[c]? = none) : NsOK h c := by
  intro cv hcv; rw [hc] at hcv; cases hcv

theorem NsOK_of_empty (h : Heap) (c : CommonPtr) (cv : common) (hc : h.commons[c]? = some cv)
    (he : cv.tmpl = []) : NsOK h c := by
  intro cv' hcv'
  rw [hc] at hcv'
  have := Option.some.inj hcv'
  subst this
  rw [he]
  exact ⟨by simp [keys], fun e he => absurd he (List.not_mem_nil _)⟩

theorem AllOK_init (h : Heap) (x : TmplPtr) (xv : Template) (hx : h.templates[x]? = some xv)
    (hok : AllOK h) : AllOK (initHeap h x xv) := by
  cases hc : xv.common with
  | some c => rw [initHeap_some h x xv c hc]; exact hok
  | none =>
    intro b
    rcases Nat.lt_trichotomy b h.commons.length with hb | hb | hb
    · apply NsOK_of_same h _ b (hok b) (initHeap_nil_cold h x xv b hc hb)
      intro p pv hp hpb
      have hpx : p ≠ x := by
        intro e
        rw [e, hx] at hp
        have := Option.some.inj hp
        subst this
        rw [hc] at hpb; cases hpb
      exact ⟨pv, by rw [initHeap_nil_old h x xv p hc hpx]; exact hp, rfl, rfl⟩
    · rw [hb]
      exact NsOK_of_empty _ _ _ (initHeap_nil_cnew h x xv hc) rfl
    · apply NsOK_of_none
      apply List.getElem?_eq_none
      rw [initHeap_nil_clen h x xv hc]
      exact hb

theorem initHeap_live (h : Heap) (x : TmplPtr) (xv : Template) (hx : h.templates[x]? = some xv) :
    ∃ a tt, (initHeap h x xv).templates[x]? = some ⟨xv.name, tt, some a, xv.leftDelim, xv.rightDelim⟩ := by
  cases hc : xv.common with
  | some c =>
    rw [initHeap_some h x xv c hc]
    exact ⟨c, xv.Tree, by rw [hx, ← hc]⟩
  | none => exact ⟨h.commons.length, xv.Tree, initHeap_nil_get h x xv hx hc⟩

theorem Parse_of_Live (E : Env) (h : Heap) (x : TmplPtr) (a : CommonPtr) (tn L R text : String)
    (tt : Option TreePtr) (cv : common) (hx : h.templates[x]? = some ⟨tn, tt, some a, L, R⟩)
    (hc : h.commons[a]? = some cv) :
    Template.Parse E h x text = parseTail E h x (E.Parse tn text L R cv.parseFuncs) := by
  simp only [Template.Parse, init_of_some h x _ a hx rfl, deref, hx, getCommon, hc, parseTail]

theorem Parse_AllOK (E : Env) (h h' : Heap) (x : TmplPtr) (text : String)
    (r : Option TmplPtr × Option Error) (hok : AllOK h)
    (hrun : Template.Parse E h x text = .ok (r, h')) : AllOK h' := by
  cases hx : h.templates[x]? with
  | none => simp [Template.Parse, Template.init, deref, hx] at hrun
  | some xv =>
    rw [Parse_init E h x xv text hx] at hrun
    have hok1 := AllOK_init h x xv hx hok
    obtain ⟨a, tt, hx1⟩ := initHeap_live h x xv hx
    intro b
    by_cases hba : b = a
    · subst hba
      cases hc : (initHeap h x xv).commons[b]? with
      | none =>
        simp [Template.Parse, init_of_some _ x _ b hx1 rfl, deref, hx1, getCommon, hc] at hrun
      | some cv =>
        rw [Parse_of_Live E _ x b _ _ _ text tt cv hx1 hc] at hrun
        simp only [parseTail] at hrun
        cases hp : E.Parse xv.name text xv.leftDelim xv.rightDelim cv.parseFuncs with
        | error e =>
          simp only [hp, Except.ok.injEq, Prod.mk.injEq] at hrun
          rw [← hrun.2]; exact hok1 b
        | ok M =>
          simp only [hp] at hrun
          cases hl : parseLoop E (initHeap h x xv) x M with
          | error f => simp [hl] at hrun
          | ok res =>
            obtain ⟨o, g1⟩ := res
            have := parseLoop_NsOK E x b _ _ _ M _ g1 o ⟨⟨tt, hx1⟩, cv, hc⟩ (hok1 b) hl
            cases o with
            | none =>
              simp only [hl, Except.ok.injEq, Prod.mk.injEq] at hrun
              rw [← hrun.2]; exact this
            | some err =>
              simp only [hl, Except.ok.injEq, Prod.mk.injEq] at hrun
              rw [← hrun.2]; exact this
    · exact NsOK_of_untouched _ h' b (hok1 b) (Parse_untouched E b a _ h' x _ text r hx1 rfl hba hrun)

theorem NsOK_updCommon_funcs (h : Heap) (a b : CommonPtr) (f : common → common)
    (hf : ∀ x, (f x).tmpl = x.tmpl) (hok : NsOK h b) : NsOK (updCommon h a f) b := by
  intro cv' hcv'
  rw [updCommon_get] at hcv'
  by_cases hba : b = a
  · subst hba
    simp only [if_true] at hcv'
    cases hc : h.commons[b]? with
    | none => rw [hc] at hcv'; cases hcv'
    | some cv =>
      rw [hc] at hcv'
      simp only [Option.map_some', Option.some.injEq] at hcv'
      subst hcv'
      rw [hf cv]
      simpa using hok cv hc
  · simp only [hba, if_false] at hcv'
    simpa using hok cv' hcv'

theorem Funcs_AllOK (E : Env) (h h' : Heap) (x : TmplPtr) (fm : FuncMap) (r : TmplPtr)
    (hok : AllOK h) (hrun : Template.Funcs E h x fm = .ok (r, h')) : AllOK h' := by
  cases hx : h.templates[x]? with
  | none => simp [Template.Funcs, Template.init, deref, hx] at hrun
  | some xv =>
    rw [Funcs_init E h x xv fm hx] at hrun
    have hok1 := AllOK_init h x xv hx hok
    obtain ⟨a, tt, hx1⟩ := initHeap_live h x xv hx
    simp only [Template.Funcs, init_of_some _ x _ a hx1 rfl, getCommon, hx1] at hrun
    cases hc : (initHeap h x xv).commons[a]? with
    | none => simp [hc] at hrun
    | some cv =>
      simp only [hc] at hrun
      cases hv : addValueFuncs E cv.execFuncs fm with
      | error f => simp [hv] at hrun
      | ok ef1 =>
        simp only [hv, Except.ok.injEq, Prod.mk.injEq] at hrun
        rw [← hrun.2]
        intro b
        exact NsOK_updCommon_funcs _ a b _ (fun _ => rfl)
          (NsOK_updCommon_funcs _ a b _ (fun _ => rfl) (hok1 b))

theorem New_AllOK (h : Heap) (name : String) (hok : AllOK h) : AllOK (New h name).2 :=
  fun b => NsOK_of_untouched h _ b (hok b) (untouched_alloc b h _)

theorem tNew_AllOK (h h' : Heap) (x : TmplPtr) (name : String) (r : TmplPtr) (hok : AllOK h)
    (hrun : Template.New h x name = .ok (r, h')) : AllOK h' := by
  cases hx : h.templates[x]? with
  | none => simp [Template.New, Template.init, deref, hx] at hrun
  | some xv =>
    rw [New_init h x xv name hx] at hrun
    have hok1 := AllOK_init h x xv hx hok
    obtain ⟨a, tt, hx1⟩ := initHeap_live h x xv hx
    rw [New_of_some _ x _ a name hx1 rfl] at hrun
    simp only [Except.ok.injEq] at hrun
    have h2 : h' = (allocTmpl (initHeap h x xv)
        ⟨name, none, some a, xv.leftDelim, xv.rightDelim⟩).2 := by rw [hrun]
    rw [h2]
    exact fun b => NsOK_of_untouched _ _ b (hok1 b) (untouched_alloc b _ _)

theorem Delims_AllOK (h h' : Heap) (x : TmplPtr) (left right : String) (r : TmplPtr)
    (hok : AllOK h) (hrun : Template.Delims h x left right = .ok (r, h')) : AllOK h' := by
  cases hx : h.templates[x]? with
  | none => simp [Template.Delims, deref, hx] at hrun
  | some xv =>
    simp only [Template.Delims, deref, hx, Except.ok.injEq, Prod.mk.injEq] at hrun
    rw [← hrun.2]
    intro b
    apply NsOK_of_same h _ b (hok b) (by simp)
    intro p pv hp _
    rw [updTmpl_get]
    by_cases hpx : p = x
    · subst hpx
      simp only [if_true]
      rw [updTmpl_get]
      simp only [if_true, hp, Option.map_some']
      exact ⟨_, rfl, rfl, rfl⟩
    · simp only [hpx, if_false]
      rw [updTmpl_get]
      simp only [hpx, if_false]
      exact ⟨pv, hp, rfl, rfl⟩

theorem CL_of (h h' : Heap) (hcl : CommonsLive h) (hlen : h.commons.length ≤ h'.commons.length)
    (hget : ∀ (p : TmplPtr) (pv' : Template), h'.templates[p]? = some pv' →
      (∃ pv, h.templates[p]? = some pv ∧ pv'.common = pv.common) ∨
      (∀ c, pv'.common = some c → c < h'.commons.length)) :
    CommonsLive h' := by
  intro p pv' c hp hc
  rcases hget p pv' hp with ⟨pv, hpv, hcom⟩ | hnew
  · exact Nat.lt_of_lt_of_le (hcl p pv c hpv (by rw [← hcom]; exact hc)) hlen
  · exact hnew c hc

theorem CL_alloc (h : Heap) (v : Template) (hcl : CommonsLive h)
    (hv : ∀ c, v.common = some c → c < h.commons.length) : CommonsLive (allocTmpl h v).2 := by
  refine CL_of h (allocTmpl h v).2 hcl (Nat.le_refl _) ?_
  intro p pv' hp
  rw [allocTmpl_get] at hp
  by_cases hpl : p = h.templates.length
  · simp only [hpl, if_true, Option.some.injEq] at hp
    subst hp
    exact Or.inr hv
  · simp only [hpl, if_false] at hp
    exact Or.inl ⟨pv', hp, rfl⟩

theorem CL_updTmpl (h : Heap) (q : TmplPtr) (f : Template → Template) (hcl : CommonsLive h)
    (hf : ∀ x, (f x).common = x.common) : CommonsLive (updTmpl h q f) := by
  refine CL_of h (updTmpl h q f) hcl (by simp) ?_
  intro p pv' hp
  rw [updTmpl_get] at hp
  by_cases hpq : p = q
  · subst hpq
    simp only [if_true] at hp
    cases hq : h.templates[p]? with
    | none => rw [hq] at hp; cases hp
    | some qv =>
      rw [hq] at hp
      simp only [Option.map_some', Option.some.injEq] at hp
      subst hp
      exact Or.inl ⟨qv, rfl, hf qv⟩
  · simp only [hpq, if_false] at hp
    exact Or.inl ⟨pv', hp, rfl⟩

theorem CL_updCommon (h : Heap) (a : CommonPtr) (f : common → common) (hcl : CommonsLive h) :
    CommonsLive (updCommon h a f) := by
  intro p pv c hp hc
  simp only [updCommon_templates] at hp
  simpa using hcl p pv c hp hc

theorem CL_init (h : Heap) (x : TmplPtr) (xv : Template) (hx : h.templates[x]? = some xv)
    (hcl : CommonsLive h) : CommonsLive (initHeap h x xv) := by
  cases hc : xv.common with
  | some c => rw [initHeap_some h x xv c hc]; exact hcl
  | none =>
    refine CL_of h (initHeap h x xv) hcl (by rw [initHeap_nil_clen h x xv hc]; exact Nat.le_succ _) ?_
    intro p pv' hp
    by_cases hpx : p = x
    · subst hpx
      rw [initHeap_nil_get h p xv hx hc] at hp
      have := Option.some.inj hp
      subst this
      right
      intro c hc'
      simp only [Option.some.injEq] at hc'
      rw [initHeap_nil_clen h p xv hc, ← hc']
      exact Nat.lt_succ_self _
    · rw [initHeap_nil_old h x xv p hc hpx] at hp
      exact Or.inl ⟨pv', hp, rfl⟩

theorem madeTmpl_get_ne (g : Heap) (x : TmplPtr) (a : CommonPtr) (tn L R m : String)
    (p : TmplPtr) (hp : p ≠ (madeTmpl g x tn m a L R).1) :
    (madeTmpl g x tn m a L R).2.templates[p]? = g.templates[p]? := by
  rw [madeTmpl_fst] at hp
  unfold madeTmpl
  by_cases hm : m = tn
  · simp [hm]
  · simp only [hm, if_false] at hp
    simp only [ne_eq, hm, not_false_eq_true, if_true]
    rw [allocTmpl_get]; simp [hp]

theorem shape_CL (g g' : Heap) (x : TmplPtr) (a : CommonPtr) (tn L R m : String) (tr : TreePtr)
    (hlive : Live g x a tn L R) (hcl : CommonsLive g)
    (hshape : g' = adoptHeap (madeTmpl g x tn m a L R).2 a m (madeTmpl g x tn m a L R).1 tr L R ∨
      g' = keepHeap (madeTmpl g x tn m a L R).2 (madeTmpl g x tn m a L R).1 L R ∨
      g' = (madeTmpl g x tn m a L R).2) : CommonsLive g' := by
  obtain ⟨⟨tt, ht⟩, cv, hc⟩ := hlive
  have halt : a < g.commons.length := lt_of_get _ _ _ hc
  obtain ⟨y, hself⟩ := madeTmpl_get_self g x tn m a L R tt ht
  have hmc := madeTmpl_commons g x tn m a L R
  have hlen : g'.commons.length = g.commons.length := by
    rcases hshape with h1 | h1 | h1
    · rw [h1, adoptHeap_commons]; simp [install, hmc]
    · rw [h1, keepHeap_commons, hmc]
    · rw [h1, hmc]
  refine CL_of g g' hcl (by rw [hlen]) ?_
  intro p pv' hp
  by_cases hpq : p = (madeTmpl g x tn m a L R).1
  · right
    intro c hc'
    rw [hlen]
    have hcom : pv'.common = some a := by
      rcases hshape with h1 | h1 | h1
      · rw [h1, adoptHeap_get, if_pos hpq, hself] at hp
        simp only [Option.map_some', Option.some.injEq] at hp
        rw [← hp]
      · rw [h1, keepHeap_get, if_pos hpq, hself] at hp
        simp only [Option.map_some', Option.some.injEq] at hp
        rw [← hp]
      · rw [h1, hpq, hself] at hp
        simp only [Option.some.injEq] at hp
        rw [← hp]
    rw [hcom] at hc'
    rw [← Option.some.inj hc']; exact halt
  · left
    refine ⟨pv', ?_, rfl⟩
    rcases hshape with h1 | h1 | h1
    · rw [h1, adoptHeap_get, if_neg hpq, madeTmpl_get_ne g x a tn L R m p hpq] at hp; exact hp
    · rw [h1, keepHeap_get, if_neg hpq, madeTmpl_get_ne g x a tn L R m p hpq] at hp; exact hp
    · rw [h1, madeTmpl_get_ne g x a tn L R m p hpq] at hp; exact hp

theorem parseLoop_CL (E : Env) (x : TmplPtr) (a : CommonPtr) (tn L R : String)
    (M : List (String × TreePtr)) :
    ∀ g g' r, Live g x a tn L R → CommonsLive g → parseLoop E g x M = .ok (r, g') →
      CommonsLive g' := by
  induction M with
  | nil =>
    intro g g' r _ hcl hrun
    simp only [parseLoop, Except.ok.injEq, Prod.mk.injEq] at hrun
    rw [← hrun.2]; exact hcl
  | cons e rest ih =>
    obtain ⟨m, tr⟩ := e
    intro g g' r hlive hcl hrun
    cases hs : parseStep E g x m tr with
    | error f => rw [parseLoop_cons_fault E g x m tr f rest hs] at hrun; cases hrun
    | ok res =>
      obtain ⟨o, g1⟩ := res
      have hcl1 := shape_CL g g1 x a tn L R m tr hlive hcl
        (parseStep_shape E g g1 x a tn L R m tr o hlive hs)
      have hne : a + 1 ≠ a := Nat.succ_ne_self a
      obtain ⟨_, hlive1⟩ := parseStep_frame E (a + 1) a g g1 x tn L R m tr o hne hlive hs
      cases o with
      | some err =>
        rw [parseLoop_cons_err E g g1 x m tr err rest hs] at hrun
        simp only [Except.ok.injEq, Prod.mk.injEq] at hrun
        rw [← hrun.2]; exact hcl1
      | none =>
        rw [parseLoop_cons_ok E g g1 x m tr rest hs] at hrun
        exact ih g1 g' r hlive1 hcl1 hrun

theorem Parse_CL (E : Env) (h h' : Heap) (x : TmplPtr) (text : String)
    (r : Option TmplPtr × Option Error) (hcl : CommonsLive h)
    (hrun : Template.Parse E h x text = .ok (r, h')) : CommonsLive h' := by
  cases hx : h.templates[x]? with
  | none => simp [Template.Parse, Template.init, deref, hx] at hrun
  | some xv =>
    rw [Parse_init E h x xv text hx] at hrun
    have hcl1 := CL_init h x xv hx hcl
    obtain ⟨a, tt, hx1⟩ := initHeap_live h x xv hx
    cases hc : (initHeap h x xv).commons[a]? with
    | none =>
      simp [Template.Parse, init_of_some _ x _ a hx1 rfl, deref, hx1, getCommon, hc] at hrun
    | some cv =>
      rw [Parse_of_Live E _ x a _ _ _ text tt cv hx1 hc] at hrun
      simp only [parseTail] at hrun
      cases hp : E.Parse xv.name text xv.leftDelim xv.rightDelim cv.parseFuncs with
      | error e =>
        simp only [hp, Except.ok.injEq, Prod.mk.injEq] at hrun
        rw [← hrun.2]; exact hcl1
      | ok M =>
        simp only [hp] at hrun
        cases hl : parseLoop E (initHeap h x xv) x M with
        | error f => simp [hl] at hrun
        | ok res =>
          obtain ⟨o, g1⟩ := res
          have := parseLoop_CL E x a _ _ _ M _ g1 o ⟨⟨tt, hx1⟩, cv, hc⟩ hcl1 hl
          cases o with
          | none =>
            simp only [hl, Except.ok.injEq, Prod.mk.injEq] at hrun
            rw [← hrun.2]; exact this
          | some err =>
            simp only [hl, Except.ok.injEq, Prod.mk.injEq] at hrun
            rw [← hrun.2]; exact this

theorem New_CL (h : Heap) (name : String) (hcl : CommonsLive h) : CommonsLive (New h name).2 :=
  CL_alloc h _ hcl (fun c hc => by cases hc)

theorem tNew_CL (h h' : Heap) (x : TmplPtr) (name : String) (r : TmplPtr) (hcl : CommonsLive h)
    (hrun : Template.New h x name = .ok (r, h')) : CommonsLive h' := by
  cases hx : h.templates[x]? with
  | none => simp [Template.New, Template.init, deref, hx] at hrun
  | some xv =>
    rw [New_init h x xv name hx] at hrun
    have hcl1 := CL_init h x xv hx hcl
    obtain ⟨a, tt, hx1⟩ := initHeap_live h x xv hx
    rw [New_of_some _ x _ a name hx1 rfl] at hrun
    simp only [Except.ok.injEq] at hrun
    have h2 : h' = (allocTmpl (initHeap h x xv)
        ⟨name, none, some a, xv.leftDelim, xv.rightDelim⟩).2 := by rw [hrun]
    rw [h2]
    apply CL_alloc _ _ hcl1
    intro c hc
    exact hcl1 x _ c hx1 hc

theorem Delims_CL (h h' : Heap) (x : TmplPtr) (left right : String) (r : TmplPtr)
    (hcl : CommonsLive h) (hrun : Template.Delims h x left right = .ok (r, h')) :
    CommonsLive h' := by
  cases hx : h.templates[x]? with
  | none => simp [Template.Delims, deref, hx] at hrun
  | some xv =>
    simp only [Template.Delims, deref, hx, Except.ok.injEq, Prod.mk.injEq] at hrun
    rw [← hrun.2]
    exact CL_updTmpl _ x _ (CL_updTmpl h x _ hcl (fun _ => rfl)) (fun _ => rfl)

theorem Funcs_CL (E : Env) (h h' : Heap) (x : TmplPtr) (fm : FuncMap) (r : TmplPtr)
    (hcl : CommonsLive h) (hrun : Template.Funcs E h x fm = .ok (r, h')) : CommonsLive h' := by
  cases hx : h.templates[x]? with
  | none => simp [Template.Funcs, Template.init, deref, hx] at hrun
  | some xv =>
    rw [Funcs_init E h x xv fm hx] at hrun
    have hcl1 := CL_init h x xv hx hcl
    obtain ⟨a, tt, hx1⟩ := initHeap_live h x xv hx
    simp only [Template.Funcs, init_of_some _ x _ a hx1 rfl, getCommon, hx1] at hrun
    cases hc : (initHeap h x xv).commons[a]? with
    | none => simp [hc] at hrun
    | some cv =>
      simp only [hc] at hrun
      cases hv : addValueFuncs E cv.execFuncs fm with
      | error f => simp [hv] at hrun
      | ok ef1 =>
        simp only [hv, Except.ok.injEq, Prod.mk.injEq] at hrun
        rw [← hrun.2]
        exact CL_updCommon _ a _ (CL_updCommon _ a _ hcl1)

theorem AddParseTree_cases (h h' : Heap) (x : TmplPtr) (name : String) (tree : Option TreePtr)
    (r : Option TmplPtr × Option Error)
    (hrun : Template.AddParseTree h x name tree = .ok (r, h')) :
    ∃ xv, h.templates[x]? = some xv ∧
      (h' = initHeap h x xv ∨
        ∃ a tt cv, (initHeap h x xv).templates[x]? =
            some ⟨xv.name, tt, some a, xv.leftDelim, xv.rightDelim⟩ ∧
          (initHeap h x xv).commons[a]? = some cv ∧ mapGet cv.tmpl name = none ∧
          h' = addedHeap (initHeap h x xv) a name tree xv.leftDelim xv.rightDelim) := by
  cases hx : h.templates[x]? with
  | none => simp [Template.AddParseTree, deref, hx] at hrun
  | some xv =>
    refine ⟨xv, rfl, ?_⟩
    rw [AddParseTree_init h x xv name tree hx] at hrun
    obtain ⟨a, tt, hx1⟩ := initHeap_live h x xv hx
    cases hc : (initHeap h x xv).commons[a]? with
    | none => simp [Template.AddParseTree, deref, hx1, hc] at hrun
    | some cv =>
      cases hm : mapGet cv.tmpl name with
      | some p =>
        left
        have hl : Template.Lookup (initHeap h x xv) x name = .ok (some p) := by
          simp [Template.Lookup, deref, hx1, hc, hm]
        rw [AddParseTree_taken _ x name tree p hl] at hrun
        simp only [Except.ok.injEq, Prod.mk.injEq] at hrun
        exact hrun.2.symm
      | none =>
        right
        have := AddParseTree_free_init (initHeap h x xv) x _ a cv name tree hx1 rfl hc hm
        rw [this] at hrun
        simp only [Except.ok.injEq, Prod.mk.injEq] at hrun
        exact ⟨a, tt, cv, hx1, hc, hm, hrun.2.symm⟩

theorem AddParseTree_CL (h h' : Heap) (x : TmplPtr) (name : String) (tree : Option TreePtr)
    (r : Option TmplPtr × Option Error) (hcl : CommonsLive h)
    (hrun : Template.AddParseTree h x name tree = .ok (r, h')) : CommonsLive h' := by
  obtain ⟨xv, hx, hcase⟩ := AddParseTree_cases h h' x name tree r hrun
  have hcl1 := CL_init h x xv hx hcl
  rcases hcase with h1 | ⟨a, tt, cv, hx1, hc, _, h1⟩
  · rw [h1]; exact hcl1
  · rw [h1]
    simp only [addedHeap]
    apply CL_updCommon
    refine CL_updTmpl _ _ _ ?_ (fun _ => rfl)
    apply CL_alloc _ _ hcl1
    intro c hc'
    simp only [Option.some.injEq] at hc'
    rw [← hc']; exact lt_of_get _ _ _ hc

theorem AddParseTree_AllOK (h h' : Heap) (x : TmplPtr) (name : String) (tree : Option TreePtr)
    (r : Option TmplPtr × Option Error) (hok : AllOK h)
    (hrun : Template.AddParseTree h x name tree = .ok (r, h')) : AllOK h' := by
  obtain ⟨xv, hx, hcase⟩ := AddParseTree_cases h h' x name tree r hrun
  have hok1 := AllOK_init h x xv hx hok
  rcases hcase with h1 | ⟨a, tt, cv, hx1, hc, _, h1⟩
  · rw [h1]; exact hok1
  · obtain ⟨hg, hd, hold, hcold⟩ := addedHeap_spec (initHeap h x xv) x _ a cv name tree hx1 rfl hc
    simp only [] at hg hd hold hcold
    rw [h1]
    intro b
    by_cases hba : b = a
    · subst hba
      obtain ⟨_, _, _, hcnew⟩ := getCommon_parts _ x b _ hg
      obtain ⟨hnd, hall⟩ := hok1 b cv hc
      intro cv' hcv'
      rw [hcnew] at hcv'
      have := Option.some.inj hcv'
      subst this
      refine ⟨keys_mapSet_nodup cv.tmpl name _ hnd, ?_⟩
      intro e he
      rcases mem_mapSet _ _ _ _ he with h2 | h2
      · obtain ⟨pv, hp, hpc, hpn⟩ := hall e h2
        exact ⟨pv, by rw [hold e.2 (lt_of_get _ _ _ hp)]; exact hp, hpc, hpn⟩
      · subst h2
        exact ⟨_, get_of_deref _ _ _ hd, rfl, rfl⟩
    · apply NsOK_of_same _ _ b (hok1 b) (hcold b hba)
      intro p pv hp _
      exact ⟨pv, by rw [hold p (lt_of_get _ _ _ hp)]; exact hp, rfl, rfl⟩

theorem cloneStart_CL (h : Heap) (tv : Template) (hcl : CommonsLive h) :
    CommonsLive (cloneStart h tv) := by
  simp only [cloneStart]
  apply CL_updCommon
  refine CL_of h _ hcl (by simp) ?_
  intro p pv' hp
  rw [updTmpl_get] at hp
  by_cases hpl : p = h.templates.length
  · right
    simp only [hpl, if_true] at hp
    have hn := allocTmpl_get h { tv with common := none } h.templates.length
    simp only [if_true] at hn
    simp only [hn, Option.map_some', Option.some.injEq] at hp
    subst hp
    intro c hc
    simp only [Option.some.injEq] at hc
    simp [← hc]
  · left
    simp only [hpl, if_false] at hp
    have hn := allocTmpl_get h { tv with common := none } p
    simp only [hpl, if_false] at hn
    exact ⟨pv', by rw [← hn]; exact hp, rfl⟩

theorem cloneTmpls_CL (tn : String) (nt : TmplPtr) (l : List (String × TmplPtr)) :
    ∀ g g', CommonsLive g → cloneTmpls g tn nt l = .ok g' → CommonsLive g' := by
  induction l with
  | nil =>
    intro g g' hcl hrun
    simp only [cloneTmpls, Except.ok.injEq] at hrun
    rw [← hrun]; exact hcl
  | cons x rest ih =>
    obtain ⟨k0, v0⟩ := x
    intro g g' hcl hrun
    by_cases h0 : k0 = tn
    · simp only [cloneTmpls, h0, if_true] at hrun
      exact ih g g' hcl hrun
    · simp only [cloneTmpls, h0, if_false] at hrun
      cases hg : getCommon g nt with
      | error f => rw [hg] at hrun; cases hrun
      | ok res =>
        obtain ⟨ntc, cvn⟩ := res
        rw [hg] at hrun
        simp only at hrun
        obtain ⟨_, _, _, hcn⟩ := getCommon_parts g nt ntc cvn hg
        cases hv : g.templates[v0]? with
        | none => simp [Template.copy, deref, hv] at hrun
        | some pv0 =>
          rw [copy_eq g v0 pv0 (some ntc) hv] at hrun
          simp only at hrun
          apply ih _ g' _ hrun
          apply CL_updCommon
          apply CL_alloc _ _ hcl
          intro c hc
          simp only [Option.some.injEq] at hc
          rw [← hc]; exact lt_of_get _ _ _ hcn

theorem Clone_cases (h h' : Heap) (t : TmplPtr) (r : TmplPtr × Option Error)
    (hcl : CommonsLive h) (hrun : Template.Clone h t = .ok (r, h')) :
    ∃ tv c cv h4, h.templates[t]? = some tv ∧ tv.common = some c ∧ h.commons[c]? = some cv ∧
      cloneTmpls (cloneStart h tv) tv.name h.templates.length cv.tmpl = .ok h4 ∧
      r = (h.templates.length, none) ∧
      h' = updCommon
        (updCommon h4 h.commons.length
          (fun x => { x with parseFuncs := copyFuncs x.parseFuncs cv.parseFuncs }))
        h.commons.length (fun x => { x with execFuncs := copyFuncs x.execFuncs cv.execFuncs }) := by
  cases ht : h.templates[t]? with
  | none => simp [Template.Clone, Template.copy, deref, ht] at hrun
  | some tv =>
    cases htc : tv.common with
    | none => rw [Clone_of_nil h t tv ht htc] at hrun; cases hrun
    | some c =>
      have hclt := hcl t tv c ht htc
      obtain ⟨cv, hc⟩ : ∃ cv, h.commons[c]? = some cv :=
        ⟨h.commons[c], List.getElem?_eq_getElem hclt⟩
      rw [cloneStart_eq h t tv c cv ht htc hc] at hrun
      cases h4e : cloneTmpls (cloneStart h tv) tv.name h.templates.length cv.tmpl with
      | error f => rw [h4e] at hrun; cases hrun
      | ok h4 =>
        rw [h4e] at hrun
        simp only [Except.ok.injEq, Prod.mk.injEq] at hrun
        exact ⟨tv, c, cv, h4, rfl, htc, hc, h4e, hrun.1.symm, hrun.2.symm⟩

theorem Clone_CL (h h' : Heap) (t : TmplPtr) (r : TmplPtr × Option Error)
    (hcl : CommonsLive h) (hrun : Template.Clone h t = .ok (r, h')) : CommonsLive h' := by
  obtain ⟨tv, c, cv, h4, _, _, _, h4e, _, rfl⟩ := Clone_cases h h' t r hcl hrun
  exact CL_updCommon _ _ _ (CL_updCommon _ _ _
    (cloneTmpls_CL tv.name h.templates.length cv.tmpl _ h4 (cloneStart_CL h tv hcl) h4e))

theorem Clone_AllOK (h h' : Heap) (t : TmplPtr) (r : TmplPtr × Option Error)
    (hok : AllOK h) (hcl : CommonsLive h) (hrun : Template.Clone h t = .ok (r, h')) :
    AllOK h' := by
  obtain ⟨tv, c, cv, h4, ht, htc, hc, h4e, _, hh'⟩ := Clone_cases h h' t r hcl hrun
  obtain ⟨hnd, hall⟩ := hok c cv hc
  have hlive : ∀ e ∈ cv.tmpl, e.2 < h.templates.length := by
    intro e he
    obtain ⟨pv, hp, _⟩ := hall e he
    exact lt_of_get _ _ _ hp
  obtain ⟨h2, cv', hrun2, hold, hcold, hroot, hcnew, _, _, hmem, hnd', hrootreg, hnone, hcopied⟩ :=
    Clone_spec h t tv c cv ht htc hc hlive
  rw [hrun] at hrun2
  simp only [Except.ok.injEq, Prod.mk.injEq] at hrun2
  obtain ⟨_, rfl⟩ := hrun2
  -- the heap has one namespace more
  have hlen' : h'.commons.length = h.commons.length + 1 := by
    have hlive' : ∀ e ∈ cv.tmpl, e.2 < (cloneStart h tv).templates.length := by
      intro e he
      rw [cloneStart_length]; exact Nat.lt_succ_of_lt (hlive e he)
    obtain ⟨g2, cvg2, hrun3, hcln⟩ := cloneTmpls_spec tv.name h.templates.length h.commons.length
      cv.tmpl (cloneStart h tv) _ _ (cloneStart_root h tv) rfl (cloneStart_cnew h tv) hlive'
    rw [h4e] at hrun3
    have := Except.ok.inj hrun3
    subst this
    rw [hh']
    simp only [updCommon_length, hcln.clen]
    simp [cloneStart]
  intro b
  rcases Nat.lt_trichotomy b h.commons.length with hb | hb | hb
  · apply NsOK_of_same h h' b (hok b) (hcold b hb)
    intro p pv hp _
    exact ⟨pv, by rw [hold p (lt_of_get _ _ _ hp)]; exact hp, rfl, rfl⟩
  · rw [hb]
    intro cv2 hcv2
    rw [hcnew] at hcv2
    have := Option.some.inj hcv2
    subst this
    refine ⟨hnd', ?_⟩
    intro e he
    obtain ⟨_, pv', hp', hc'⟩ := hmem e he
    refine ⟨pv', hp', hc', ?_⟩
    have hk := mapGet_of_mem cv'.tmpl e.1 e.2 hnd' he
    by_cases hktn : e.1 = tv.name
    · rw [hktn, hrootreg] at hk
      have := Option.some.inj hk
      rw [← this, hroot] at hp'
      have := Option.some.inj hp'
      rw [← this, hktn]
    · cases hm : mapGet cv.tmpl e.1 with
      | none => rw [hnone e.1 hktn hm] at hk; cases hk
      | some v =>
        obtain ⟨pv, hpv, p', hp1, _, hp3⟩ := hcopied hnd e.1 v hm hktn
        rw [hk] at hp1
        have := Option.some.inj hp1
        subst this
        rw [hp'] at hp3
        have := Option.some.inj hp3
        subst this
        obtain ⟨pv0, hpv0, _, hname⟩ := hall (e.1, v) (mapGet_mem _ _ _ hm)
        simp only at hpv0 hname
        rw [hpv] at hpv0
        have := Option.some.inj hpv0
        subst this
        exact hname
  · apply NsOK_of_none
    apply List.getElem?_eq_none
    rw [hlen']
    exact hb

theorem callHeap_sound (E : Env) (h h' : Heap) (c : Call) (hok : AllOK h) (hcl : CommonsLive h)
    (hrun : callHeap E h c = .ok h') : AllOK h' ∧ CommonsLive h' := by
  cases c with
  | new name =>
    simp only [callHeap, Except.ok.injEq] at hrun
    rw [← hrun]
    exact ⟨New_AllOK h name hok, New_CL h name hcl⟩
  | tNew t name =>
    simp only [callHeap] at hrun
    cases hr : Template.New h t name with
    | error f => rw [hr] at hrun; cases hrun
    | ok res =>
      obtain ⟨r, g⟩ := res
      rw [hr] at hrun
      have := Except.ok.inj hrun
      subst this
      exact ⟨tNew_AllOK h g t name r hok hr, tNew_CL h g t name r hcl hr⟩
  | parse t text =>
    simp only [callHeap] at hrun
    cases hr : Template.Parse E h t text with
    | error f => rw [hr] at hrun; cases hrun
    | ok res =>
      obtain ⟨r, g⟩ := res
      rw [hr] at hrun
      have := Except.ok.inj hrun
      subst this
      exact ⟨Parse_AllOK E h g t text r hok hr, Parse_CL E h g t text r hcl hr⟩
  | addParseTree t name tree =>
    simp only [callHeap] at hrun
    cases hr : Template.AddParseTree h t name tree with
    | error f => rw [hr] at hrun; cases hrun
    | ok res =>
      obtain ⟨r, g⟩ := res
      rw [hr] at hrun
      have := Except.ok.inj hrun
      subst this
      exact ⟨AddParseTree_AllOK h g t name tree r hok hr, AddParseTree_CL h g t name tree r hcl hr⟩
  | clone t =>
    simp only [callHeap] at hrun
    cases hr : Template.Clone h t with
    | error f => rw [hr] at hrun; cases hrun
    | ok res =>
      obtain ⟨r, g⟩ := res
      rw [hr] at hrun
      have := Except.ok.inj hrun
      subst this
      exact ⟨Clone_AllOK h g t r hok hcl hr, Clone_CL h g t r hcl hr⟩
  | funcs t fm =>
    simp only [callHeap] at hrun
    cases hr : Template.Funcs E h t fm with
    | error f => rw [hr] at hrun; cases hrun
    | ok res =>
      obtain ⟨r, g⟩ := res
      rw [hr] at hrun
      have := Except.ok.inj hrun
      subst this
      exact ⟨Funcs_AllOK E h g t fm r hok hr, Funcs_CL E h g t fm r hcl hr⟩
  | delims t left right =>
    simp only [callHeap] at hrun
    cases hr : Template.Delims h t left right with
    | error f => rw [hr] at hrun; cases hrun
    | ok res =>
      obtain ⟨r, g⟩ := res
      rw [hr] at hrun
      have := Except.ok.inj hrun
      subst this
      exact ⟨Delims_AllOK h g t left right r hok hr, Delims_CL h g t left right r hcl hr⟩

theorem runCalls_sound (E : Env) (calls : List Call) :
    ∀ h h', AllOK h → CommonsLive h → runCalls E h calls = .ok h' →
      AllOK h' ∧ CommonsLive h' := by
  induction calls with
  | nil =>
    intro h h' hok hcl hrun
    simp only [runCalls, Except.ok.injEq] at hrun
    rw [← hrun]; exact ⟨hok, hcl⟩
  | cons c rest ih =>
    intro h h' hok hcl hrun
    simp only [runCalls] at hrun
    cases hc : callHeap E h c with
    | error f => rw [hc] at hrun; cases hrun
    | ok g =>
      rw [hc] at hrun
      obtain ⟨hok1, hcl1⟩ := callHeap_sound E h g c hok hcl hc
      exact ih g h' hok1 hcl1 hrun

theorem empty_sound : AllOK ⟨[], []⟩ ∧ CommonsLive ⟨[], []⟩ :=
  ⟨fun c => NsOK_of_none _ c rfl, fun p pv c hp _ => by simp at hp⟩

/-- Claim C15. In every heap reached from the empty heap by a sequence of calls of `New`,
`New` on a handle, `Parse`, `AddParseTree`, `Clone`, `Funcs` and `Delims`, every handle
stored in the templates map of a namespace is live and has that namespace as its own;
hence every handle returned by `Templates(t)` has the namespace of `t`. -/
theorem namespace_membership (E : Env) (calls : List Call) (h : Heap)
    (hrun : runCalls E ⟨[], []⟩ calls = .ok h) :
    (∀ (c : CommonPtr) (cv : common) (e : String × TmplPtr), h.commons[c]? = some cv → e ∈ cv.tmpl →
      ∃ pv, deref h e.2 = .ok pv ∧ pv.common = some c) ∧
    (∀ t tv ps p, deref h t = .ok tv → Template.Templates h t = .ok ps → p ∈ ps →
      ∃ pv, deref h p = .ok pv ∧ pv.common = tv.common) := by
  obtain ⟨hok, _⟩ := runCalls_sound E calls _ h empty_sound.1 empty_sound.2 hrun
  have hraw : ∀ (c : CommonPtr) (cv : common) (e : String × TmplPtr), h.commons[c]? = some cv → e ∈ cv.tmpl →
      ∃ pv, deref h e.2 = .ok pv ∧ pv.common = some c := by
    intro c cv e hc he
    obtain ⟨pv, hp, hpc, _⟩ := (hok c cv hc).2 e he
    exact ⟨pv, deref_eq h _ pv hp, hpc⟩
  refine ⟨hraw, ?_⟩
  intro t tv ps p ht hts hp
  have ht' := get_of_deref h t tv ht
  simp only [Template.Templates, deref, ht'] at hts
  cases htc : tv.common with
  | none =>
    simp only [htc, Except.ok.injEq] at hts
    rw [← hts] at hp; cases hp
  | some c =>
    simp only [htc] at hts
    cases hc : h.commons[c]? with
    | none => rw [hc] at hts; cases hts
    | some cv =>
      simp only [hc, Except.ok.injEq] at hts
      rw [← hts] at hp
      obtain ⟨e, he, rfl⟩ := List.mem_map.mp hp
      exact hraw c cv e hc he

theorem namespace_membership_witness :
    (∀ (c : CommonPtr) (cv : common) (e : String × TmplPtr),
      exHeap.commons[c]? = some cv → e ∈ cv.tmpl →
      ∃ pv, deref exHeap e.2 = .ok pv ∧ pv.common = some c) ∧
    (∀ t tv ps p, deref exHeap t = .ok tv → Template.Templates exHeap t = .ok ps → p ∈ ps →
      ∃ pv, deref exHeap p = .ok pv ∧ pv.common = tv.common) :=
  namespace_membership exEnv [.new "page", .parse 0 "a"] exHeap rfl

/-- Claim C20. In every heap reached from the empty heap by a sequence of calls of `New`,
`New` on a handle, `Parse`, `AddParseTree`, `Clone`, `Funcs` and `Delims`, every entry of
the templates map of a namespace is keyed by the name of the handle it holds; hence
`Lookup(k)`, when it is not nil, returns a handle whose `Name` is `k`. -/
theorem key_equals_name (E : Env) (calls : List Call) (h : Heap)
    (hrun : runCalls E ⟨[], []⟩ calls = .ok h) :
    (∀ (c : CommonPtr) (cv : common) (e : String × TmplPtr), h.commons[c]? = some cv → e ∈ cv.tmpl →
      ∃ pv, deref h e.2 = .ok pv ∧ pv.name = e.1) ∧
    (∀ t k p, Template.Lookup h t k = .ok (some p) → Template.Name h p = .ok k) := by
  obtain ⟨hok, _⟩ := runCalls_sound E calls _ h empty_sound.1 empty_sound.2 hrun
  have hraw : ∀ (c : CommonPtr) (cv : common) (e : String × TmplPtr), h.commons[c]? = some cv → e ∈ cv.tmpl →
      ∃ pv, deref h e.2 = .ok pv ∧ pv.name = e.1 := by
    intro c cv e hc he
    obtain ⟨pv, hp, _, hpn⟩ := (hok c cv hc).2 e he
    exact ⟨pv, deref_eq h _ pv hp, hpn⟩
  refine ⟨hraw, ?_⟩
  intro t k p hl
  simp only [Template.Lookup, deref] at hl
  cases ht : h.templates[t]? with
  | none => simp [ht] at hl
  | some tv =>
    simp only [ht] at hl
    cases htc : tv.common with
    | none => simp [htc] at hl
    | some c =>
      simp only [htc] at hl
      cases hc : h.commons[c]? with
      | none => simp [hc] at hl
      | some cv =>
        simp only [hc, Except.ok.injEq] at hl
        obtain ⟨pv, hp, hpn⟩ := hraw c cv (k, p) hc (mapGet_mem _ _ _ hl)
        simp only at hp hpn
        simp [Template.Name, hp, hpn]

theorem key_equals_name_witness :
    (∀ (c : CommonPtr) (cv : common) (e : String × TmplPtr),
      exHeap.commons[c]? = some cv → e ∈ cv.tmpl →
      ∃ pv, deref exHeap e.2 = .ok pv ∧ pv.name = e.1) ∧
    (∀ t k p, Template.Lookup exHeap t k = .ok (some p) → Template.Name exHeap p = .ok k) :=
  key_equals_name exEnv [.new "page", .parse 0 "a"] exHeap rfl

theorem templateNames_eq_keys (h : Heap) (t : TmplPtr) (c : CommonPtr) (cv : common)
    (hg : getCommon h t = .ok (c, cv))
    (hall : ∀ e ∈ cv.tmpl, ∃ pv, h.templates[e.2]? = some pv ∧ pv.name = e.1) :
    templateNames h t = keys cv.tmpl := by
  obtain ⟨tv, ht, htc, hc⟩ := getCommon_parts h t c cv hg
  simp only [templateNames, Template.Templates, deref, ht, htc, hc]
  have hgen : ∀ l : List (String × TmplPtr),
      (∀ e ∈ l, ∃ pv, h.templates[e.2]? = some pv ∧ pv.name = e.1) →
      (l.map Prod.snd).filterMap (fun p =>
        match (match h.templates[p]? with
          | some tv => (Except.ok tv : Except Fault Template)
          | none => Except.error Fault.nilDeref) with
        | .ok pv => some pv.name
        | .error _ => none) = keys l := by
    intro l
    induction l with
    | nil => intro _; rfl
    | cons x rest ih =>
      intro hl
      obtain ⟨pv, hp, hn⟩ := hl x (List.mem_cons_self _ _)
      have := ih (fun e he => hl e (List.mem_cons_of_mem _ he))
      simp only [List.map_cons, List.filterMap_cons, hp, this, keys, hn]
  exact hgen cv.tmpl hall

theorem mem_keys_iff_mapGet {β : Type} (m : List (String × β)) (k : String) :
    k ∈ keys m ↔ ∃ v, mapGet m k = some v := by
  constructor
  · intro hk
    induction m with
    | nil => simp [keys] at hk
    | cons x rest ih =>
      obtain ⟨k0, v0⟩ := x
      by_cases h0 : k0 = k
      · exact ⟨v0, by simp [mapGet, h0]⟩
      · have hk' : k ∈ keys rest := by
          have : k = k0 ∨ k ∈ keys rest := by simpa [keys] using hk
          rcases this with e | e
          · exact absurd e.symm h0
          · exact e
        obtain ⟨v, hv⟩ := ih hk'
        exact ⟨v, by simp [mapGet, h0, hv]⟩
  · rintro ⟨v, hv⟩
    exact mem_keys_of_mem (mapGet_mem m k v hv)

theorem view_none_iff {pf : FuncMap} {ef : List (String × FuncVal)} (h : Heap) (t : TmplPtr)
    (c : CommonPtr) (tn L R : String) (cv : common) (hinv : Inv h t c tn L R pf ef)
    (hc : h.commons[c]? = some cv) (k : String) :
    view h c k = none ↔ mapGet cv.tmpl k = none := by
  have hra : regAt h c k = mapGet cv.tmpl k := by simp [regAt, hc]
  unfold view
  rw [hra]
  cases hm : mapGet cv.tmpl k with
  | none => simp
  | some p =>
    have hplt := (hinv.reg k p (by rw [hra, hm])).1
    simp [List.getElem?_eq_getElem hplt]

/-- The first `Parse` on a fresh handle, with what `Templates` then lists. -/
theorem first_parse_names (E : Env) (h0 : Heap) (name text : String)
    (M : List (String × TreePtr))
    (hp : E.Parse name text "" "" [] = .ok M) (hnd : (keys M).Nodup) :
    ∃ h1 c ef, Template.Parse E (New h0 name).2 (New h0 name).1 text =
        .ok ((some (New h0 name).1, none), h1) ∧
      Inv h1 (New h0 name).1 c name "" "" [] ef ∧
      (∀ k, k ∉ keys M → view h1 c k = none) ∧
      (∀ k tr, (k, tr) ∈ M → ∃ q, view h1 c k = some (q, ⟨k, some tr, some c, "", ""⟩) ∧
        (k = name → q = (New h0 name).1)) ∧
      (templateNames h1 (New h0 name).1).Perm (keys M) := by
  have hget := New_get h0 name
  have hwf := New_WF h0 name
  obtain ⟨hinv, hlook, _, _⟩ := init_inv _ _ _ hwf hget
  have hpf : parseFuncsOf (New h0 name).2 (New h0 name).1 = [] := by
    simp [parseFuncsOf, getCommon, hget]
  rw [hpf] at hinv
  simp only [] at hinv
  obtain ⟨h1, c', ef', hrun, _, _, _⟩ := first_parse E h0 name text M hp hnd
  have hparse := Parse_of_WF E _ _ _ text hwf hget
  rw [hpf] at hparse
  simp only [] at hparse
  rw [hp, hrun] at hparse
  obtain ⟨hloop, _⟩ := parseTail_ok_none E _ h1 _ M _ hparse.symm
  obtain ⟨hinv1, _, hout, hin⟩ := parseLoop_ok E _ _ _ _ _ M _ h1 hinv hnd hloop
  have hnone : ∀ k, view (initHeap (New h0 name).2 (New h0 name).1 ⟨name, none, none, "", ""⟩)
      (initCommon (New h0 name).2 ⟨name, none, none, "", ""⟩) k = none := by
    intro k
    have h1' := hlook k
    have h2 : lookupView (New h0 name).2 (New h0 name).1 k = .ok none := by
      simp [lookupView, Template.Lookup, deref, hget]
    rw [h2] at h1'
    exact (Except.ok.inj h1').symm
  have hviews : ∀ k tr, (k, tr) ∈ M → ∃ q, view h1
      (initCommon (New h0 name).2 ⟨name, none, none, "", ""⟩) k =
        some (q, ⟨k, some tr, some (initCommon (New h0 name).2 ⟨name, none, none, "", ""⟩), "", ""⟩) ∧
      (k = name → q = (New h0 name).1) := by
    intro k tr hk
    rcases hin k tr hk with ⟨_, q, hq, hqb⟩ | ⟨hvd, _⟩
    · refine ⟨q, hq, ?_⟩
      intro hkn
      simpa [hkn] using hqb
    · rw [verdict_of_none E _ _ k tr (hnone k)] at hvd; cases hvd
  -- the namespace after the call is well formed
  have hcom0 : (initHeap (New h0 name).2 (New h0 name).1 ⟨name, none, none, "", ""⟩).commons[
      initCommon (New h0 name).2 ⟨name, none, none, "", ""⟩]? = some ⟨[], [], []⟩ :=
    initHeap_nil_cnew _ _ _ rfl
  obtain ⟨tt0, ht0⟩ := hinv.ht
  have hnsok := parseLoop_NsOK E _ _ name "" "" M _ h1 none ⟨⟨tt0, ht0⟩, ⟨[], [], []⟩, hcom0⟩
    (NsOK_of_empty _ _ _ hcom0 rfl) hloop
  obtain ⟨cv1, hcv1⟩ : ∃ cv1, h1.commons[initCommon (New h0 name).2 ⟨name, none, none, "", ""⟩]? = some cv1 :=
    ⟨_, List.getElem?_eq_getElem hinv1.hc⟩
  obtain ⟨hndk, hall⟩ := hnsok cv1 hcv1
  obtain ⟨tt1, ht1⟩ := hinv1.ht
  have hg1 : getCommon h1 (New h0 name).1 =
      .ok (initCommon (New h0 name).2 ⟨name, none, none, "", ""⟩, cv1) := by
    simp [getCommon, ht1, hcv1]
  refine ⟨h1, _, _, hrun, hinv1, fun k hk => by rw [hout k hk, hnone k], hviews, ?_⟩
  rw [templateNames_eq_keys h1 _ _ cv1 hg1
    (fun e he => by obtain ⟨pv, hp1, _, hp3⟩ := hall e he; exact ⟨pv, hp1, hp3⟩)]
  rw [List.perm_ext_iff_of_nodup hndk hnd]
  intro k
  rw [mem_keys_iff_mapGet]
  constructor
  · rintro ⟨v, hv⟩
    by_contra hk
    have h2 := (view_none_iff h1 _ _ _ _ _ cv1 hinv1 hcv1 k).mp (by rw [hout k hk, hnone k])
    rw [hv] at h2; cases h2
  · intro hk
    obtain ⟨tr, hmem⟩ := mem_of_mem_keys hk
    obtain ⟨q, hq, _⟩ := hviews k tr hmem
    cases hm : mapGet cv1.tmpl k with
    | some v => exact ⟨v, rfl⟩
    | none =>
      have := (view_none_iff h1 _ _ _ _ _ cv1 hinv1 hcv1 k).mpr hm
      rw [hq] at this; cases this

/-- Claim C11, as the code has it. On a fresh handle named `name`, when the parser answers
the first text with the mapping `M` (distinct keys), `Parse` succeeds and the names of the
handles that `Templates` then returns are exactly the keys of `M`, each once. When a second
text gives a mapping `M2` that defines as non-empty a name `n` that `M` defined as non-empty,
the second `Parse` fails with a redefinition error; the name `m` in the error is one that
both mappings define as non-empty, so it is `n` when `n` is the only such name; and a root
that the first text defined as non-empty keeps its tree. -/
theorem first_parse_enumeration (E : Env) (h0 : Heap) (name text text2 n : String)
    (M M2 : List (String × TreePtr)) (T1 T2 : TreePtr)
    (hp : E.Parse name text "" "" [] = .ok M) (hnd : (keys M).Nodup)
    (hp2 : E.Parse name text2 "" "" [] = .ok M2) (hnd2 : (keys M2).Nodup)
    (hm1 : (n, T1) ∈ M) (hne1 : E.IsEmptyTree T1 = false)
    (hm2 : (n, T2) ∈ M2) (hne2 : E.IsEmptyTree T2 = false) :
    ∃ h1, Template.Parse E (New h0 name).2 (New h0 name).1 text =
        .ok ((some (New h0 name).1, none), h1) ∧
      (templateNames h1 (New h0 name).1).Perm (keys M) ∧
      ∃ h2 m, Template.Parse E h1 (New h0 name).1 text2 =
          .ok ((none, some (.errorf "nifi: redefinition of nifi %q" m)), h2) ∧
        (∃ a b, (m, a) ∈ M ∧ (m, b) ∈ M2 ∧ E.IsEmptyTree a = false ∧ E.IsEmptyTree b = false) ∧
        ((∀ k a b, (k, a) ∈ M → (k, b) ∈ M2 → E.IsEmptyTree a = false →
            E.IsEmptyTree b = false → k = n) → m = n) ∧
        ∀ Tr, (name, Tr) ∈ M → E.IsEmptyTree Tr = false →
          ∃ c, deref h1 (New h0 name).1 = .ok ⟨name, some Tr, some c, "", ""⟩ ∧
            deref h2 (New h0 name).1 = .ok ⟨name, some Tr, some c, "", ""⟩ := by
  obtain ⟨h1, c, ef, hrun, hinv1, hout, hviews, hperm⟩ := first_parse_names E h0 name text M hp hnd
  refine ⟨h1, hrun, hperm, ?_⟩
  -- the verdict of the second call on each entry
  have hnf : ∀ k tr, (k, tr) ∈ M2 → verdict E h1 c k tr ≠ .fault := by
    intro k tr _
    by_cases hk : k ∈ keys M
    · obtain ⟨a, ha⟩ := mem_of_mem_keys hk
      obtain ⟨q, hq, _⟩ := hviews k a ha
      rw [verdict_of_tree E h1 c k tr a q _ hq rfl]
      split
      · simp
      · split <;> simp
    · rw [verdict_of_none E h1 c k tr (hout k hk)]; simp
  have hredef : ∀ k tr, (k, tr) ∈ M2 → verdict E h1 c k tr = .redefinition →
      ∃ a, (k, a) ∈ M ∧ E.IsEmptyTree a = false ∧ E.IsEmptyTree tr = false := by
    intro k tr _ hv
    by_cases hk : k ∈ keys M
    · obtain ⟨a, ha⟩ := mem_of_mem_keys hk
      obtain ⟨q, hq, _⟩ := hviews k a ha
      rw [verdict_of_tree E h1 c k tr a q _ hq rfl] at hv
      refine ⟨a, ha, ?_, ?_⟩
      · cases hea : E.IsEmptyTree a with
        | false => rfl
        | true => cases hetr : E.IsEmptyTree tr <;> simp [hea, hetr] at hv
      · cases hetr : E.IsEmptyTree tr with
        | false => rfl
        | true => simp [hetr] at hv
    · rw [verdict_of_none E h1 c k tr (hout k hk)] at hv; cases hv
  have hvn : verdict E h1 c n T2 = .redefinition := by
    obtain ⟨q, hq, _⟩ := hviews n T1 hm1
    rw [verdict_of_tree E h1 c n T2 T1 q _ hq rfl]
    simp [hne1, hne2]
  obtain ⟨r, h2, hloop⟩ := parseLoop_run E _ c name "" "" M2 h1 hinv1 hnd2 hnf
  have hparse := Parse_of_Inv E h1 _ c name "" "" text2 hinv1
  rw [hp2] at hparse
  cases r with
  | none =>
    obtain ⟨_, _, _, hin⟩ := parseLoop_ok E _ c name "" "" M2 h1 h2 hinv1 hnd2 hloop
    rcases hin n T2 hm2 with ⟨hv, _⟩ | ⟨hv, _⟩ <;> rw [hvn] at hv <;> cases hv
  | some e =>
    obtain ⟨_, _, hout2, m, tr, hmem, he, hv, _, hin2⟩ :=
      parseLoop_err E _ c name "" "" M2 h1 h2 e hinv1 hnd2 hloop
    obtain ⟨a, ha, hea, hetr⟩ := hredef m tr hmem hv
    refine ⟨h2, m, ?_, ⟨a, tr, ha, hmem, hea, hetr⟩, fun honly => honly m a tr ha hmem hea hetr, ?_⟩
    · rw [hparse, ← he]
      simp only [parseTail, hloop]
    · intro Tr hTr hTre
      obtain ⟨q, hq, hqt⟩ := hviews name Tr hTr
      have hqe := hqt rfl
      subst hqe
      have hsame : view h2 c name = view h1 c name := by
        by_cases hk : name ∈ keys M2
        · obtain ⟨b, hb⟩ := mem_of_mem_keys hk
          rcases hin2 name b hb with hs | ⟨hva, _⟩
          · exact hs
          · rw [verdict_of_tree E h1 c name b Tr _ _ hq rfl] at hva
            cases heb : E.IsEmptyTree b <;> simp [heb, hTre] at hva
        · exact hout2 name hk
      have hq2 : view h2 c name =
          some ((New h0 name).1, ⟨name, some Tr, some c, "", ""⟩) := by rw [hsame]; exact hq
      exact ⟨c, deref_eq _ _ _ (view_lt h1 c name _ _ hq).2,
        deref_eq _ _ _ (view_lt h2 c name _ _ hq2).2⟩

theorem first_parse_enumeration_witness :
    ∃ h1, Template.Parse exEnv2 (New ⟨[], []⟩ "page").2 (New ⟨[], []⟩ "page").1 "second" =
        .ok ((some (New ⟨[], []⟩ "page").1, none), h1) ∧
      (templateNames h1 (New ⟨[], []⟩ "page").1).Perm (keys [("page", 7), ("header", 9)]) ∧
      ∃ h2 m, Template.Parse exEnv2 h1 (New ⟨[], []⟩ "page").1 "second" =
          .ok ((none, some (.errorf "nifi: redefinition of nifi %q" m)), h2) ∧
        (∃ a b, (m, a) ∈ [("page", 7), ("header", 9)] ∧ (m, b) ∈ [("page", 7), ("header", 9)] ∧
          exEnv2.IsEmptyTree a = false ∧ exEnv2.IsEmptyTree b = false) ∧
        ((∀ k a b, (k, a) ∈ [("page", 7), ("header", 9)] → (k, b) ∈ [("page", 7), ("header", 9)] →
            exEnv2.IsEmptyTree a = false → exEnv2.IsEmptyTree b = false → k = "header") →
          m = "header") ∧
        ∀ Tr, ("page", Tr) ∈ [("page", 7), ("header", 9)] → exEnv2.IsEmptyTree Tr = false →
          ∃ c, deref h1 (New ⟨[], []⟩ "page").1 = .ok ⟨"page", some Tr, some c, "", ""⟩ ∧
            deref h2 (New ⟨[], []⟩ "page").1 = .ok ⟨"page", some Tr, some c, "", ""⟩ :=
  first_parse_enumeration exEnv2 ⟨[], []⟩ "page" "second" "second" "header"
    [("page", 7), ("header", 9)] [("page", 7), ("header", 9)] 9 9
    rfl (by simp [keys]) rfl (by simp [keys]) (by simp) rfl (by simp) rfl

/-- Counterexample to claim C11 as stated: on a fresh handle "page", a first text defines
"page" as empty and "header" as non-empty and `Templates` lists the two names; a second text
defines both as non-empty. The second `Parse` fails with a redefinition error that names
"header", and the tree of the root has changed from 6 to 7. -/
theorem reparse_root_tree_changes :
    ∃ h2, Template.Parse exEnv2 (New ⟨[], []⟩ "page").2 (New ⟨[], []⟩ "page").1 "defs" =
        .ok ((some 0, none), exDefs) ∧
      templateNames exDefs 0 = ["page", "header"] ∧
      Template.Parse exEnv2 exDefs 0 "second" =
        .ok ((none, some (.errorf "nifi: redefinition of nifi %q" "header")), h2) ∧
      deref exDefs 0 = .ok ⟨"page", some 6, some 0, "", ""⟩ ∧
      deref h2 0 = .ok ⟨"page", some 7, some 0, "", ""⟩ :=
  ⟨_, rfl, rfl, rfl, rfl, rfl⟩

/-! ## Handles without a tree, and handles that `Parse` leaves alone -/

/-- Claim C1, evaluated on the code. A handle made by `New` and initialized by `Funcs` is
cloned, which registers the clone root under "page" with no tree. `associate` on the clone
root with an empty candidate tree, where the claim expects `(false, nil)`, panics with a nil
dereference when it reads the tree of the registered handle; so does `associate` with a
non-empty candidate, and so does `Parse` of the text "e", whose only tree is empty. -/
theorem associate_nil_tree_panics :
    ∃ h1 h2 c, Template.Funcs exEnv (New ⟨[], []⟩ "page").2 0 [] = .ok (0, h1) ∧
      Template.Clone h1 0 = .ok ((c, none), h2) ∧
      lookupView h2 c "page" = .ok (some (c, ⟨"page", none, some 1, "", ""⟩)) ∧
      exEnv.IsEmptyTree 2 = true ∧
      Template.associate exEnv h2 c c (some 2) = .error .nilDeref ∧
      exEnv.IsEmptyTree 1 = false ∧
      Template.associate exEnv h2 c c (some 1) = .error .nilDeref ∧
      Template.Parse exEnv h2 c "e" = .error .nilDeref :=
  ⟨_, _, _, rfl, rfl, rfl, rfl, rfl, rfl, rfl, rfl⟩

/-- Claim C2, evaluated on the code. A handle made by `New` and initialized by `Funcs` is
cloned and `AddParseTree` registers "header" with the non-empty tree 3 in the clone. The
parser answers the text "a" with a non-empty tree under "header", so the claim expects a
redefinition error; `Parse` visits "page" first, reads the tree of the clone root, which
has none, and panics with a nil dereference. -/
theorem parse_redefinition_panics :
    ∃ h1 h2 h3 c nt, Template.Funcs exEnv (New ⟨[], []⟩ "page").2 0 [] = .ok (0, h1) ∧
      Template.Clone h1 0 = .ok ((c, none), h2) ∧
      Template.AddParseTree h2 c "header" (some 3) = .ok ((some nt, none), h3) ∧
      lookupView h3 c "header" = .ok (some (nt, ⟨"header", some 3, some 1, "", ""⟩)) ∧
      exEnv.IsEmptyTree 3 = false ∧
      exEnv.Parse "page" "a" "" "" [] = .ok [("page", 1), ("header", 3)] ∧
      Template.Parse exEnv h3 c "a" = .error .nilDeref :=
  ⟨_, _, _, _, _, rfl, rfl, rfl, rfl, rfl, rfl, rfl⟩

/-- Claim C9, evaluated on the code. After `init` has run on the fresh handle "page",
through `Funcs` or through `t.New`, `Lookup` of the handle's own name returns nil and
`Templates` returns an empty list, which does not include the handle itself; `Templates`
on the handle before `init` is empty as well. -/
theorem initialized_root_not_registered :
    (∃ h1, Template.Funcs exEnv (New ⟨[], []⟩ "page").2 0 [] = .ok (0, h1) ∧
      Template.Name h1 0 = .ok "page" ∧ Template.Lookup h1 0 "page" = .ok none ∧
      Template.Templates h1 0 = .ok []) ∧
    (∃ nt h1, Template.New (New ⟨[], []⟩ "page").2 0 "header" = .ok (nt, h1) ∧
      Template.Name h1 0 = .ok "page" ∧ Template.Lookup h1 0 "page" = .ok none ∧
      Template.Templates h1 0 = .ok []) ∧
    Template.Templates (New ⟨[], []⟩ "page").2 0 = .ok [] :=
  ⟨⟨_, rfl, rfl, rfl, rfl⟩, ⟨_, _, rfl, rfl, rfl, rfl⟩, rfl⟩

theorem shape_old (g g' : Heap) (x : TmplPtr) (a : CommonPtr) (tn L R m : String) (tr : TreePtr)
    (hshape : g' = adoptHeap (madeTmpl g x tn m a L R).2 a m (madeTmpl g x tn m a L R).1 tr L R ∨
      g' = keepHeap (madeTmpl g x tn m a L R).2 (madeTmpl g x tn m a L R).1 L R ∨
      g' = (madeTmpl g x tn m a L R).2)
    (p : TmplPtr) (hp : p < g.templates.length) (hpx : p ≠ x) :
    g'.templates[p]? = g.templates[p]? := by
  have hne : p ≠ (madeTmpl g x tn m a L R).1 := by
    rw [madeTmpl_fst]
    by_cases hm : m = tn
    · simp only [hm, if_true]; exact hpx
    · simp only [hm, if_false]; exact Nat.ne_of_lt hp
  have hold := madeTmpl_get_old g x tn m a L R p hp
  rcases hshape with h1 | h1 | h1
  · rw [h1, adoptHeap_get, if_neg hne, hold]
  · rw [h1, keepHeap_get, if_neg hne, hold]
  · rw [h1, hold]

theorem parseLoop_old (E : Env) (x : TmplPtr) (a : CommonPtr) (tn L R : String)
    (M : List (String × TreePtr)) :
    ∀ g g' r, Live g x a tn L R → parseLoop E g x M = .ok (r, g') →
      ∀ p : TmplPtr, p < g.templates.length → p ≠ x → g'.templates[p]? = g.templates[p]? := by
  induction M with
  | nil =>
    intro g g' r _ hrun p _ _
    simp only [parseLoop, Except.ok.injEq, Prod.mk.injEq] at hrun
    rw [← hrun.2]
  | cons e rest ih =>
    obtain ⟨m, tr⟩ := e
    intro g g' r hlive hrun p hp hpx
    cases hs : parseStep E g x m tr with
    | error f => rw [parseLoop_cons_fault E g x m tr f rest hs] at hrun; cases hrun
    | ok res =>
      obtain ⟨o, g1⟩ := res
      have h1 := shape_old g g1 x a tn L R m tr
        (parseStep_shape E g g1 x a tn L R m tr o hlive hs) p hp hpx
      have hne : a + 1 ≠ a := Nat.succ_ne_self a
      obtain ⟨_, hlive1⟩ := parseStep_frame E (a + 1) a g g1 x tn L R m tr o hne hlive hs
      cases o with
      | some err =>
        rw [parseLoop_cons_err E g g1 x m tr err rest hs] at hrun
        simp only [Except.ok.injEq, Prod.mk.injEq] at hrun
        rw [← hrun.2]; exact h1
      | none =>
        rw [parseLoop_cons_ok E g g1 x m tr rest hs] at hrun
        have hp1 : p < g1.templates.length := by
          have hv : g.templates[p]? = some g.templates[p] := List.getElem?_eq_getElem hp
          rw [← h1] at hv
          exact lt_of_get _ _ _ hv
        rw [ih g1 g' r hlive1 hrun p hp1 hpx, h1]

/-- Claim C12, as the code has it. When a successful `Parse` on `t` adopts a non-empty
tree `T` for a nested name `n` that was registered with an empty tree, `Lookup(n)`
afterwards is a handle allocated by the call, different from the one registered before,
with name `n`, tree `T` and the namespace and delimiters of `t`; the handle registered
before is left as it was, with its empty tree. -/
theorem parse_nested_new_handle (E : Env) (h h' : Heap) (t : TmplPtr) (tv : Template)
    (text : String) (M : List (String × TreePtr)) (r : Option TmplPtr) (n : String)
    (T e : TreePtr) (p : TmplPtr) (pv : Template)
    (hwf : WF h t) (ht : deref h t = .ok tv)
    (hp : E.Parse tv.name text tv.leftDelim tv.rightDelim (parseFuncsOf h t) = .ok M)
    (hnd : (keys M).Nodup)
    (hrun : Template.Parse E h t text = .ok ((r, none), h'))
    (hn : n ≠ tv.name) (hT : (n, T) ∈ M) (hTe : E.IsEmptyTree T = false)
    (hlook : lookupView h t n = .ok (some (p, pv))) (hpe : pv.Tree = some e)
    (hee : E.IsEmptyTree e = true) :
    ∃ q, lookupView h' t n =
        .ok (some (q, ⟨n, some T, tv.common, tv.leftDelim, tv.rightDelim⟩)) ∧
      q ≠ p ∧ deref h q = .error .nilDeref ∧
      deref h p = .ok pv ∧ deref h' p = .ok pv := by
  have ht' := get_of_deref h t tv ht
  obtain ⟨hinv, hlook0, _, hlen⟩ := init_inv h t tv hwf ht'
  rw [Parse_of_WF E h t tv text hwf ht', hp] at hrun
  obtain ⟨hloop, _⟩ := parseTail_ok_none E _ h' t M r hrun
  obtain ⟨hinv', _, _, hin⟩ := parseLoop_ok E t _ _ _ _ M _ h' hinv hnd hloop
  have hvn : view (initHeap h t tv) (initCommon h tv) n = some (p, pv) := by
    have := hlook0 n
    rw [hlook] at this
    exact (Except.ok.inj this).symm
  have hcom : tv.common = some (initCommon h tv) := by
    cases hc : tv.common with
    | some c => simp [initCommon, hc]
    | none =>
      exfalso
      have : lookupView h t n = .ok none := by
        simp [lookupView, Template.Lookup, deref, ht', hc]
      rw [hlook] at this; cases this
  have hinit : initHeap h t tv = h := by
    have h1 := init_eq h t tv ht'
    have h2 := init_of_some h t tv _ ht' hcom
    rw [h1] at h2
    exact Except.ok.inj h2
  obtain ⟨hplt0, hpget0⟩ := view_lt _ _ n p pv hvn
  have hplt : p < h.templates.length := by
    rw [hlen] at hplt0; exact hplt0
  have hpt : p ≠ t := by
    intro hpt
    have hreg : regAt (initHeap h t tv) (initCommon h tv) n = some p := by
      unfold view at hvn
      cases hr : regAt (initHeap h t tv) (initCommon h tv) n with
      | none => simp [hr] at hvn
      | some p0 =>
        rw [hr] at hvn
        cases hg : (initHeap h t tv).templates[p0]? with
        | none => simp [hg] at hvn
        | some v =>
          simp only [hg, Option.some.injEq, Prod.mk.injEq] at hvn
          rw [hvn.1]
    exact hn ((hinv.reg n p hreg).2 hpt)
  obtain ⟨cv0, hcv0⟩ : ∃ cv0, (initHeap h t tv).commons[initCommon h tv]? = some cv0 :=
    ⟨_, List.getElem?_eq_getElem hinv.hc⟩
  have hold := parseLoop_old E t (initCommon h tv) tv.name tv.leftDelim tv.rightDelim M
    (initHeap h t tv) h' none ⟨hinv.ht, cv0, hcv0⟩ hloop p hplt0 hpt
  have hp0 : h.templates[p]? = some pv := by rw [← hinit]; exact hpget0
  rw [lookupView_of_Inv _ t _ _ _ _ hinv' n]
  rcases hin n T hT with ⟨_, q, hq, hqb⟩ | ⟨hvd, _⟩
  · simp only [hn, if_false] at hqb
    rw [hlen] at hqb
    refine ⟨q, by rw [hq, hcom], ?_, deref_none h q (List.getElem?_eq_none hqb),
      deref_eq h p pv hp0, deref_eq h' p pv (by rw [hold]; exact hpget0)⟩
    exact (Nat.ne_of_lt (Nat.lt_of_lt_of_le hplt hqb)).symm
  · rw [verdict_of_tree E _ _ n T e p pv hvn hpe] at hvd
    simp [hTe, hee] at hvd

theorem parse_nested_new_handle_witness :
    ∃ q, lookupView
        ⟨[⟨"page", some 2, some 0, "", ""⟩, ⟨"header", some 4, some 0, "", ""⟩,
          ⟨"header", some 3, some 0, "", ""⟩], [⟨[("page", 0), ("header", 2)], [], []⟩]⟩
        0 "header" = .ok (some (q, ⟨"header", some 3, some 0, "", ""⟩)) ∧
      q ≠ 1 ∧ deref exDecl q = .error .nilDeref ∧
      deref exDecl 1 = .ok ⟨"header", some 4, some 0, "", ""⟩ ∧
      deref
        ⟨[⟨"page", some 2, some 0, "", ""⟩, ⟨"header", some 4, some 0, "", ""⟩,
          ⟨"header", some 3, some 0, "", ""⟩], [⟨[("page", 0), ("header", 2)], [], []⟩]⟩
        1 = .ok ⟨"header", some 4, some 0, "", ""⟩ :=
  parse_nested_new_handle exEnv2 exDecl _ 0 ⟨"page", some 2, some 0, "", ""⟩ "defs"
    [("page", 6), ("header", 3)] (some 0) "header" 3 4 1 ⟨"header", some 4, some 0, "", ""⟩
    (by simp [WF, exDecl]) rfl rfl (by simp [keys]) rfl (by simp) (by simp) rfl rfl rfl rfl

end Nifi
